import Mathlib

/-!
Verification development for the msut core library.

Part 1: the BIN1 binary container codec (src/core/src/utilities/parse/
encode.rs, decode.rs, helper.rs).  Byte buffers are modelled as lists of
naturals below 256; IEEE-754 doubles and singles are modelled by their bit
patterns (naturals below 2^64 and 2^32), which is exact for everything the
codec does with them (byte serialization and the sign test v < 0.0).

A note on the source: decode.rs assigns the results of read_array_as_f64
to the intensity_array fields, whose declared type in parse_mzml.rs is
Option<Vec<f32>> (also the type consumed by encode.rs via write_f32_le).
The two cannot both be taken literally; we follow the declared field type
and model the intensity reads with the f32 reader (helper.rs,
read_array_as_f32), which is the reader that matches that type and the
stored one-byte format code.  All other reads follow decode.rs verbatim.

Part 2 (further down): the EIC engine and the peak pipeline over an exact
model of floating point values (rationals extended with infinities and a
NaN), and the Savitzky-Golay kernel.
-/

namespace Msut

/-- Byte buffers: lists of naturals (each < 256 by construction). -/
abbrev Bytes := List Nat

/-- Little-endian serialization of a natural into `k` bytes (the model of
`to_le_bytes` for u32/u64/f64 bit patterns). -/
def natLeBytes (k : Nat) (v : Nat) : Bytes :=
  match k with
  | 0 => []
  | k' + 1 => v % 256 :: natLeBytes k' (v / 256)

/-- Little-endian value of a byte list (the model of `from_le_bytes`). -/
def leNat (bs : Bytes) : Nat :=
  match bs with
  | [] => 0
  | b :: rest => b + 256 * leNat rest

/-- The segment of `n` bytes of `b` starting at `off` (the model of a
slice `b[off..off+n]`). -/
def seg (b : Bytes) (off n : Nat) : Bytes :=
  (b.drop off).take n

@[simp] theorem natLeBytes_length (k v : Nat) : (natLeBytes k v).length = k := by
  induction k generalizing v with
  | zero => rfl
  | succ k ih => simp [natLeBytes, ih]

theorem leNat_natLeBytes (k v : Nat) : leNat (natLeBytes k v) = v % 2 ^ (8 * k) := by
  induction k generalizing v with
  | zero => simp [natLeBytes, leNat, Nat.mod_one]
  | succ k ih =>
    simp only [natLeBytes, leNat, ih]
    have h1 : 2 ^ (8 * (k + 1)) = 256 * 2 ^ (8 * k) := by ring
    rw [h1, Nat.mod_mul]

theorem leNat_natLeBytes_of_lt {k v : Nat} (h : v < 2 ^ (8 * k)) :
    leNat (natLeBytes k v) = v := by
  rw [leNat_natLeBytes, Nat.mod_eq_of_lt h]

@[simp] theorem seg_nil (off n : Nat) : seg [] off n = [] := by
  simp [seg]

theorem seg_append_left {xs ys : Bytes} {off n : Nat} (h : off + n ≤ xs.length) :
    seg (xs ++ ys) off n = seg xs off n := by
  unfold seg
  rw [List.drop_append_of_le_length (by omega), List.take_append_of_le_length]
  simp
  omega

theorem seg_append_shift (xs ys : Bytes) (k n : Nat) :
    seg (xs ++ ys) (xs.length + k) n = seg ys k n := by
  unfold seg
  rw [List.drop_append]

theorem seg_append_shift' {xs : Bytes} (ys : Bytes) {m : Nat} (k n : Nat)
    (h : xs.length = m) : seg (xs ++ ys) (m + k) n = seg ys k n := by
  subst h; exact seg_append_shift xs ys k n

theorem seg_all (xs : Bytes) : seg xs 0 xs.length = xs := by
  simp [seg]

theorem seg_take_all {xs : Bytes} {n : Nat} (h : xs.length ≤ n) : seg xs 0 n = xs := by
  simp [seg, List.take_of_length_le h]

/-! ### IEEE-754 bit-pattern helpers

Doubles are naturals < 2^64, singles are naturals < 2^32, interpreted as
the IEEE-754 binary64 / binary32 bit patterns.  The codec only ever needs
the sign test (`v < 0.0` on a just-deserialized double), the bit pattern
of -1.0, and the two format conversions of helper.rs. -/

/-- Bit pattern of the f64 value -1.0 (the absent-field sentinel). -/
def f64NegOne : Nat := 0xBFF0000000000000

/-- The IEEE comparison `v < 0.0` on an f64 bit pattern: true exactly for
negative non-NaN values other than -0.0. -/
def f64LtZero (v : Nat) : Bool :=
  let sign := v / 2 ^ 63 % 2
  let mag := v % 2 ^ 63
  let exp := mag / 2 ^ 52
  let frac := mag % 2 ^ 52
  sign = 1 && !(exp = 2047 && frac ≠ 0) && mag ≠ 0

/-- Widening conversion of an f32 bit pattern to the f64 bit pattern of
the same value (`x as f64` on a single; exact for all finite values). -/
def f32ToF64Bits (v : Nat) : Nat :=
  let s := v / 2 ^ 31 % 2
  let e := v / 2 ^ 23 % 2 ^ 8
  let m := v % 2 ^ 23
  if e = 255 then
    -- infinity / NaN: widen the payload into the top of the f64 mantissa
    s * 2 ^ 63 + 2047 * 2 ^ 52 + m * 2 ^ 29
  else if e = 0 then
    if m = 0 then s * 2 ^ 63
    else
      -- subnormal single: value m * 2^-149, normalized in binary64
      let l := Nat.log2 m
      s * 2 ^ 63 + (l + 874) * 2 ^ 52 + (m - 2 ^ l) * 2 ^ (52 - l)
  else s * 2 ^ 63 + (e + 896) * 2 ^ 52 + m * 2 ^ 29

/-- Round a mantissa right-shifted by `k` bits to nearest, ties to even. -/
def rshiftRne (m k : Nat) : Nat :=
  if k = 0 then m
  else
    let q := m / 2 ^ k
    let r := m % 2 ^ k
    let half := 2 ^ (k - 1)
    if r > half ∨ (r = half ∧ q % 2 = 1) then q + 1 else q

/-- Round the positive value `M * 2^E` to the nearest f32, returning the
magnitude bits (sign excluded); saturates to infinity above the range. -/
def roundMagF32 (M : Nat) (E : Int) : Nat :=
  if M = 0 then 0
  else
    let L : Int := Nat.log2 M
    let re : Int := L + E
    if re < -126 then
      -- subnormal target: value M'' * 2^-149
      let sh : Int := -(E + 149)
      let M'' := if sh ≤ 0 then M * 2 ^ (-sh).toNat else rshiftRne M sh.toNat
      if M'' ≥ 2 ^ 24 then 255 * 2 ^ 23
      else if M'' ≥ 2 ^ 23 then 2 ^ 23 + (M'' - 2 ^ 23)
      else M''
    else
      let sh : Int := L - 23
      let M' := if sh ≤ 0 then M * 2 ^ (-sh).toNat else rshiftRne M sh.toNat
      let re' : Int := if M' ≥ 2 ^ 24 then re + 1 else re
      let M2 := if M' ≥ 2 ^ 24 then M' / 2 else M'
      if re' > 127 then 255 * 2 ^ 23
      else (re' + 127).toNat * 2 ^ 23 + (M2 - 2 ^ 23)

/-- The f64 bit pattern of f32::MAX, i.e. (2^24-1)*2^104. -/
def f32MaxAsF64Bits : Nat := 1150 * 2 ^ 52 + (2 ^ 23 - 1) * 2 ^ 29

/-- Narrowing conversion with clamping (helper.rs, f64_to_f32_lossy):
non-finite values pass through the cast, finite values above f32::MAX in
magnitude clamp to f32::MAX of the same sign, the rest rounds to nearest. -/
def f64ToF32Lossy (v : Nat) : Nat :=
  let s : Nat := v / 2 ^ 63 % 2
  let e : Nat := v / 2 ^ 52 % 2 ^ 11
  let m : Nat := v % 2 ^ 52
  if e = 2047 then
    if m = 0 then s * 2 ^ 31 + 255 * 2 ^ 23
    else
      -- NaN: quiet, payload truncated
      let p := m / 2 ^ 29
      s * 2 ^ 31 + 255 * 2 ^ 23 + (if p < 2 ^ 22 then p + 2 ^ 22 else p)
  else
    let mag := v % 2 ^ 63
    if mag > f32MaxAsF64Bits then s * 2 ^ 31 + 254 * 2 ^ 23 + (2 ^ 23 - 1)
    else if e = 0 then s * 2 ^ 31 + roundMagF32 m (-1074)
    else s * 2 ^ 31 + roundMagF32 (m + 2 ^ 52) ((e : Int) - 1075)

/-! ### UTF-8 validity (std::str::from_utf8 acceptance) -/

/-- Is the byte a UTF-8 continuation byte? -/
def utf8Cont (b : Nat) : Bool := 0x80 ≤ b && b ≤ 0xBF

/-- Validity of a byte sequence as UTF-8 (the exact acceptance of
std::str::from_utf8: shortest forms only, no surrogates, max U+10FFFF). -/
def utf8Valid : Bytes → Bool
  | [] => true
  | b :: rest =>
    if b < 0x80 then utf8Valid rest
    else if b < 0xC2 then false
    else if b < 0xE0 then
      match rest with
      | c1 :: r => utf8Cont c1 && utf8Valid r
      | [] => false
    else if b < 0xF0 then
      match rest with
      | c1 :: c2 :: r =>
        (if b = 0xE0 then 0xA0 ≤ c1 && c1 ≤ 0xBF
         else if b = 0xED then 0x80 ≤ c1 && c1 ≤ 0x9F
         else utf8Cont c1) && utf8Cont c2 && utf8Valid r
      | _ => false
    else if b < 0xF5 then
      match rest with
      | c1 :: c2 :: c3 :: r =>
        (if b = 0xF0 then 0x90 ≤ c1 && c1 ≤ 0xBF
         else if b = 0xF4 then 0x80 ≤ c1 && c1 ≤ 0x8F
         else utf8Cont c1) && utf8Cont c2 && utf8Cont c3 && utf8Valid r
      | _ => false
    else false

/-! ### Data model (parse_mzml.rs)

Strings are modelled as their byte lists.  Optional one-byte fields hold
naturals < 256; optional doubles hold f64 bit patterns; intensity arrays
hold f32 bit patterns (the declared Vec<f32> element type). -/

/-- Precursor metadata of a spectrum (parse_mzml.rs, struct Precursor). -/
structure Precursor where
  isolation_window_target_mz : Option Nat
  isolation_window_lower_offset : Option Nat
  isolation_window_upper_offset : Option Nat
  selected_ion_mz : Option Nat
deriving DecidableEq, Repr

/-- Per-spectrum summary (parse_mzml.rs, struct SpectrumSummary). -/
structure SpectrumSummary where
  index : Nat
  array_length : Nat
  ms_level : Option Nat
  polarity : Option Nat
  spectrum_type : Option Nat
  retention_time : Option Nat
  scan_window_lower_limit : Option Nat
  scan_window_upper_limit : Option Nat
  total_ion_current : Option Nat
  base_peak_intensity : Option Nat
  base_peak_mz : Option Nat
  mz_array : Option (List Nat)
  intensity_array : Option (List Nat)
  precursor : Option Precursor
deriving DecidableEq, Repr

/-- Per-chromatogram summary (parse_mzml.rs, struct ChromatogramSummary). -/
structure ChromatogramSummary where
  index : Nat
  array_length : Nat
  time_array : Option (List Nat)
  intensity_array : Option (List Nat)
  id : Bytes
deriving DecidableEq, Repr

/-- One run (parse_mzml.rs, struct Run). -/
structure Run where
  id : Bytes
  start_time_stamp : Option Bytes
  default_instrument_configuration_ref : Option Bytes
  spectrum_list_count : Option Nat
  chromatogram_list_count : Option Nat
  spectra : List SpectrumSummary
  chromatograms : List ChromatogramSummary
deriving DecidableEq, Repr

/-- The document root, restricted to the one field the codec touches
(encode.rs reads only mzml.run; decode.rs fills the other fields of the
source MzML struct with empty defaults). -/
structure MzML where
  run : Option Run
deriving DecidableEq, Repr

/-! ### The encoder (encode.rs, encode) -/

/-- 8-byte alignment of a cursor: (x + 7) & !7. -/
def a8 (x : Nat) : Nat := (x + 7) / 8 * 8

/-- State of the payload writer: the absolute cursor and the payload bytes
emitted so far (the region from data_offset on). -/
structure PlaceSt where
  cur : Nat
  bytes : Bytes
deriving Repr

/-- Write one optional array into the payload (encode.rs array loops with
helper.rs write_f64_le / write_f32_le): align the cursor to 8, emit the
elements, return the (offset, element count) index pair.  Absent or empty
arrays emit nothing and give (0, 0).  Alignment gap bytes are left
uninitialized by the source (Vec::set_len) and are modelled as zeros. -/
def placeArr (elemSz : Nat) (enc : Nat → Bytes) (st : PlaceSt) (arr : Option (List Nat)) :
    (Nat × Nat) × PlaceSt :=
  match arr with
  | some v =>
    if v.isEmpty then ((0, 0), st)
    else
      let c := a8 st.cur
      (⟨c, v.length⟩,
       ⟨c + v.length * elemSz, st.bytes ++ List.replicate (c - st.cur) 0 ++ v.flatMap enc⟩)
  | none => ((0, 0), st)

/-- One pass of the payload writer over a family of optional arrays. -/
def placePhase (elemSz : Nat) (enc : Nat → Bytes) :
    List (Option (List Nat)) → PlaceSt → List (Nat × Nat) × PlaceSt
  | [], st => ([], st)
  | a :: rest, st =>
    let p := placeArr elemSz enc st a
    let ps := placePhase elemSz enc rest p.2
    (p.1 :: ps.1, ps.2)

/-- Write one chromatogram id string (encode.rs lines 135-151). -/
def placeId (st : PlaceSt) (id : Bytes) : (Nat × Nat) × PlaceSt :=
  if id.isEmpty then ((0, 0), st)
  else
    let c := a8 st.cur
    (⟨c, id.length⟩, ⟨c + id.length, st.bytes ++ List.replicate (c - st.cur) 0 ++ id⟩)

/-- The id-writing pass of the payload writer. -/
def placeIds : List Bytes → PlaceSt → List (Nat × Nat) × PlaceSt
  | [], st => ([], st)
  | a :: rest, st =>
    let p := placeId st a
    let ps := placeIds rest p.2
    (p.1 :: ps.1, ps.2)

/-- The four magic bytes of the full container. -/
def bin1Magic : Bytes := [0x42, 0x49, 0x4E, 0x31]

/-- The four magic bytes of the arrays-only container. -/
def binsMagic : Bytes := [0x42, 0x49, 0x4E, 0x53]

/-- One 32-byte index entry: x_off u64, x_len u32, y_off u64, y_len u32,
reserved u64 (encode.rs lines 153-172). -/
def indexEntry (x y : Nat × Nat) : Bytes :=
  natLeBytes 8 x.1 ++ natLeBytes 4 x.2 ++ natLeBytes 8 y.1 ++ natLeBytes 4 y.2 ++
  natLeBytes 8 0

/-- The four precursor doubles as written (encode.rs lines 188-196):
absent fields and an absent precursor write the -1.0 sentinel. -/
def precFields (o : Option Precursor) : Nat × Nat × Nat × Nat :=
  match o with
  | some p =>
    (p.isolation_window_target_mz.getD f64NegOne,
     p.isolation_window_lower_offset.getD f64NegOne,
     p.isolation_window_upper_offset.getD f64NegOne,
     p.selected_ion_mz.getD f64NegOne)
  | none => (f64NegOne, f64NegOne, f64NegOne, f64NegOne)

/-- One 104-byte spectrum metadata entry (encode.rs lines 174-201).  The
source writes only the first 92 bytes of each entry; the last 12 stay
uninitialized and are modelled as zeros. -/
def specMetaEntry (s : SpectrumSummary) : Bytes :=
  natLeBytes 4 s.index ++ natLeBytes 4 s.array_length ++
  [s.ms_level.getD 255, s.polarity.getD 255, s.spectrum_type.getD 255, 0] ++
  natLeBytes 8 (s.retention_time.getD f64NegOne) ++
  natLeBytes 8 (s.scan_window_lower_limit.getD f64NegOne) ++
  natLeBytes 8 (s.scan_window_upper_limit.getD f64NegOne) ++
  natLeBytes 8 (s.total_ion_current.getD f64NegOne) ++
  natLeBytes 8 (s.base_peak_intensity.getD f64NegOne) ++
  natLeBytes 8 (s.base_peak_mz.getD f64NegOne) ++
  natLeBytes 8 (precFields s.precursor).1 ++
  natLeBytes 8 (precFields s.precursor).2.1 ++
  natLeBytes 8 (precFields s.precursor).2.2.1 ++
  natLeBytes 8 (precFields s.precursor).2.2.2 ++
  List.replicate 12 0

/-- One 24-byte chromatogram metadata entry (encode.rs lines 203-211). -/
def chromMetaEntry (c : ChromatogramSummary) (idOl : Nat × Nat) : Bytes :=
  natLeBytes 4 c.index ++ natLeBytes 4 c.array_length ++
  natLeBytes 8 idOl.1 ++ natLeBytes 4 idOl.2 ++ natLeBytes 4 0

/-- The 64-byte header of a present run (encode.rs lines 85-101 and
213-219): table offsets are written only for non-empty families. -/
def encodeHeader (ns nc sio cio smo cmo dof total : Nat) : Bytes :=
  bin1Magic ++ natLeBytes 4 ns ++ natLeBytes 4 nc ++ [2, 1, 2, 1] ++
  natLeBytes 8 (if 0 < ns then sio else 0) ++
  natLeBytes 8 (if 0 < nc then cio else 0) ++
  natLeBytes 8 (if 0 < ns then smo else 0) ++
  natLeBytes 8 (if 0 < nc then cmo else 0) ++
  natLeBytes 8 dof ++ natLeBytes 8 total

/-- The encoder (encode.rs, encode): for an absent run, a bare 64-byte
header; otherwise header, the two 32-byte index tables, the two metadata
tables, then the 8-byte-aligned payload written in the order spectra.mz,
spectra.intensity, chrom.time, chrom.intensity, chrom ids. -/
def encode (m : MzML) : Bytes :=
  match m.run with
  | none =>
    bin1Magic ++ natLeBytes 4 0 ++ natLeBytes 4 0 ++ [2, 1, 2, 1] ++
    natLeBytes 8 0 ++ natLeBytes 8 0 ++ natLeBytes 8 0 ++ natLeBytes 8 0 ++
    natLeBytes 8 0 ++ natLeBytes 8 64
  | some run =>
    let ns := run.spectra.length
    let nc := run.chromatograms.length
    let cio := 64 + 32 * ns
    let smo := cio + 32 * nc
    let cmo := smo + 104 * ns
    let dof := cmo + 24 * nc
    let r1 := placePhase 8 (natLeBytes 8) (run.spectra.map (·.mz_array)) ⟨dof, []⟩
    let r2 := placePhase 4 (natLeBytes 4) (run.spectra.map (·.intensity_array)) r1.2
    let r3 := placePhase 8 (natLeBytes 8) (run.chromatograms.map (·.time_array)) r2.2
    let r4 := placePhase 4 (natLeBytes 4) (run.chromatograms.map (·.intensity_array)) r3.2
    let r5 := placeIds (run.chromatograms.map (·.id)) r4.2
    encodeHeader ns nc 64 cio smo cmo dof r5.2.cur ++
    (r1.1.zip r2.1).flatMap (fun p => indexEntry p.1 p.2) ++
    (r3.1.zip r4.1).flatMap (fun p => indexEntry p.1 p.2) ++
    run.spectra.flatMap specMetaEntry ++
    (run.chromatograms.zip r5.1).flatMap (fun p => chromMetaEntry p.1 p.2) ++
    r5.2.bytes

/-! ### The decoder (decode.rs, decode; helper.rs readers) -/

/-- Checked little-endian u32 read (helper.rs, rd_u32). -/
def rdU32 (b : Bytes) (p : Nat) : Except String Nat :=
  if p + 4 ≤ b.length then .ok (leNat (seg b p 4)) else .error "u32 OOB"

/-- Checked little-endian u64 read (helper.rs, rd_u64). -/
def rdU64 (b : Bytes) (p : Nat) : Except String Nat :=
  if p + 8 ≤ b.length then .ok (leNat (seg b p 8)) else .error "u64 OOB"

/-- Checked f64 read, the result as a bit pattern (helper.rs, rd_f64). -/
def rdF64 (b : Bytes) (p : Nat) : Except String Nat :=
  if p + 8 ≤ b.length then .ok (leNat (seg b p 8)) else .error "f64 OOB"

/-- Plain byte access bin[i], used by decode.rs only at positions already
covered by a region bounds check. -/
def byteAt (b : Bytes) (i : Nat) : Nat := b.getD i 0

/-- Read n consecutive k-byte little-endian values starting at off. -/
def readLeChunk (b : Bytes) (k off n : Nat) : List Nat :=
  (List.range n).map (fun i => leNat (seg b (off + k * i) k))

/-- helper.rs, read_array_as_f64: absent for offset 0 or length 0; format
2 reads f64 bit patterns directly, format 1 reads f32 bit patterns and
widens them; other formats are an error. -/
def read_array_as_f64 (buf : Bytes) (off len : Nat) (fmt : Nat) :
    Except String (Option (List Nat)) :=
  if off = 0 ∨ len = 0 then .ok none
  else if fmt = 2 then
    if off + len * 8 ≤ buf.length then .ok (some (readLeChunk buf 8 off len))
    else .error "f64 array OOB"
  else if fmt = 1 then
    if off + len * 4 ≤ buf.length then
      .ok (some ((readLeChunk buf 4 off len).map f32ToF64Bits))
    else .error "f32 array OOB"
  else .error "unknown fmt"

/-- helper.rs, read_array_as_f32: format 1 reads f32 bit patterns
directly, format 2 reads f64 bit patterns and narrows with clamping. -/
def read_array_as_f32 (buf : Bytes) (off len : Nat) (fmt : Nat) :
    Except String (Option (List Nat)) :=
  if off = 0 ∨ len = 0 then .ok none
  else if fmt = 1 then
    if off + len * 4 ≤ buf.length then .ok (some (readLeChunk buf 4 off len))
    else .error "f32 array OOB"
  else if fmt = 2 then
    if off + len * 8 ≤ buf.length then
      .ok (some ((readLeChunk buf 8 off len).map f64ToF32Lossy))
    else .error "f64 array OOB"
  else .error "unknown fmt"

/-- Monadic loop collecting f i, f (i+1), ..., m results in all, aborting
at the first error (the shape of the decoder's indexed for-loops). -/
def exceptRangeAux (f : Nat → Except String α) : Nat → Nat → Except String (List α)
  | 0, _i => .ok []
  | m + 1, i => do
    let x ← f i
    let xs ← exceptRangeAux f m (i + 1)
    return x :: xs

/-- Collect f 0, ..., f (n-1), aborting at the first error. -/
def exceptRange (n : Nat) (f : Nat → Except String α) : Except String (List α) :=
  exceptRangeAux f n 0

/-- Pairwise monadic traversal, the shape of the decoder's enumerate
loops over an index table next to the entry list (always equal length). -/
def exceptZipWith (f : α → β → Except String γ) :
    List α → List β → Except String (List γ)
  | a :: as', b :: bs => do
    let c ← f a b
    let cs ← exceptZipWith f as' bs
    return c :: cs
  | _, _ => .ok []

/-- Sentinel decoding of an optional f64 field: negative means absent. -/
def sentinelF64 (v : Nat) : Option Nat := if f64LtZero v then none else some v

/-- Sentinel decoding of an optional one-byte field: 255 means absent. -/
def sentinelU8 (v : Nat) : Option Nat := if v = 255 then none else some v

/-- Read one 32-byte index entry table (decode.rs lines 35-59). -/
def readIndexTable (bin : Bytes) (off n : Nat) :
    Except String (List (Nat × Nat × Nat × Nat)) :=
  exceptRange n (fun i => do
    let b := off + i * 32
    let xo ← rdU64 bin b
    let xl ← rdU32 bin (b + 8)
    let yo ← rdU64 bin (b + 12)
    let yl ← rdU32 bin (b + 20)
    return (xo, xl, yo, yl))

/-- Read one 104-byte spectrum metadata entry starting at b (decode.rs
lines 69-145); arrays are attached later. -/
def readSpecMetaEntry (bin : Bytes) (b : Nat) : Except String SpectrumSummary := do
  let index ← rdU32 bin b
  let alen ← rdU32 bin (b + 4)
  let ms := sentinelU8 (byteAt bin (b + 8))
  let pol := sentinelU8 (byteAt bin (b + 9))
  let styp := sentinelU8 (byteAt bin (b + 10))
  let rt ← rdF64 bin (b + 12)
  let swl ← rdF64 bin (b + 20)
  let swu ← rdF64 bin (b + 28)
  let tic ← rdF64 bin (b + 36)
  let bpi ← rdF64 bin (b + 44)
  let bpm ← rdF64 bin (b + 52)
  let pt ← rdF64 bin (b + 60)
  let pl ← rdF64 bin (b + 68)
  let pu ← rdF64 bin (b + 76)
  let ps ← rdF64 bin (b + 84)
  let prec :=
    let a := sentinelF64 pt
    let d := sentinelF64 pl
    let e := sentinelF64 pu
    let f := sentinelF64 ps
    if a = none ∧ d = none ∧ e = none ∧ f = none then none
    else some (Precursor.mk a d e f)
  return SpectrumSummary.mk index alen ms pol styp (sentinelF64 rt) (sentinelF64 swl)
    (sentinelF64 swu) (sentinelF64 tic) (sentinelF64 bpi) (sentinelF64 bpm)
    none none prec

/-- Read one 24-byte chromatogram metadata entry starting at b (decode.rs
lines 152-166): the bare summary plus the (id offset, id length) pair. -/
def readChromMetaEntry (bin : Bytes) (b : Nat) :
    Except String (ChromatogramSummary × (Nat × Nat)) := do
  let index ← rdU32 bin b
  let alen ← rdU32 bin (b + 4)
  let off ← rdU64 bin (b + 8)
  let len ← rdU32 bin (b + 16)
  return (ChromatogramSummary.mk index alen none none [], (off, len))

/-- Attach the spectrum arrays of a BIN1 container (decode.rs lines
168-173): all mz arrays with the x format byte, then all intensity arrays
with the y format byte. -/
def attachSpecArrays (bin : Bytes) (sx sy : Nat) (sidx : List (Nat × Nat × Nat × Nat))
    (spectra : List SpectrumSummary) : Except String (List SpectrumSummary) := do
  let s1 ← exceptZipWith (fun s e => do
      let a ← read_array_as_f64 bin e.1 e.2.1 sx
      return { s with mz_array := a }) spectra sidx
  exceptZipWith (fun s e => do
      let a ← read_array_as_f32 bin e.2.2.1 e.2.2.2 sy
      return { s with intensity_array := a }) s1 sidx

/-- Attach the chromatogram arrays of a BIN1 container (decode.rs lines
174-179). -/
def attachChromArrays (bin : Bytes) (cx cy : Nat) (cidx : List (Nat × Nat × Nat × Nat))
    (chroms : List ChromatogramSummary) : Except String (List ChromatogramSummary) := do
  let c1 ← exceptZipWith (fun c e => do
      let a ← read_array_as_f64 bin e.1 e.2.1 cx
      return { c with time_array := a }) chroms cidx
  exceptZipWith (fun c e => do
      let a ← read_array_as_f32 bin e.2.2.1 e.2.2.2 cy
      return { c with intensity_array := a }) c1 cidx

/-- Resolve the chromatogram id slices (decode.rs lines 181-193): empty
for the (0, 0) sentinel, bounds-checked otherwise, with invalid UTF-8
replaced by the empty string. -/
def attachChromIds (bin : Bytes) (chroms : List ChromatogramSummary)
    (ids : List (Nat × Nat)) : Except String (List ChromatogramSummary) :=
  exceptZipWith (fun c ol =>
    if ol.1 = 0 ∨ ol.2 = 0 then .ok { c with id := [] }
    else if ol.1 + ol.2 ≤ bin.length then
      .ok { c with id := if utf8Valid (seg bin ol.1 ol.2) then seg bin ol.1 ol.2 else [] }
    else .error "chrom id OOB") chroms ids

/-- Default spectrum of the arrays-only decode path (decode.rs 195-212). -/
def binsDefaultSpec (i : Nat) : SpectrumSummary :=
  SpectrumSummary.mk i 0 none none none none none none none none none none none none

/-- Default chromatogram of the arrays-only path (decode.rs 213-221). -/
def binsDefaultChrom (i : Nat) : ChromatogramSummary :=
  ChromatogramSummary.mk i 0 none none []

/-- Attach spectrum arrays in the arrays-only path, updating array_length
from the payload sizes (decode.rs lines 222-233). -/
def attachSpecArraysBins (bin : Bytes) (sx sy : Nat) (sidx : List (Nat × Nat × Nat × Nat))
    (spectra : List SpectrumSummary) : Except String (List SpectrumSummary) := do
  let s1 ← exceptZipWith (fun s e => do
      let a ← read_array_as_f64 bin e.1 e.2.1 sx
      let n := (a.map List.length).getD 0
      return { s with mz_array := a, array_length := max n s.array_length }) spectra sidx
  exceptZipWith (fun s e => do
      let a ← read_array_as_f32 bin e.2.2.1 e.2.2.2 sy
      let n := (a.map List.length).getD 0
      return { s with intensity_array := a, array_length := max n s.array_length }) s1 sidx

/-- Attach chromatogram arrays in the arrays-only path (decode.rs lines
234-245). -/
def attachChromArraysBins (bin : Bytes) (cx cy : Nat) (cidx : List (Nat × Nat × Nat × Nat))
    (chroms : List ChromatogramSummary) : Except String (List ChromatogramSummary) := do
  let c1 ← exceptZipWith (fun c e => do
      let a ← read_array_as_f64 bin e.1 e.2.1 cx
      let n := (a.map List.length).getD 0
      return { c with time_array := a, array_length := max n c.array_length }) chroms cidx
  exceptZipWith (fun c e => do
      let a ← read_array_as_f32 bin e.2.2.1 e.2.2.2 cy
      let n := (a.map List.length).getD 0
      return { c with intensity_array := a, array_length := max n c.array_length }) c1 cidx

/-- The decoder (decode.rs, decode).  The format bytes are read exactly as
the source names them: byte 12 and 13 feed the chromatogram array reads,
byte 14 and 15 feed the spectrum array reads. -/
def decode (bin : Bytes) : Except String MzML :=
  if bin.length < 64 then throw "short header" else
  let magic := seg bin 0 4
  rdU32 bin 4 >>= fun n_spec =>
  rdU32 bin 8 >>= fun n_ch =>
  let cx := byteAt bin 12
  let cy := byteAt bin 13
  let sx := byteAt bin 14
  let sy := byteAt bin 15
  rdU64 bin 16 >>= fun s_idx_off =>
  rdU64 bin 24 >>= fun c_idx_off =>
  rdU64 bin 32 >>= fun s_meta_off =>
  rdU64 bin 40 >>= fun c_meta_off =>
  rdU64 bin 48 >>= fun data_off =>
  rdU64 bin 56 >>= fun _total =>
  if data_off > bin.length then throw "data_off OOB" else
  if s_idx_off + n_spec * 32 > bin.length then throw "spec index OOB" else
  readIndexTable bin s_idx_off n_spec >>= fun sidx =>
  if c_idx_off + n_ch * 32 > bin.length then throw "chrom index OOB" else
  readIndexTable bin c_idx_off n_ch >>= fun cidx =>
  if magic = bin1Magic then
    if s_meta_off + n_spec * 104 > bin.length then throw "spec meta OOB" else
    exceptRange n_spec (fun i => readSpecMetaEntry bin (s_meta_off + i * 104)) >>=
      fun spectra0 =>
    if c_meta_off + n_ch * 24 > bin.length then throw "chrom meta OOB" else
    exceptRange n_ch (fun i => readChromMetaEntry bin (c_meta_off + i * 24)) >>= fun cm =>
    attachSpecArrays bin sx sy sidx spectra0 >>= fun spectra =>
    attachChromArrays bin cx cy cidx (cm.map (·.1)) >>= fun chroms1 =>
    attachChromIds bin chroms1 (cm.map (·.2)) >>= fun chroms =>
    pure (MzML.mk (some (Run.mk [] none none (some n_spec) (some n_ch) spectra chroms)))
  else if magic = binsMagic then
    let spectra0 := (List.range n_spec).map binsDefaultSpec
    let chroms0 := (List.range n_ch).map binsDefaultChrom
    attachSpecArraysBins bin sx sy sidx spectra0 >>= fun spectra =>
    attachChromArraysBins bin cx cy cidx chroms0 >>= fun chroms =>
    pure (MzML.mk (some (Run.mk [] none none (some n_spec) (some n_ch) spectra chroms)))
  else throw "bad magic"

/-! ### The decode-of-encode normalization

Encoding writes the -1.0 / 255 / (0,0) sentinels for absent fields and
decoding maps every negative double, the byte 255, and every empty or
absent array back to absence.  The composite therefore acts on each field
as the normalizers below. -/

/-- Field-level action of encode-then-decode on an optional double. -/
def normOptF64 (o : Option Nat) : Option Nat := o.bind sentinelF64

/-- Field-level action of encode-then-decode on an optional byte. -/
def normOptU8 (o : Option Nat) : Option Nat := o.bind sentinelU8

/-- Field-level action of encode-then-decode on an optional array. -/
def normArr (o : Option (List Nat)) : Option (List Nat) :=
  match o with
  | some v => if v.isEmpty then none else some v
  | none => none

/-- Action of encode-then-decode on the precursor: fields normalize, and
a precursor whose four fields all decode absent becomes absent itself. -/
def normPrec (o : Option Precursor) : Option Precursor :=
  match o with
  | none => none
  | some p =>
    let a := normOptF64 p.isolation_window_target_mz
    let d := normOptF64 p.isolation_window_lower_offset
    let e := normOptF64 p.isolation_window_upper_offset
    let f := normOptF64 p.selected_ion_mz
    if a = none ∧ d = none ∧ e = none ∧ f = none then none
    else some (Precursor.mk a d e f)

/-- Action of encode-then-decode on one spectrum summary. -/
def normalizeSpec (s : SpectrumSummary) : SpectrumSummary :=
  SpectrumSummary.mk s.index s.array_length (normOptU8 s.ms_level) (normOptU8 s.polarity)
    (normOptU8 s.spectrum_type) (normOptF64 s.retention_time)
    (normOptF64 s.scan_window_lower_limit) (normOptF64 s.scan_window_upper_limit)
    (normOptF64 s.total_ion_current) (normOptF64 s.base_peak_intensity)
    (normOptF64 s.base_peak_mz) (normArr s.mz_array) (normArr s.intensity_array)
    (normPrec s.precursor)

/-- Action of encode-then-decode on one chromatogram summary. -/
def normalizeChrom (c : ChromatogramSummary) : ChromatogramSummary :=
  ChromatogramSummary.mk c.index c.array_length (normArr c.time_array)
    (normArr c.intensity_array) (if utf8Valid c.id then c.id else [])

/-- Action of encode-then-decode on a run: summaries normalize and the
run-level strings reset to the decoder's defaults. -/
def normalizeRun (r : Run) : Run :=
  Run.mk [] none none (some r.spectra.length) (some r.chromatograms.length)
    (r.spectra.map normalizeSpec) (r.chromatograms.map normalizeChrom)

/-! ### Wire-type well-formedness

The source types enforce these bounds (u32 counts and lengths, u8 codes,
f64/f32 bit patterns, String bytes); in the model they are hypotheses. -/

/-- An optional value all of whose elements are below b. -/
def OptLt (o : Option Nat) (b : Nat) : Prop := ∀ v ∈ o, v < b

/-- An optional array with u32 length and elements below b. -/
def OptArrWF (o : Option (List Nat)) (b : Nat) : Prop :=
  ∀ a ∈ o, a.length < 2 ^ 32 ∧ ∀ v ∈ a, v < b

/-- Wire-type bounds of one spectrum summary. -/
structure SpecWF (s : SpectrumSummary) : Prop where
  index : s.index < 2 ^ 32
  alen : s.array_length < 2 ^ 32
  ms : OptLt s.ms_level 256
  pol : OptLt s.polarity 256
  styp : OptLt s.spectrum_type 256
  rt : OptLt s.retention_time (2 ^ 64)
  swl : OptLt s.scan_window_lower_limit (2 ^ 64)
  swu : OptLt s.scan_window_upper_limit (2 ^ 64)
  tic : OptLt s.total_ion_current (2 ^ 64)
  bpi : OptLt s.base_peak_intensity (2 ^ 64)
  bpm : OptLt s.base_peak_mz (2 ^ 64)
  mz : OptArrWF s.mz_array (2 ^ 64)
  inten : OptArrWF s.intensity_array (2 ^ 32)
  prec : ∀ p ∈ s.precursor, OptLt p.isolation_window_target_mz (2 ^ 64) ∧
    OptLt p.isolation_window_lower_offset (2 ^ 64) ∧
    OptLt p.isolation_window_upper_offset (2 ^ 64) ∧
    OptLt p.selected_ion_mz (2 ^ 64)

/-- Wire-type bounds of one chromatogram summary (the UTF-8 validity of
the id is the Rust String type invariant). -/
structure ChromWF (c : ChromatogramSummary) : Prop where
  index : c.index < 2 ^ 32
  alen : c.array_length < 2 ^ 32
  time : OptArrWF c.time_array (2 ^ 64)
  inten : OptArrWF c.intensity_array (2 ^ 32)
  idLen : c.id.length < 2 ^ 32
  idBytes : ∀ b ∈ c.id, b < 256

/-- Wire-type bounds of a run. -/
structure RunWF (r : Run) : Prop where
  ns : r.spectra.length < 2 ^ 32
  nc : r.chromatograms.length < 2 ^ 32
  spectra : ∀ s ∈ r.spectra, SpecWF s
  chroms : ∀ c ∈ r.chromatograms, ChromWF c

/-! ### Named pieces of the encoder output (for the round-trip proofs) -/

/-- Number of spectra. -/
def encNs (r : Run) : Nat := r.spectra.length

/-- Number of chromatograms. -/
def encNc (r : Run) : Nat := r.chromatograms.length

/-- Chromatogram index table offset. -/
def encCio (r : Run) : Nat := 64 + 32 * encNs r

/-- Spectrum metadata table offset. -/
def encSmo (r : Run) : Nat := encCio r + 32 * encNc r

/-- Chromatogram metadata table offset. -/
def encCmo (r : Run) : Nat := encSmo r + 104 * encNs r

/-- Data (payload) offset. -/
def encDof (r : Run) : Nat := encCmo r + 24 * encNc r

/-- Payload pass 1: spectrum mz arrays. -/
def encR1 (r : Run) : List (Nat × Nat) × PlaceSt :=
  placePhase 8 (natLeBytes 8) (r.spectra.map (·.mz_array)) (PlaceSt.mk (encDof r) [])

/-- Payload pass 2: spectrum intensity arrays. -/
def encR2 (r : Run) : List (Nat × Nat) × PlaceSt :=
  placePhase 4 (natLeBytes 4) (r.spectra.map (·.intensity_array)) (encR1 r).2

/-- Payload pass 3: chromatogram time arrays. -/
def encR3 (r : Run) : List (Nat × Nat) × PlaceSt :=
  placePhase 8 (natLeBytes 8) (r.chromatograms.map (·.time_array)) (encR2 r).2

/-- Payload pass 4: chromatogram intensity arrays. -/
def encR4 (r : Run) : List (Nat × Nat) × PlaceSt :=
  placePhase 4 (natLeBytes 4) (r.chromatograms.map (·.intensity_array)) (encR3 r).2

/-- Payload pass 5: chromatogram ids. -/
def encR5 (r : Run) : List (Nat × Nat) × PlaceSt :=
  placeIds (r.chromatograms.map (·.id)) (encR4 r).2

/-- The spectrum index table bytes. -/
def encSI (r : Run) : Bytes :=
  ((encR1 r).1.zip (encR2 r).1).flatMap (fun p => indexEntry p.1 p.2)

/-- The chromatogram index table bytes. -/
def encCI (r : Run) : Bytes :=
  ((encR3 r).1.zip (encR4 r).1).flatMap (fun p => indexEntry p.1 p.2)

/-- The spectrum metadata table bytes. -/
def encSM (r : Run) : Bytes := r.spectra.flatMap specMetaEntry

/-- The chromatogram metadata table bytes. -/
def encCM (r : Run) : Bytes :=
  (r.chromatograms.zip (encR5 r).1).flatMap (fun p => chromMetaEntry p.1 p.2)

/-- The payload bytes. -/
def encP (r : Run) : Bytes := (encR5 r).2.bytes

/-- The final cursor, i.e. the total size field. -/
def encTotal (r : Run) : Nat := (encR5 r).2.cur

/-- The header bytes of the encoding of a present run. -/
def encHeaderOf (r : Run) : Bytes :=
  encodeHeader (encNs r) (encNc r) 64 (encCio r) (encSmo r) (encCmo r) (encDof r)
    (encTotal r)

/-- The spectrum index entries as the decoder will read them. -/
def sidxExp (r : Run) : List (Nat × Nat × Nat × Nat) :=
  (List.range (encNs r)).map (fun i =>
    (((encR1 r).1.getD i (0, 0)).1, ((encR1 r).1.getD i (0, 0)).2,
     ((encR2 r).1.getD i (0, 0)).1, ((encR2 r).1.getD i (0, 0)).2))

/-- The chromatogram index entries as the decoder will read them. -/
def cidxExp (r : Run) : List (Nat × Nat × Nat × Nat) :=
  (List.range (encNc r)).map (fun i =>
    (((encR3 r).1.getD i (0, 0)).1, ((encR3 r).1.getD i (0, 0)).2,
     ((encR4 r).1.getD i (0, 0)).1, ((encR4 r).1.getD i (0, 0)).2))

/-! ### Intermediate shapes of the decode-of-encode pipeline -/

/-- What one table entry of a placement pass promises about the final
payload: the (0, 0) sentinel for an absent or empty array, otherwise an
in-bounds positive offset under which the payload bytes (laid out from
the data offset dof) hold exactly the serialized elements. -/
def EntryFact (dof sz : Nat) (enc : Nat → Bytes) (lo : Nat) (res : List (Nat × Nat) × PlaceSt)
    (i : Nat) (a : Option (List Nat)) : Prop :=
  match a with
  | some v =>
    if v.isEmpty then res.1.getD i (0, 0) = (0, 0)
    else ∃ off, res.1.getD i (0, 0) = (off, v.length) ∧
      lo ≤ off ∧ 0 < off ∧ off + v.length * sz ≤ res.2.cur ∧
      seg res.2.bytes (off - dof) (v.length * sz) = v.flatMap enc
  | none => res.1.getD i (0, 0) = (0, 0)

/-- What one spectrum looks like after the metadata pass, before the
arrays are attached. -/
def metaOnlySpec (s : SpectrumSummary) : SpectrumSummary :=
  SpectrumSummary.mk s.index s.array_length (normOptU8 s.ms_level) (normOptU8 s.polarity)
    (normOptU8 s.spectrum_type) (normOptF64 s.retention_time)
    (normOptF64 s.scan_window_lower_limit) (normOptF64 s.scan_window_upper_limit)
    (normOptF64 s.total_ion_current) (normOptF64 s.base_peak_intensity)
    (normOptF64 s.base_peak_mz) none none (normPrec s.precursor)

/-- What one chromatogram looks like after the metadata pass. -/
def metaOnlyChrom (c : ChromatogramSummary) : ChromatogramSummary :=
  ChromatogramSummary.mk c.index c.array_length none none []

/-- What one chromatogram looks like after the array passes, before the
id pass. -/
def chromWithArrays (c : ChromatogramSummary) : ChromatogramSummary :=
  ChromatogramSummary.mk c.index c.array_length (normArr c.time_array)
    (normArr c.intensity_array) []

/-- A table entry's promise about the final encoder output: either the
(0, 0) sentinel, or an offset in the payload under which the whole output
holds the serialized elements. -/
def ArrFactE (r : Run) (sz : Nat) (pair : Nat × Nat) (a : Option (List Nat)) : Prop :=
  match a with
  | some v =>
    if v.isEmpty then pair = (0, 0)
    else ∃ off, pair = (off, v.length) ∧ encDof r ≤ off ∧ 0 < off ∧
      off + v.length * sz ≤ encTotal r ∧
      seg (encode (MzML.mk (some r))) off (v.length * sz) = v.flatMap (natLeBytes sz)
  | none => pair = (0, 0)

/-- The id entries' promise about the final encoder output. -/
def IdFactE (r : Run) (pair : Nat × Nat) (id : Bytes) : Prop :=
  if id.isEmpty then pair = (0, 0)
  else ∃ off, pair = (off, id.length) ∧ encDof r ≤ off ∧ 0 < off ∧
    off + id.length ≤ encTotal r ∧
    seg (encode (MzML.mk (some r))) off id.length = id

/-! ### Concrete runs and buffers for the claim-level statements -/

/-- A spectrum with a present, negative retention time (-2.0, bit pattern
0xC000000000000000, which is not the -1.0 sentinel). -/
def negRtSpec : SpectrumSummary :=
  SpectrumSummary.mk 0 0 none none none (some 0xC000000000000000) none none none none
    none none none none

/-- The run holding `negRtSpec`. -/
def negRtRun : Run := Run.mk [] none none none none [negRtSpec] []

/-- A canonical run exercising every payload phase: one spectrum with mz
(f64 bit patterns of 2.0, 3.0) and intensity (f32 bit patterns of 1.0,
2.0) arrays, one chromatogram with time and intensity arrays and the
ASCII id "TIC". -/
def cwSpec : SpectrumSummary :=
  SpectrumSummary.mk 0 2 (some 1) (some 0) (some 0) (some 0x4014000000000000) none none
    none none none (some [0x4000000000000000, 0x4008000000000000])
    (some [0x3F800000, 0x40000000]) none

/-- The chromatogram of the canonical run. -/
def cwChrom : ChromatogramSummary :=
  ChromatogramSummary.mk 0 2 (some [0x3FF0000000000000, 0x4000000000000000])
    (some [0x3F800000, 0x40000000]) [0x54, 0x49, 0x43]

/-- The canonical run itself (already a fixed point of `normalizeRun`). -/
def cwRun : Run := Run.mk [] none none (some 1) (some 1) [cwSpec] [cwChrom]

/-- What the 64-byte container of an absent run decodes to. -/
def emptyDecoded : MzML := MzML.mk (some (Run.mk [] none none (some 0) (some 0) [] []))

/-- A 208-byte BIN1 buffer laid out by hand: one spectrum whose metadata
entry is all sentinels and whose mz index slot points at the 8 payload
bytes 200..208 with element count 2, no chromatograms, and the four
format bytes at offsets 12-15 given by `fmts`.  The payload holds the f32
bit patterns of 1.0 and 2.0. -/
def c4Buf (fmts : Bytes) : Bytes :=
  bin1Magic ++ natLeBytes 4 1 ++ natLeBytes 4 0 ++ fmts ++
  natLeBytes 8 64 ++ natLeBytes 8 0 ++ natLeBytes 8 96 ++ natLeBytes 8 0 ++
  natLeBytes 8 200 ++ natLeBytes 8 208 ++
  natLeBytes 8 200 ++ natLeBytes 4 2 ++ natLeBytes 8 0 ++ natLeBytes 4 0 ++
  natLeBytes 8 0 ++
  natLeBytes 4 0 ++ natLeBytes 4 2 ++ [255, 255, 255, 0] ++
  natLeBytes 8 f64NegOne ++ natLeBytes 8 f64NegOne ++ natLeBytes 8 f64NegOne ++
  natLeBytes 8 f64NegOne ++ natLeBytes 8 f64NegOne ++ natLeBytes 8 f64NegOne ++
  natLeBytes 8 f64NegOne ++ natLeBytes 8 f64NegOne ++ natLeBytes 8 f64NegOne ++
  natLeBytes 8 f64NegOne ++ List.replicate 12 0 ++
  natLeBytes 4 0x3F800000 ++ natLeBytes 4 0x40000000

/-- What `c4Buf` decodes to when the spectrum x format is taken as f32:
the two payload f32 values widened to the f64 bit patterns of 1.0 and
2.0. -/
def c4DecodedF32 : MzML :=
  MzML.mk (some (Run.mk [] none none (some 1) (some 0)
    [SpectrumSummary.mk 0 2 none none none none none none none none none
      (some [0x3FF0000000000000, 0x4000000000000000]) none none] []))

/-! ### A value model of f64 for the numeric utilities

The numeric utilities (calculate_eic.rs, sgg.rs, find_peaks.rs) compute
with f64 values, not with their bit patterns.  They are modelled over
exact rationals extended with the two infinities and NaN: finite
arithmetic is exact (f64 rounding is not modelled, so decimal literals
such as 1e-6 stand for their exact rational values), while the special
values and every comparison follow IEEE 754 as Rust's f64 implements it
(comparisons are false whenever NaN is involved; f64::max ignores NaN). -/

/-- An f64 value: a finite rational, +∞, -∞ or NaN. -/
inductive Fq where
  | fin : ℚ → Fq
  | pinf : Fq
  | ninf : Fq
  | nan : Fq
deriving DecidableEq, Repr

namespace Fq

/-- f64::is_finite. -/
def isFinite : Fq → Bool
  | fin _ => true
  | _ => false

/-- The strict < of f64 (false whenever NaN is involved). -/
def lt : Fq → Fq → Bool
  | fin a, fin b => a < b
  | fin _, pinf => true
  | ninf, fin _ => true
  | ninf, pinf => true
  | _, _ => false

/-- The ≤ of f64 (false whenever NaN is involved). -/
def le : Fq → Fq → Bool
  | fin a, fin b => a ≤ b
  | fin _, pinf => true
  | pinf, pinf => true
  | ninf, fin _ => true
  | ninf, ninf => true
  | ninf, pinf => true
  | _, _ => false

/-- IEEE negation. -/
def neg : Fq → Fq
  | fin a => fin (-a)
  | pinf => ninf
  | ninf => pinf
  | nan => nan

/-- IEEE addition (exact on finite arguments). -/
def add : Fq → Fq → Fq
  | fin a, fin b => fin (a + b)
  | fin _, pinf => pinf
  | fin _, ninf => ninf
  | pinf, fin _ => pinf
  | ninf, fin _ => ninf
  | pinf, pinf => pinf
  | ninf, ninf => ninf
  | _, _ => nan

/-- IEEE subtraction. -/
def sub (a b : Fq) : Fq := add a (neg b)

/-- IEEE multiplication (exact on finite arguments; 0 · ∞ = NaN). -/
def mul : Fq → Fq → Fq
  | fin a, fin b => fin (a * b)
  | fin a, pinf => if a = 0 then nan else if 0 < a then pinf else ninf
  | fin a, ninf => if a = 0 then nan else if 0 < a then ninf else pinf
  | pinf, fin b => if b = 0 then nan else if 0 < b then pinf else ninf
  | ninf, fin b => if b = 0 then nan else if 0 < b then ninf else pinf
  | pinf, pinf => pinf
  | pinf, ninf => ninf
  | ninf, pinf => ninf
  | ninf, ninf => pinf
  | _, _ => nan

/-- Rust's f64::max: the larger argument, ignoring NaN. -/
def fmax : Fq → Fq → Fq
  | nan, b => b
  | a, nan => a
  | a, b => if lt a b then b else a

/-- Rust's partial_cmp(..).unwrap_or(Equal): incomparable pairs (NaN)
count as equal. -/
def cmpE (a b : Fq) : Ordering :=
  if lt a b then .lt else if lt b a then .gt else .eq

/-- IEEE division (exact on finite arguments; x/0 gives the signed
infinity of x's sign and 0/0 gives NaN; the model has no -0, so the
+0 behaviour is used). -/
def div : Fq → Fq → Fq
  | fin a, fin b =>
    if b = 0 then (if a = 0 then nan else if 0 < a then pinf else ninf)
    else fin (a / b)
  | fin _, pinf => fin 0
  | fin _, ninf => fin 0
  | pinf, fin b => if 0 ≤ b then pinf else ninf
  | ninf, fin b => if 0 ≤ b then ninf else pinf
  | _, _ => nan

/-- f64::powi on a natural exponent: iterated multiplication. -/
def pow (a : Fq) : Nat → Fq
  | 0 => fin 1
  | k + 1 => mul (pow a k) a

end Fq

/-! ### The EIC pipeline (calculate_eic.rs) over the value model -/

/-- calculate_eic.rs, EicOptions. -/
structure EicOptions where
  ppm_tolerance : Fq
  mz_tolerance : Fq
deriving DecidableEq, Repr

/-- calculate_eic.rs, CentroidScan (the Arc slices as plain lists). -/
structure CentroidScan where
  rt : Fq
  mz : List Fq
  intensity : List Fq
deriving DecidableEq, Repr

/-- Modelled from the spec: the struct `FromTo` lives in the repository
file src/core/src/utilities/structs.rs, which is missing from src/; the
spec's EIC section describes it as the closed retention-time window
[from, to].  The fields `from` and `to` are Lean keywords and are
rendered from_ and to_. -/
structure FromTo where
  from_ : Fq
  to_ : Fq
deriving DecidableEq, Repr

/-- The value view of a spectrum, restricted to the fields the EIC path
reads (parse_mzml.rs, SpectrumSummary; the codec claims use the wire
bit-pattern view `SpectrumSummary` above instead). -/
structure SpectrumV where
  ms_level : Option Nat
  retention_time : Option Fq
  mz_array : Option (List Fq)
  intensity_array : Option (List Fq)
deriving DecidableEq, Repr

/-- The value view of a run (parse_mzml.rs, Run), spectra only. -/
structure RunV where
  spectra : List SpectrumV
deriving DecidableEq, Repr

/-- The value view of the document root (parse_mzml.rs, MzML). -/
structure MzMLV where
  run : Option RunV
deriving DecidableEq, Repr

/-- Stable insertion sort, the model of Rust's stable sort_by: an
element is inserted before the first element it is strictly below, so
ties keep their original order.  For the total preorders that reach the
sorts in this code, any stable sort produces this same list. -/
def insertBy {α : Type} (ltb : α → α → Bool) (x : α) : List α → List α
  | [] => [x]
  | y :: ys => if ltb y x then y :: insertBy ltb x ys else x :: y :: ys

/-- Stable sort via insertion (see `insertBy`). -/
def sortBy {α : Type} (ltb : α → α → Bool) : List α → List α
  | [] => []
  | x :: xs => insertBy ltb x (sortBy ltb xs)

/-- Whether one spectrum passes the MS1 selection of collect_ms1_scans
(calculate_eic.rs lines 113-121): ms_level 1, retention time inside the
window, both arrays present and non-empty. -/
def ms1Qualifies (w : FromTo) (s : SpectrumV) : Bool :=
  (s.ms_level == some 1) &&
  (match s.retention_time with
   | some rt => Fq.le w.from_ rt && Fq.le rt w.to_
   | none => false) &&
  (match s.mz_array with
   | some v => !v.isEmpty
   | none => false) &&
  (match s.intensity_array with
   | some v => !v.isEmpty
   | none => false)

/-- The per-spectrum point pairs (calculate_eic.rs lines 123-138): the
index loop runs to the shorter of the two arrays (the zip) and keeps
only the all-finite pairs. -/
def scanPairs (s : SpectrumV) : List (Fq × Fq) :=
  ((s.mz_array.getD []).zip (s.intensity_array.getD [])).filter
    (fun p => p.1.isFinite && p.2.isFinite)

/-- The scan a qualifying spectrum contributes (calculate_eic.rs lines
122-145): dropped when no finite point remains. -/
def scanOf (w : FromTo) (s : SpectrumV) : Option CentroidScan :=
  if ms1Qualifies w s then
    if (scanPairs s).isEmpty then none
    else some (CentroidScan.mk (s.retention_time.getD (Fq.fin 0))
      ((scanPairs s).map (·.1)) ((scanPairs s).map (·.2)))
  else none

/-- The qualifying scans in document order, before the sort. -/
def ms1Scans (m : MzMLV) (w : FromTo) : List CentroidScan :=
  match m.run with
  | some run => run.spectra.filterMap (scanOf w)
  | none => []

/-- calculate_eic.rs, collect_ms1_scans: the qualifying scans sorted
stably by retention time (partial_cmp with NaN as Equal), and their
retention times. -/
def collect_ms1_scans (m : MzMLV) (w : FromTo) : List Fq × List CentroidScan :=
  let scans := sortBy (fun a b => Fq.cmpE a.rt b.rt = .lt) (ms1Scans m w)
  (scans.map (·.rt), scans)

/-- calculate_eic.rs, lower_bound: the classic binary search for the
first index whose element is not below x.  The loop halves [lo, hi), so
a.length + 1 rounds of fuel always suffice. -/
def lbAux (a : List Fq) (x : Fq) : Nat → Nat → Nat → Nat
  | 0, lo, _hi => lo
  | fuel + 1, lo, hi =>
    if lo < hi then
      let mid := (lo + hi) / 2
      if Fq.lt (a.getD mid Fq.nan) x then lbAux a x fuel (mid + 1) hi
      else lbAux a x fuel lo mid
    else lo

/-- calculate_eic.rs, lower_bound. -/
def lower_bound (a : List Fq) (x : Fq) : Nat := lbAux a x (a.length + 1) 0 a.length

/-- The inner accumulation loop of compute_eic_for_mz (calculate_eic.rs
lines 87-101) over the mz tail from the binary search on: stop before
the first element above hi, read the matching intensity (an
out-of-range intensity index is the source's index panic, None here),
and panic (None) when the guard counter passes 5,000,000. -/
def eicWalk (ints : List Fq) (hi : Fq) : List Fq → Nat → Fq → Nat → Option Fq
  | [], _j, acc, _g => some acc
  | v :: rest, j, acc, g =>
    if Fq.lt hi v then some acc
    else if j < ints.length then
      if 5000000 < g + 1 then none
      else eicWalk ints hi rest (j + 1) (Fq.add acc (ints.getD j Fq.nan)) (g + 1)
    else none

/-- One scan's accumulated intensity (compute_eic_for_mz, one iteration
of the scan loop). -/
def eicScanAcc (lo hi : Fq) (s : CentroidScan) : Option Fq :=
  let j := lower_bound s.mz lo
  eicWalk s.intensity hi (s.mz.drop j) j (Fq.fin 0) 0

/-- All scans' accumulators, failing at the first panicking scan. -/
def eicAccs (lo hi : Fq) : List CentroidScan → Option (List Fq)
  | [] => some []
  | s :: rest => do
    let a ← eicScanAcc lo hi s
    let as' ← eicAccs lo hi rest
    return a :: as'

/-- The ppm term of the tolerance (calculate_eic.rs lines 68-72): only
when ppm_tolerance > 0, else 0. -/
def eicPpmTerm (opts : EicOptions) (center : Fq) : Fq :=
  if Fq.lt (Fq.fin 0) opts.ppm_tolerance
  then Fq.mul (Fq.mul opts.ppm_tolerance (Fq.fin (1 / 1000000))) center
  else Fq.fin 0

/-- The tolerance compute_eic_for_mz builds (calculate_eic.rs lines
68-73): the ppm term combined with the 0-clamped absolute term by the
NaN-ignoring f64::max. -/
def eicTol (opts : EicOptions) (center : Fq) : Fq :=
  Fq.fmax (eicPpmTerm opts center) (Fq.fmax opts.mz_tolerance (Fq.fin 0))

/-- The panic test on the tolerance (calculate_eic.rs line 74). -/
def eicTolBad (opts : EicOptions) (center : Fq) : Bool :=
  !(eicTol opts center).isFinite || Fq.le (eicTol opts center) (Fq.fin 0)

/-- The scan phase of compute_eic_for_mz after the tolerance gate: the
output vector starts as rt_len zeros and slot i receives scan i's
accumulator, so a scan index at or past rt_len is the source's index
panic (None here). -/
def eicMain (scans : List CentroidScan) (rt_len : Nat) (lo hi : Fq) :
    Option (List Fq) := do
  let accs ← eicAccs lo hi scans
  if rt_len < scans.length then none
  else return (List.range rt_len).map (fun i => accs.getD i (Fq.fin 0))

/-- calculate_eic.rs, compute_eic_for_mz, with panics as None. -/
def compute_eic_for_mz (scans : List CentroidScan) (rt_len : Nat) (center : Fq)
    (opts : EicOptions) : Option (List Fq) :=
  if eicTolBad opts center then none
  else eicMain scans rt_len (Fq.sub center (eicTol opts center))
    (Fq.add center (eicTol opts center))

/-- calculate_eic.rs, calculate_eic_from_mzml, with panics as None and
the Eic struct as the pair (x, y). -/
def calculate_eic_from_mzml (m : MzMLV) (target : Fq) (w : FromTo)
    (opts : EicOptions) : Option (List Fq × List Fq) :=
  if (collect_ms1_scans m w).2.isEmpty || (collect_ms1_scans m w).1.isEmpty
  then some ([], [])
  else (compute_eic_for_mz (collect_ms1_scans m w).2 (collect_ms1_scans m w).1.length
    target opts).map (fun y => ((collect_ms1_scans m w).1, y))

/-- The tolerance exactly as the spec's words build it:
max(ppm_tolerance · 1e-6 · m, mz_tolerance), with no clamping.  Stated
for comparison with `eicTol`, which is translated from the source. -/
def specTolerance (opts : EicOptions) (m : Fq) : Fq :=
  Fq.fmax (Fq.mul (Fq.mul opts.ppm_tolerance (Fq.fin (1 / 1000000))) m)
    opts.mz_tolerance

/-- The per-scan sum exactly as the spec's words describe it: the sum of
the scan's intensities whose m/z lies in the closed interval [lo, hi]
(the pairing truncates to the shorter array, as the scan construction
does).  Stated for comparison with `eicScanAcc`, which is translated
from the source. -/
def inRangeSum (lo hi : Fq) (s : CentroidScan) : Fq :=
  ((s.mz.zip s.intensity).filter (fun p => Fq.le lo p.1 && Fq.le p.1 hi)).foldl
    (fun acc p => Fq.add acc p.2) (Fq.fin 0)

/-! ### The Savitzky-Golay smoother (sgg.rs) over the value model -/

/-- sgg.rs, SggOptions. -/
structure SggOptions where
  window_size : Nat
  derivative : Nat
  polynomial : Nat
deriving DecidableEq, Repr

/-- sgg.rs, gen_fact: the product (a-b+1) · ... · a when a ≥ b, else 1,
computed exactly. -/
def gen_fact (a b : Int) : Fq :=
  if b ≤ a then
    Fq.fin (((List.range b.toNat).map (fun t => ((a - b + 1 + t : Int) : ℚ))).prod)
  else Fq.fin 1

/-- One row of the Gram polynomial table (sgg.rs, gram_table inner loop
for a fixed k ≥ 1), from the two previous rows. -/
def gramStep (i m : Int) (sMax k : Nat) (gkm1 gkm2 : List Fq) : List Fq :=
  let denom : ℚ := (k : ℚ) * ((2 * m - k + 1 : Int) : ℚ)
  let a := Fq.div (Fq.fin ((4 * k - 2 : Int) : ℚ)) (Fq.fin denom)
  let b := Fq.div (Fq.fin (((k - 1 : Int) : ℚ) * ((2 * m + k : Int) : ℚ)))
    (Fq.fin denom)
  (List.range (sMax + 1)).map (fun s =>
    let term1 := Fq.mul (Fq.fin (i : ℚ)) (gkm1.getD s (Fq.fin 0))
    let term2 := if 0 < s then Fq.mul (Fq.fin (s : ℚ)) (gkm1.getD (s - 1) (Fq.fin 0))
      else Fq.fin 0
    let term3 := if 2 ≤ k then gkm2.getD s (Fq.fin 0) else Fq.fin 0
    Fq.sub (Fq.mul a (Fq.add term1 term2)) (Fq.mul b term3))

/-- sgg.rs, gram_table: rows k = 0..nMax of the Gram recurrence, each of
sMax+1 columns; row 0 is (1, 0, ..., 0). -/
def gram_table (i m : Int) (nMax sMax : Nat) : List (List Fq) :=
  let row0 : List Fq :=
    (List.range (sMax + 1)).map (fun s => if s = 0 then Fq.fin 1 else Fq.fin 0)
  (((List.range nMax).map (· + 1)).foldl
    (fun acc k =>
      let row := gramStep i m sMax k acc.2.1 acc.2.2
      (acc.1 ++ [row], row, acc.2.1))
    ([row0], row0, List.replicate (sMax + 1) (Fq.fin 0))).1

/-- sgg.rs, full_weights: the m×m weight matrix. -/
def full_weights (m n s : Nat) : List (List Fq) :=
  let half : Int := (m / 2 : Nat)
  let gi := (List.range m).map (fun idx =>
    (gram_table ((idx : Int) - half) half n 0).map (fun row => row.getD 0 (Fq.fin 0)))
  let gt := (List.range m).map (fun idx =>
    (gram_table ((idx : Int) - half) half n s).map (fun row => row.getD s (Fq.fin 0)))
  let coef := (List.range (n + 1)).map (fun k =>
    let num := gen_fact (2 * half) k
    let den := gen_fact (2 * half + k + 1) (k + 1)
    Fq.mul (Fq.fin (2 * (k : ℚ) + 1)) (Fq.div num den))
  (List.range m).map (fun t => (List.range m).map (fun j =>
    (List.range (n + 1)).foldl
      (fun sum k => Fq.add sum (Fq.mul (Fq.mul (coef.getD k (Fq.fin 0))
        ((gi.getD j []).getD k (Fq.fin 0))) ((gt.getD t []).getD k (Fq.fin 0))))
      (Fq.fin 0)))

/-- The running prefix of consecutive differences (sgg.rs, get_hs lines
100-103): pref[0] = 0 and pref[i+1] = pref[i] + (xs[i+1] - xs[i]). -/
def hsPref (xs : List Fq) : List Fq :=
  (List.range xs.length).foldl
    (fun acc i =>
      if i + 1 < xs.length then
        acc ++ [Fq.add (acc.getD i (Fq.fin 0))
          (Fq.sub (xs.getD (i + 1) Fq.nan) (xs.getD i Fq.nan))]
      else acc)
    [Fq.fin 0]

/-- sgg.rs, get_hs: all ones for derivative 0 or fewer than two points;
otherwise the windowed average spacing raised to the derivative. -/
def get_hs (xs : List Fq) (half deriv : Nat) : List Fq :=
  let n := xs.length
  if deriv = 0 ∨ n < 2 then List.replicate n (Fq.fin 1)
  else
    let pref := hsPref xs
    (List.range n).map (fun c =>
      let start := if half ≤ c then c - half else 0
      let endExcl := if c + half < n - 1 then c + half else n - 1
      let count := if start < endExcl then endExcl - start else 0
      let avg := if 0 < count then
          Fq.div (Fq.sub (pref.getD endExcl (Fq.fin 0)) (pref.getD start (Fq.fin 0)))
            (Fq.fin (count : ℚ))
        else Fq.fin 1
      Fq.pow avg deriv)

/-- The window dot product Σ_l wl[l] · yw[l] over l < w (the inner loops
of sgg.rs lines 68-71 and 83-85, accumulated left to right). -/
def dotW (w : Nat) (wl yw : List Fq) : Fq :=
  (List.range w).foldl
    (fun acc l => Fq.add acc (Fq.mul (wl.getD l (Fq.fin 0)) (yw.getD l (Fq.fin 0))))
    (Fq.fin 0)

/-- The smoothed vector of sgg.rs (lines 48-90), written directly as a
function of the output index: the three write loops hit the disjoint
index ranges [0, half), [half, n-half) and [n-half, n); in the left loop
the weight row weights[half-i-1] is exactly weights[idx_l], in the right
loop weights[half+i+1] is weights[idx_r+w-n] and its window starts at
n-w, and in the centre loop the row is weights[half] and the window
starts at idx-half. -/
def sggOut (ys xs : List Fq) (opts : SggOptions) : List Fq :=
  let w := opts.window_size
  let half := w / 2
  let n := ys.length
  let hs := get_hs xs half opts.derivative
  let weights := full_weights w opts.polynomial opts.derivative
  (List.range n).map (fun idx =>
    if idx < half then
      Fq.div (dotW w (weights.getD idx []) (ys.take w)) (hs.getD idx (Fq.fin 0))
    else if n - half ≤ idx then
      Fq.div (dotW w (weights.getD (idx + w - n) []) (ys.drop (n - w)))
        (hs.getD idx (Fq.fin 0))
    else
      Fq.div (dotW w (weights.getD half []) ((ys.drop (idx - half)).take w))
        (hs.getD idx (Fq.fin 0)))

/-- sgg.rs, sgg, with panics as None: the source's five explicit panic
guards, plus the index panic of the division hs[idx], which indexes a
vector of xs.length entries at every idx < ys.length, so xs shorter
than ys panics (None). -/
def sgg (ys xs : List Fq) (opts : SggOptions) : Option (List Fq) :=
  if opts.window_size % 2 = 0 ∨ opts.window_size < 5 then none
  else if ys.isEmpty then none
  else if xs.isEmpty then none
  else if ys.length < opts.window_size then none
  else if opts.polynomial < 1 then none
  else if xs.length < ys.length then none
  else some (sggOut ys xs opts)

/-! ### Buffer access lemmas -/

theorem a8_ge (x : Nat) : x ≤ a8 x := by unfold a8; omega

theorem seg_skip {xs : Bytes} (ys : Bytes) {off k : Nat} (n : Nat) (h : xs.length = k)
    (hk : k ≤ off) : seg (xs ++ ys) off n = seg ys (off - k) n := by
  have h2 : off = xs.length + (off - k) := by omega
  conv_lhs => rw [h2]
  exact seg_append_shift xs ys (off - k) n

theorem seg_len_eq {xs : Bytes} (ys : Bytes) {n : Nat} (h : xs.length = n) :
    seg (xs ++ ys) 0 n = xs := by
  subst h
  unfold seg
  simp

theorem byteAt_append_right {xs : Bytes} (ys : Bytes) {i k : Nat} (h : xs.length = k)
    (hk : k ≤ i) : byteAt (xs ++ ys) i = byteAt ys (i - k) := by
  unfold byteAt
  rw [List.getD_append_right]
  · rw [h]
  · omega

theorem byteAt_append_left {xs : Bytes} (ys : Bytes) {i : Nat} (h : i < xs.length) :
    byteAt (xs ++ ys) i = byteAt xs i := by
  unfold byteAt
  rw [List.getD_append _ _ _ _ h]

theorem length_flatMap_const {α : Type} {f : α → Bytes} {k : Nat}
    (hf : ∀ a, (f a).length = k) (l : List α) : (l.flatMap f).length = l.length * k := by
  induction l with
  | nil => simp
  | cons a t ih => simp [List.flatMap_cons, hf a, ih]; ring

theorem seg_flatMap_const {α : Type} {f : α → Bytes} {k : Nat}
    (hf : ∀ a, (f a).length = k) (l : List α) (i : Nat) (hi : i < l.length) (δ n : Nat)
    (hn : δ + n ≤ k) :
    seg (l.flatMap f) (k * i + δ) n = seg (f (l.get ⟨i, hi⟩)) δ n := by
  induction l generalizing i with
  | nil => simp at hi
  | cons a t ih =>
    cases i with
    | zero =>
      simp only [List.flatMap_cons, Nat.mul_zero, Nat.zero_add]
      rw [seg_append_left (by rw [hf a]; omega)]
      rfl
    | succ j =>
      have h1 : k * (j + 1) + δ = k + (k * j + δ) := by ring
      simp only [List.flatMap_cons, h1]
      rw [seg_skip _ _ (hf a) (by omega)]
      have h2 : k + (k * j + δ) - k = k * j + δ := by omega
      rw [h2]
      exact ih j (by simpa using hi)

theorem seg_seg {b : Bytes} {off m j n : Nat} (hjn : j + n ≤ m) :
    seg (seg b off m) j n = seg b (off + j) n := by
  unfold seg
  rw [List.drop_take, List.take_take, List.drop_drop]
  have h1 : min n (m - j) = n := by omega
  rw [h1]

/-! ### Payload placement facts -/

theorem placeArr_none (sz : Nat) (enc : Nat → Bytes) (st : PlaceSt) :
    placeArr sz enc st none = ((0, 0), st) := rfl

theorem placeArr_empty (sz : Nat) (enc : Nat → Bytes) (st : PlaceSt) {v : List Nat}
    (hv : v.isEmpty) : placeArr sz enc st (some v) = ((0, 0), st) := by
  simp [placeArr, hv]

theorem placeArr_some (sz : Nat) (enc : Nat → Bytes) (st : PlaceSt) {v : List Nat}
    (hv : ¬v.isEmpty = true) :
    placeArr sz enc st (some v) =
      ((a8 st.cur, v.length),
       PlaceSt.mk (a8 st.cur + v.length * sz)
         (st.bytes ++ List.replicate (a8 st.cur - st.cur) 0 ++ v.flatMap enc)) := by
  simp [placeArr, hv]

theorem entryFact_mono {dof sz : Nat} {enc : Nat → Bytes} {lo lo' : Nat}
    {res : List (Nat × Nat) × PlaceSt} {i : Nat} {a : Option (List Nat)}
    (h : EntryFact dof sz enc lo res i a) (hlo : lo' ≤ lo) :
    EntryFact dof sz enc lo' res i a := by
  unfold EntryFact at h ⊢
  match a with
  | none => exact h
  | some v =>
    by_cases hv : v.isEmpty
    · simpa [hv] using h
    · simp only [hv, Bool.false_eq_true, if_false] at h ⊢
      obtain ⟨off, h1, h2, h3, h4, h5⟩ := h
      exact ⟨off, h1, Nat.le_trans hlo h2, h3, h4, h5⟩

/-- Everything the decode proof needs to know about one placement pass:
the table has one entry per array, the cursor tracks the emitted bytes
from the data offset on, bytes only grow, and each table entry keeps its
promise about the payload. -/
theorem placePhase_spec {sz : Nat} {enc : Nat → Bytes} (henc : ∀ x, (enc x).length = sz)
    (arrs : List (Option (List Nat))) (st : PlaceSt) (dof : Nat) (hdof : 0 < dof)
    (hinv : st.cur = dof + st.bytes.length) :
    (placePhase sz enc arrs st).1.length = arrs.length ∧
    (placePhase sz enc arrs st).2.cur = dof + (placePhase sz enc arrs st).2.bytes.length ∧
    st.cur ≤ (placePhase sz enc arrs st).2.cur ∧
    (∃ t, (placePhase sz enc arrs st).2.bytes = st.bytes ++ t) ∧
    ∀ i, i < arrs.length →
      EntryFact dof sz enc st.cur (placePhase sz enc arrs st) i (arrs.getD i none) := by
  induction arrs generalizing st with
  | nil =>
    refine ⟨rfl, hinv, Nat.le_refl _, ⟨[], by simp [placePhase]⟩, ?_⟩
    intro i hi
    simp at hi
  | cons a t ih =>
    -- head placement: cursor invariant, growth, byte extension
    have hin2 : (placeArr sz enc st a).2.cur = dof + (placeArr sz enc st a).2.bytes.length := by
      cases a with
      | none => simpa [placeArr_none] using hinv
      | some v =>
        by_cases hv : v.isEmpty
        · simpa [placeArr_empty sz enc st hv] using hinv
        · rw [placeArr_some sz enc st hv]
          show a8 st.cur + v.length * sz =
            dof + (st.bytes ++ List.replicate (a8 st.cur - st.cur) 0 ++ v.flatMap enc).length
          simp only [List.length_append, List.length_replicate, length_flatMap_const henc]
          have := a8_ge st.cur
          omega
    have hmono : st.cur ≤ (placeArr sz enc st a).2.cur := by
      cases a with
      | none => simp [placeArr_none]
      | some v =>
        by_cases hv : v.isEmpty
        · simp [placeArr_empty sz enc st hv]
        · rw [placeArr_some sz enc st hv]
          show st.cur ≤ a8 st.cur + v.length * sz
          have := a8_ge st.cur
          omega
    have hext : ∃ u, (placeArr sz enc st a).2.bytes = st.bytes ++ u := by
      cases a with
      | none => exact ⟨[], by simp [placeArr_none]⟩
      | some v =>
        by_cases hv : v.isEmpty
        · exact ⟨[], by simp [placeArr_empty sz enc st hv]⟩
        · refine ⟨List.replicate (a8 st.cur - st.cur) 0 ++ v.flatMap enc, ?_⟩
          rw [placeArr_some sz enc st hv]
          show st.bytes ++ List.replicate (a8 st.cur - st.cur) 0 ++ v.flatMap enc = _
          rw [List.append_assoc]
    obtain ⟨u, hu⟩ := hext
    obtain ⟨ih1, ih2, ih3, ⟨w, hw⟩, ihidx⟩ := ih (placeArr sz enc st a).2 hin2
    simp only [placePhase]
    refine ⟨by simp [ih1], ih2, Nat.le_trans hmono ih3,
      ⟨u ++ w, by rw [hw, hu, List.append_assoc]⟩, ?_⟩
    intro i hi
    cases i with
    | zero =>
      cases a with
      | none => simp [EntryFact, placeArr_none]
      | some v =>
        by_cases hv : v.isEmpty
        · simp [EntryFact, hv, placeArr_empty sz enc st hv]
        · have hc : (placeArr sz enc st (some v)).2.cur = a8 st.cur + v.length * sz := by
            rw [placeArr_some sz enc st hv]
          have hbytes : (placeArr sz enc st (some v)).2.bytes =
              (st.bytes ++ List.replicate (a8 st.cur - st.cur) 0) ++ v.flatMap enc := by
            rw [placeArr_some sz enc st hv]
          have hoff : 0 < a8 st.cur := by
            have := a8_ge st.cur
            omega
          simp only [List.getD_cons_zero, EntryFact, hv, Bool.false_eq_true, if_false]
          refine ⟨a8 st.cur, ?_, a8_ge st.cur, hoff, ?_, ?_⟩
          · rw [placeArr_some sz enc st hv]
          · omega
          · -- the final payload still holds the serialized head array
            have hlenpre : (st.bytes ++ List.replicate (a8 st.cur - st.cur) 0).length
                = a8 st.cur - dof := by
              simp only [List.length_append, List.length_replicate]
              have := a8_ge st.cur
              omega
            have hlenall : (placeArr sz enc st (some v)).2.bytes.length
                = (a8 st.cur - dof) + v.length * sz := by
              rw [hbytes]
              simp only [List.length_append, List.length_replicate,
                length_flatMap_const henc]
              have := a8_ge st.cur
              omega
            rw [hw, seg_append_left hlenall.ge, hbytes,
              seg_skip _ _ hlenpre (Nat.le_refl _), Nat.sub_self]
            exact seg_take_all (by rw [length_flatMap_const henc])
    | succ j =>
      have hj : j < t.length := by simpa using hi
      have hfact := ihidx j hj
      simp only [List.getD_cons_succ]
      exact entryFact_mono hfact hmono

/-- The id pass is the array pass at element size one over the raw bytes. -/
theorem placeIds_eq (ids : List Bytes) (st : PlaceSt) :
    placeIds ids st = placePhase 1 (fun b => [b]) (ids.map some) st := by
  induction ids generalizing st with
  | nil => rfl
  | cons a t ih =>
    simp only [placeIds, List.map_cons, placePhase]
    have h : placeId st a = placeArr 1 (fun b => [b]) st (some a) := by
      by_cases ha : a.isEmpty
      · simp [placeId, placeArr, ha]
      · simp [placeId, placeArr, ha, List.flatMap_singleton']
    rw [h, ih]

/-- The encoder output, cut into header, tables, and payload. -/
theorem encode_parts (r : Run) :
    encode (MzML.mk (some r)) =
      encHeaderOf r ++ (encSI r ++ (encCI r ++ (encSM r ++ (encCM r ++ encP r)))) := by
  simp only [encode, encHeaderOf, encSI, encCI, encSM, encCM, encP, encTotal, encNs, encNc,
    encCio, encSmo, encCmo, encDof, encR1, encR2, encR3, encR4, encR5, List.append_assoc]

theorem encDof_pos (r : Run) : 0 < encDof r := by
  unfold encDof encCmo encSmo encCio
  omega

theorem encR1_spec (r : Run) :
    (encR1 r).1.length = encNs r ∧
    (encR1 r).2.cur = encDof r + (encR1 r).2.bytes.length ∧
    encDof r ≤ (encR1 r).2.cur ∧
    (∃ t, (encR1 r).2.bytes = t) ∧
    ∀ i, i < encNs r →
      EntryFact (encDof r) 8 (natLeBytes 8) (encDof r) (encR1 r) i
        ((r.spectra.map (·.mz_array)).getD i none) := by
  have h := placePhase_spec (fun x => natLeBytes_length 8 x) (r.spectra.map (·.mz_array))
    (PlaceSt.mk (encDof r) []) (encDof r) (encDof_pos r) (by simp)
  simp only [encR1] at h ⊢
  refine ⟨by simpa using h.1, h.2.1, h.2.2.1, ⟨_, rfl⟩, ?_⟩
  intro i hi
  exact h.2.2.2.2 i (by simpa [encNs] using hi)

theorem encR2_spec (r : Run) :
    (encR2 r).1.length = encNs r ∧
    (encR2 r).2.cur = encDof r + (encR2 r).2.bytes.length ∧
    (encR1 r).2.cur ≤ (encR2 r).2.cur ∧
    (∃ t, (encR2 r).2.bytes = (encR1 r).2.bytes ++ t) ∧
    ∀ i, i < encNs r →
      EntryFact (encDof r) 4 (natLeBytes 4) (encR1 r).2.cur (encR2 r) i
        ((r.spectra.map (·.intensity_array)).getD i none) := by
  have h := placePhase_spec (fun x => natLeBytes_length 4 x)
    (r.spectra.map (·.intensity_array)) (encR1 r).2 (encDof r) (encDof_pos r)
    (encR1_spec r).2.1
  simp only [encR2] at h ⊢
  refine ⟨by simpa using h.1, h.2.1, h.2.2.1, h.2.2.2.1, ?_⟩
  intro i hi
  exact h.2.2.2.2 i (by simpa [encNs] using hi)

theorem encR3_spec (r : Run) :
    (encR3 r).1.length = encNc r ∧
    (encR3 r).2.cur = encDof r + (encR3 r).2.bytes.length ∧
    (encR2 r).2.cur ≤ (encR3 r).2.cur ∧
    (∃ t, (encR3 r).2.bytes = (encR2 r).2.bytes ++ t) ∧
    ∀ i, i < encNc r →
      EntryFact (encDof r) 8 (natLeBytes 8) (encR2 r).2.cur (encR3 r) i
        ((r.chromatograms.map (·.time_array)).getD i none) := by
  have h := placePhase_spec (fun x => natLeBytes_length 8 x)
    (r.chromatograms.map (·.time_array)) (encR2 r).2 (encDof r) (encDof_pos r)
    (encR2_spec r).2.1
  simp only [encR3] at h ⊢
  refine ⟨by simpa using h.1, h.2.1, h.2.2.1, h.2.2.2.1, ?_⟩
  intro i hi
  exact h.2.2.2.2 i (by simpa [encNc] using hi)

theorem encR4_spec (r : Run) :
    (encR4 r).1.length = encNc r ∧
    (encR4 r).2.cur = encDof r + (encR4 r).2.bytes.length ∧
    (encR3 r).2.cur ≤ (encR4 r).2.cur ∧
    (∃ t, (encR4 r).2.bytes = (encR3 r).2.bytes ++ t) ∧
    ∀ i, i < encNc r →
      EntryFact (encDof r) 4 (natLeBytes 4) (encR3 r).2.cur (encR4 r) i
        ((r.chromatograms.map (·.intensity_array)).getD i none) := by
  have h := placePhase_spec (fun x => natLeBytes_length 4 x)
    (r.chromatograms.map (·.intensity_array)) (encR3 r).2 (encDof r) (encDof_pos r)
    (encR3_spec r).2.1
  simp only [encR4] at h ⊢
  refine ⟨by simpa using h.1, h.2.1, h.2.2.1, h.2.2.2.1, ?_⟩
  intro i hi
  exact h.2.2.2.2 i (by simpa [encNc] using hi)

theorem encR5_spec (r : Run) :
    (encR5 r).1.length = encNc r ∧
    (encR5 r).2.cur = encDof r + (encR5 r).2.bytes.length ∧
    (encR4 r).2.cur ≤ (encR5 r).2.cur ∧
    (∃ t, (encR5 r).2.bytes = (encR4 r).2.bytes ++ t) ∧
    ∀ i, i < encNc r →
      EntryFact (encDof r) 1 (fun b => [b]) (encR4 r).2.cur (encR5 r) i
        (((r.chromatograms.map (·.id)).map some).getD i none) := by
  have h := @placePhase_spec 1 (fun b => [b]) (fun _ => rfl)
    ((r.chromatograms.map (·.id)).map some)
    (encR4 r).2 (encDof r) (encDof_pos r) (encR4_spec r).2.1
  have he : encR5 r = placePhase 1 (fun b => [b]) ((r.chromatograms.map (·.id)).map some)
      (encR4 r).2 := by
    rw [encR5, placeIds_eq]
  rw [he]
  refine ⟨by simpa using h.1, h.2.1, h.2.2.1, h.2.2.2.1, ?_⟩
  intro i hi
  exact h.2.2.2.2 i (by simpa [encNc] using hi)

theorem encTotal_eq (r : Run) : encTotal r = encDof r + (encP r).length :=
  (encR5_spec r).2.1

/-- The final payload extends every intermediate pass's bytes. -/
theorem encP_extends (r : Run) :
    (∃ t, encP r = (encR1 r).2.bytes ++ t) ∧ (∃ t, encP r = (encR2 r).2.bytes ++ t) ∧
    (∃ t, encP r = (encR3 r).2.bytes ++ t) ∧ (∃ t, encP r = (encR4 r).2.bytes ++ t) := by
  obtain ⟨t2, h2⟩ := (encR2_spec r).2.2.2.1
  obtain ⟨t3, h3⟩ := (encR3_spec r).2.2.2.1
  obtain ⟨t4, h4⟩ := (encR4_spec r).2.2.2.1
  obtain ⟨t5, h5⟩ := (encR5_spec r).2.2.2.1
  unfold encP
  refine ⟨⟨t2 ++ t3 ++ t4 ++ t5, ?_⟩, ⟨t3 ++ t4 ++ t5, ?_⟩, ⟨t4 ++ t5, ?_⟩, ⟨t5, h5⟩⟩ <;>
    simp [h5, h4, h3, h2]

theorem indexEntry_length (x y : Nat × Nat) : (indexEntry x y).length = 32 := by
  simp [indexEntry]

theorem specMetaEntry_length (s : SpectrumSummary) : (specMetaEntry s).length = 104 := by
  simp [specMetaEntry]

theorem chromMetaEntry_length (c : ChromatogramSummary) (p : Nat × Nat) :
    (chromMetaEntry c p).length = 24 := by
  simp [chromMetaEntry]

theorem encodeHeader_length (ns nc a b c d e f : Nat) :
    (encodeHeader ns nc a b c d e f).length = 64 := by
  simp [encodeHeader, bin1Magic]

theorem encSI_length (r : Run) : (encSI r).length = encNs r * 32 := by
  rw [encSI, @length_flatMap_const ((Nat × Nat) × (Nat × Nat)) (fun p => indexEntry p.1 p.2)
    32 (fun p => indexEntry_length p.1 p.2) ((encR1 r).1.zip (encR2 r).1)]
  rw [List.length_zip, (encR1_spec r).1, (encR2_spec r).1, Nat.min_self]

theorem encCI_length (r : Run) : (encCI r).length = encNc r * 32 := by
  rw [encCI, @length_flatMap_const ((Nat × Nat) × (Nat × Nat)) (fun p => indexEntry p.1 p.2)
    32 (fun p => indexEntry_length p.1 p.2) ((encR3 r).1.zip (encR4 r).1)]
  rw [List.length_zip, (encR3_spec r).1, (encR4_spec r).1, Nat.min_self]

theorem encSM_length (r : Run) : (encSM r).length = encNs r * 104 := by
  rw [encSM, length_flatMap_const specMetaEntry_length]
  rfl

theorem encCM_length (r : Run) : (encCM r).length = encNc r * 24 := by
  rw [encCM, @length_flatMap_const (ChromatogramSummary × (Nat × Nat))
    (fun p => chromMetaEntry p.1 p.2) 24 (fun p => chromMetaEntry_length p.1 p.2)
    (r.chromatograms.zip (encR5 r).1)]
  rw [List.length_zip, (encR5_spec r).1]
  show min (encNc r) (encNc r) * 24 = encNc r * 24
  rw [Nat.min_self]

theorem encode_length (r : Run) : (encode (MzML.mk (some r))).length = encTotal r := by
  rw [encode_parts]
  simp only [List.length_append, encodeHeader_length, encHeaderOf, encSI_length,
    encCI_length, encSM_length, encCM_length]
  have h := encTotal_eq r
  unfold encDof encCmo encSmo encCio at h
  omega

theorem encode_length_ge (r : Run) : 64 ≤ (encode (MzML.mk (some r))).length := by
  rw [encode_length]
  have h := encTotal_eq r
  have := encDof_pos r
  unfold encDof encCmo encSmo encCio at h
  omega

theorem encHeaderOf_length (r : Run) : (encHeaderOf r).length = 64 := by
  rw [encHeaderOf, encodeHeader_length]

/-! ### Navigating the encoder output -/

theorem seg_encode_hdr (r : Run) {off n : Nat} (h : off + n ≤ 64) :
    seg (encode (MzML.mk (some r))) off n = seg (encHeaderOf r) off n := by
  rw [encode_parts]
  exact seg_append_left (show off + n ≤ (encHeaderOf r).length by rw [encHeaderOf_length]; omega)

theorem seg_encode_SI (r : Run) {k n : Nat} (h : k + n ≤ encNs r * 32) :
    seg (encode (MzML.mk (some r))) (64 + k) n = seg (encSI r) k n := by
  rw [encode_parts, seg_skip _ n (encHeaderOf_length r) (by omega)]
  have h2 : 64 + k - 64 = k := by omega
  rw [h2]
  exact seg_append_left (show k + n ≤ (encSI r).length by rw [encSI_length]; omega)

theorem seg_encode_CI (r : Run) {k n : Nat} (h : k + n ≤ encNc r * 32) :
    seg (encode (MzML.mk (some r))) (encCio r + k) n = seg (encCI r) k n := by
  rw [encode_parts, seg_skip _ n (encHeaderOf_length r) (by unfold encCio; omega)]
  have h2 : encCio r + k - 64 = encNs r * 32 + k := by unfold encCio; omega
  rw [h2, seg_skip _ n (encSI_length r) (by omega)]
  have h3 : encNs r * 32 + k - encNs r * 32 = k := by omega
  rw [h3]
  exact seg_append_left (show k + n ≤ (encCI r).length by rw [encCI_length]; omega)

theorem seg_encode_SM (r : Run) {k n : Nat} (h : k + n ≤ encNs r * 104) :
    seg (encode (MzML.mk (some r))) (encSmo r + k) n = seg (encSM r) k n := by
  rw [encode_parts, seg_skip _ n (encHeaderOf_length r)
    (by unfold encSmo encCio; omega)]
  have h2 : encSmo r + k - 64 = encNs r * 32 + (encNc r * 32 + k) := by
    unfold encSmo encCio
    omega
  rw [h2, seg_skip _ n (encSI_length r) (by omega)]
  have h3 : encNs r * 32 + (encNc r * 32 + k) - encNs r * 32 = encNc r * 32 + k := by omega
  rw [h3, seg_skip _ n (encCI_length r) (by omega)]
  have h4 : encNc r * 32 + k - encNc r * 32 = k := by omega
  rw [h4]
  exact seg_append_left (show k + n ≤ (encSM r).length by rw [encSM_length]; omega)

theorem seg_encode_CM (r : Run) {k n : Nat} (h : k + n ≤ encNc r * 24) :
    seg (encode (MzML.mk (some r))) (encCmo r + k) n = seg (encCM r) k n := by
  rw [encode_parts, seg_skip _ n (encHeaderOf_length r)
    (by unfold encCmo encSmo encCio; omega)]
  have h2 : encCmo r + k - 64 = encNs r * 32 + (encNc r * 32 + (encNs r * 104 + k)) := by
    unfold encCmo encSmo encCio
    omega
  rw [h2, seg_skip _ n (encSI_length r) (by omega)]
  have h3 : encNs r * 32 + (encNc r * 32 + (encNs r * 104 + k)) - encNs r * 32
      = encNc r * 32 + (encNs r * 104 + k) := by omega
  rw [h3, seg_skip _ n (encCI_length r) (by omega)]
  have h4 : encNc r * 32 + (encNs r * 104 + k) - encNc r * 32 = encNs r * 104 + k := by
    omega
  rw [h4, seg_skip _ n (encSM_length r) (by omega)]
  have h5 : encNs r * 104 + k - encNs r * 104 = k := by omega
  rw [h5]
  exact seg_append_left (show k + n ≤ (encCM r).length by rw [encCM_length]; omega)

theorem seg_encode_P (r : Run) {off : Nat} (n : Nat) (hoff : encDof r ≤ off) :
    seg (encode (MzML.mk (some r))) off n = seg (encP r) (off - encDof r) n := by
  have hd : encDof r = 64 + (encNs r * 32 + (encNc r * 32 + (encNs r * 104 + encNc r * 24))) := by
    unfold encDof encCmo encSmo encCio
    omega
  rw [encode_parts, seg_skip _ n (encHeaderOf_length r) (by omega)]
  rw [seg_skip _ n (encSI_length r) (by omega)]
  rw [seg_skip _ n (encCI_length r) (by omega)]
  rw [seg_skip _ n (encSM_length r) (by omega)]
  rw [seg_skip _ n (encCM_length r) (by omega)]
  congr 1
  omega

theorem byteAt_encode_hdr (r : Run) {i : Nat} (h : i < 64) :
    byteAt (encode (MzML.mk (some r))) i = byteAt (encHeaderOf r) i := by
  rw [encode_parts]
  exact byteAt_append_left _ (by rw [encHeaderOf_length]; omega)

theorem byteAt_encode_SM (r : Run) {k : Nat} (h : k < encNs r * 104) :
    byteAt (encode (MzML.mk (some r))) (encSmo r + k) = byteAt (encSM r) k := by
  rw [encode_parts, byteAt_append_right _ (encHeaderOf_length r)
    (by unfold encSmo encCio; omega)]
  have h2 : encSmo r + k - 64 = encNs r * 32 + (encNc r * 32 + k) := by
    unfold encSmo encCio
    omega
  rw [h2, byteAt_append_right _ (encSI_length r) (by omega)]
  have h3 : encNs r * 32 + (encNc r * 32 + k) - encNs r * 32 = encNc r * 32 + k := by omega
  rw [h3, byteAt_append_right _ (encCI_length r) (by omega)]
  have h4 : encNc r * 32 + k - encNc r * 32 = k := by omega
  rw [h4]
  exact byteAt_append_left _ (by rw [encSM_length]; omega)

/-! ### Field extraction from header and table entries -/

theorem hdr_seg_magic (ns nc a b c d e f : Nat) :
    seg (encodeHeader ns nc a b c d e f) 0 4 = bin1Magic := by
  simp [encodeHeader, bin1Magic, seg, natLeBytes]

theorem hdr_seg_ns (ns nc a b c d e f : Nat) :
    seg (encodeHeader ns nc a b c d e f) 4 4 = natLeBytes 4 ns := by
  simp [encodeHeader, bin1Magic, seg, natLeBytes]

theorem hdr_seg_nc (ns nc a b c d e f : Nat) :
    seg (encodeHeader ns nc a b c d e f) 8 4 = natLeBytes 4 nc := by
  simp [encodeHeader, bin1Magic, seg, natLeBytes]

theorem hdr_byte12 (ns nc a b c d e f : Nat) :
    byteAt (encodeHeader ns nc a b c d e f) 12 = 2 := by
  simp [encodeHeader, bin1Magic, byteAt, natLeBytes]

theorem hdr_byte13 (ns nc a b c d e f : Nat) :
    byteAt (encodeHeader ns nc a b c d e f) 13 = 1 := by
  simp [encodeHeader, bin1Magic, byteAt, natLeBytes]

theorem hdr_byte14 (ns nc a b c d e f : Nat) :
    byteAt (encodeHeader ns nc a b c d e f) 14 = 2 := by
  simp [encodeHeader, bin1Magic, byteAt, natLeBytes]

theorem hdr_byte15 (ns nc a b c d e f : Nat) :
    byteAt (encodeHeader ns nc a b c d e f) 15 = 1 := by
  simp [encodeHeader, bin1Magic, byteAt, natLeBytes]

theorem hdr_seg16 (ns nc a b c d e f : Nat) :
    seg (encodeHeader ns nc a b c d e f) 16 8 = natLeBytes 8 (if 0 < ns then a else 0) := by
  simp [encodeHeader, bin1Magic, seg, natLeBytes]

theorem hdr_seg24 (ns nc a b c d e f : Nat) :
    seg (encodeHeader ns nc a b c d e f) 24 8 = natLeBytes 8 (if 0 < nc then b else 0) := by
  simp [encodeHeader, bin1Magic, seg, natLeBytes]

theorem hdr_seg32 (ns nc a b c d e f : Nat) :
    seg (encodeHeader ns nc a b c d e f) 32 8 = natLeBytes 8 (if 0 < ns then c else 0) := by
  simp [encodeHeader, bin1Magic, seg, natLeBytes]

theorem hdr_seg40 (ns nc a b c d e f : Nat) :
    seg (encodeHeader ns nc a b c d e f) 40 8 = natLeBytes 8 (if 0 < nc then d else 0) := by
  simp [encodeHeader, bin1Magic, seg, natLeBytes]

theorem hdr_seg48 (ns nc a b c d e f : Nat) :
    seg (encodeHeader ns nc a b c d e f) 48 8 = natLeBytes 8 e := by
  simp [encodeHeader, bin1Magic, seg, natLeBytes]

theorem hdr_seg56 (ns nc a b c d e f : Nat) :
    seg (encodeHeader ns nc a b c d e f) 56 8 = natLeBytes 8 f := by
  simp [encodeHeader, bin1Magic, seg, natLeBytes]

theorem idxEntry_seg0 (x y : Nat × Nat) : seg (indexEntry x y) 0 8 = natLeBytes 8 x.1 := by
  simp [indexEntry, seg, natLeBytes]

theorem idxEntry_seg8 (x y : Nat × Nat) : seg (indexEntry x y) 8 4 = natLeBytes 4 x.2 := by
  simp [indexEntry, seg, natLeBytes]

theorem idxEntry_seg12 (x y : Nat × Nat) : seg (indexEntry x y) 12 8 = natLeBytes 8 y.1 := by
  simp [indexEntry, seg, natLeBytes]

theorem idxEntry_seg20 (x y : Nat × Nat) : seg (indexEntry x y) 20 4 = natLeBytes 4 y.2 := by
  simp [indexEntry, seg, natLeBytes]

theorem specMeta_seg0 (s : SpectrumSummary) :
    seg (specMetaEntry s) 0 4 = natLeBytes 4 s.index := by
  simp [specMetaEntry, seg, natLeBytes]

theorem specMeta_seg4 (s : SpectrumSummary) :
    seg (specMetaEntry s) 4 4 = natLeBytes 4 s.array_length := by
  simp [specMetaEntry, seg, natLeBytes]

theorem specMeta_byte8 (s : SpectrumSummary) :
    byteAt (specMetaEntry s) 8 = s.ms_level.getD 255 := by
  simp [specMetaEntry, byteAt, natLeBytes]

theorem specMeta_byte9 (s : SpectrumSummary) :
    byteAt (specMetaEntry s) 9 = s.polarity.getD 255 := by
  simp [specMetaEntry, byteAt, natLeBytes]

theorem specMeta_byte10 (s : SpectrumSummary) :
    byteAt (specMetaEntry s) 10 = s.spectrum_type.getD 255 := by
  simp [specMetaEntry, byteAt, natLeBytes]

theorem specMeta_seg12 (s : SpectrumSummary) :
    seg (specMetaEntry s) 12 8 = natLeBytes 8 (s.retention_time.getD f64NegOne) := by
  simp [specMetaEntry, seg, natLeBytes]

theorem specMeta_seg20 (s : SpectrumSummary) :
    seg (specMetaEntry s) 20 8 = natLeBytes 8 (s.scan_window_lower_limit.getD f64NegOne) := by
  simp [specMetaEntry, seg, natLeBytes]

theorem specMeta_seg28 (s : SpectrumSummary) :
    seg (specMetaEntry s) 28 8 = natLeBytes 8 (s.scan_window_upper_limit.getD f64NegOne) := by
  simp [specMetaEntry, seg, natLeBytes]

theorem specMeta_seg36 (s : SpectrumSummary) :
    seg (specMetaEntry s) 36 8 = natLeBytes 8 (s.total_ion_current.getD f64NegOne) := by
  simp [specMetaEntry, seg, natLeBytes]

theorem specMeta_seg44 (s : SpectrumSummary) :
    seg (specMetaEntry s) 44 8 = natLeBytes 8 (s.base_peak_intensity.getD f64NegOne) := by
  simp [specMetaEntry, seg, natLeBytes]

theorem specMeta_seg52 (s : SpectrumSummary) :
    seg (specMetaEntry s) 52 8 = natLeBytes 8 (s.base_peak_mz.getD f64NegOne) := by
  simp [specMetaEntry, seg, natLeBytes]

theorem specMeta_seg60 (s : SpectrumSummary) :
    seg (specMetaEntry s) 60 8 = natLeBytes 8 (precFields s.precursor).1 := by
  simp [specMetaEntry, seg, natLeBytes]

theorem specMeta_seg68 (s : SpectrumSummary) :
    seg (specMetaEntry s) 68 8 = natLeBytes 8 (precFields s.precursor).2.1 := by
  simp [specMetaEntry, seg, natLeBytes]

theorem specMeta_seg76 (s : SpectrumSummary) :
    seg (specMetaEntry s) 76 8 = natLeBytes 8 (precFields s.precursor).2.2.1 := by
  simp [specMetaEntry, seg, natLeBytes]

theorem specMeta_seg84 (s : SpectrumSummary) :
    seg (specMetaEntry s) 84 8 = natLeBytes 8 (precFields s.precursor).2.2.2 := by
  simp [specMetaEntry, seg, natLeBytes]

theorem chromMeta_seg0 (c : ChromatogramSummary) (p : Nat × Nat) :
    seg (chromMetaEntry c p) 0 4 = natLeBytes 4 c.index := by
  simp [chromMetaEntry, seg, natLeBytes]

theorem chromMeta_seg4 (c : ChromatogramSummary) (p : Nat × Nat) :
    seg (chromMetaEntry c p) 4 4 = natLeBytes 4 c.array_length := by
  simp [chromMetaEntry, seg, natLeBytes]

theorem chromMeta_seg8 (c : ChromatogramSummary) (p : Nat × Nat) :
    seg (chromMetaEntry c p) 8 8 = natLeBytes 8 p.1 := by
  simp [chromMetaEntry, seg, natLeBytes]

theorem chromMeta_seg16 (c : ChromatogramSummary) (p : Nat × Nat) :
    seg (chromMetaEntry c p) 16 4 = natLeBytes 4 p.2 := by
  simp [chromMetaEntry, seg, natLeBytes]

/-! ### Monadic loop evaluation -/

theorem exceptRangeAux_ok {α : Type} {f : Nat → Except String α} {g : Nat → α} :
    ∀ m i, (∀ j, i ≤ j → j < i + m → f j = .ok (g j)) →
      exceptRangeAux f m i = .ok ((List.range' i m).map g) := by
  intro m
  induction m with
  | zero =>
    intro i _h
    rfl
  | succ k ih =>
    intro i h
    show (f i) >>= (fun x => (exceptRangeAux f k (i + 1)) >>=
        (fun xs => pure (x :: xs))) = _
    rw [h i (Nat.le_refl i) (by omega), ih (i + 1)
      (fun j hj1 hj2 => h j (by omega) (by omega))]
    rw [List.range'_succ]
    rfl

theorem exceptRange_ok {α : Type} {n : Nat} {f : Nat → Except String α} {g : Nat → α}
    (h : ∀ j, j < n → f j = .ok (g j)) :
    exceptRange n f = .ok ((List.range n).map g) := by
  rw [exceptRange, List.range_eq_range']
  exact exceptRangeAux_ok n 0 (fun j _ hj => h j (by omega))

theorem exceptZipWith_ok {α β γ : Type} {f : α → β → Except String γ} {g : α → β → γ}
    (da : α) (db : β) :
    ∀ {as : List α} {bs : List β}, as.length = bs.length →
      (∀ i, i < as.length → f (as.getD i da) (bs.getD i db)
        = .ok (g (as.getD i da) (bs.getD i db))) →
      exceptZipWith f as bs = .ok (List.zipWith g as bs) := by
  intro as
  induction as with
  | nil =>
    intro bs hlen _h
    cases bs with
    | nil => rfl
    | cons b bs' => simp at hlen
  | cons a as' ih =>
    intro bs hlen h
    cases bs with
    | nil => simp at hlen
    | cons b bs' =>
      have h0 := h 0 (by simp)
      simp only [List.getD_cons_zero] at h0
      show (f a b) >>= (fun c => (exceptZipWith f as' bs') >>= (fun cs => pure (c :: cs)))
        = _
      rw [h0, ih (by simpa using hlen) (fun i hi => by
        have := h (i + 1) (by simpa using Nat.succ_lt_succ hi)
        simpa using this)]
      rfl

/-! ### List calculus: canonical range-map forms -/

theorem zipWith_eq_rangeMap {α β γ : Type} {g : α → β → γ} {as : List α} {bs : List β}
    {n : Nat} (da : α) (db : β) (ha : as.length = n) (hb : bs.length = n) :
    List.zipWith g as bs =
      (List.range n).map (fun i => g (as.getD i da) (bs.getD i db)) := by
  apply List.ext_getElem
  · simp [List.length_zipWith, ha, hb]
  · intro i h1 h2
    have hia : i < as.length := by simp [List.length_zipWith, ha, hb] at h1; omega
    have hib : i < bs.length := by simp [List.length_zipWith, ha, hb] at h1; omega
    have hin : i < n := by omega
    simp only [List.getElem_zipWith, List.getElem_map, List.getElem_range]
    rw [List.getD_eq_getElem as da hia, List.getD_eq_getElem bs db hib]

theorem rangeMap_getD_eq_map {α β : Type} (F : α → β) (l : List α) (d : α) :
    (List.range l.length).map (fun i => F (l.getD i d)) = l.map F := by
  apply List.ext_getElem
  · simp
  · intro i h1 h2
    simp only [List.getElem_map, List.getElem_range]
    rw [List.getD_eq_getElem l d (by simpa using h2)]

theorem rangeMap_congr {β : Type} {n : Nat} {F G : Nat → β}
    (h : ∀ i, i < n → F i = G i) :
    (List.range n).map F = (List.range n).map G := by
  apply List.map_congr_left
  intro a ha
  exact h a (List.mem_range.mp ha)

/-! ### Reading back a serialized array -/

theorem readLeChunk_eq {b : Bytes} {k off : Nat} {v : List Nat} (_hk : 0 < k)
    (hseg : seg b off (v.length * k) = v.flatMap (natLeBytes k))
    (helem : ∀ x ∈ v, x < 2 ^ (8 * k)) :
    readLeChunk b k off v.length = v := by
  apply List.ext_getElem
  · simp [readLeChunk]
  · intro i h1 h2
    have hin : i < v.length := by simpa [readLeChunk] using h1
    simp only [readLeChunk, List.getElem_map, List.getElem_range]
    have h3 : seg b (off + k * i) k = seg (seg b off (v.length * k)) (k * i) k := by
      rw [seg_seg]
      have : i + 1 ≤ v.length := hin
      calc k * i + k = k * (i + 1) := by ring
        _ ≤ k * v.length := Nat.mul_le_mul_left k this
        _ = v.length * k := Nat.mul_comm _ _
    have h4 : seg (v.flatMap (natLeBytes k)) (k * i + 0) k
        = seg (natLeBytes k (v.get ⟨i, hin⟩)) 0 k :=
      seg_flatMap_const (fun x => natLeBytes_length k x) v i hin 0 k (by omega)
    rw [h3, hseg]
    have h5 : seg (v.flatMap (natLeBytes k)) (k * i) k = natLeBytes k (v.get ⟨i, hin⟩) := by
      have := h4
      rw [Nat.add_zero] at this
      rw [this]
      exact seg_take_all (by rw [natLeBytes_length])
    rw [h5, leNat_natLeBytes_of_lt (helem _ (List.get_mem v i hin))]
    rfl

/-! ### Monad and sentinel helpers -/

theorem ok_bind {α β : Type} (a : α) (f : α → Except String β) :
    (Except.ok a : Except String α) >>= f = f a := rfl

theorem throwIf_false {c : Prop} [Decidable c] (h : ¬c) (e : String) :
    (if c then throw e else pure () : Except String Unit) = pure () := if_neg h

theorem sentinelF64_getD (o : Option Nat) :
    sentinelF64 (o.getD f64NegOne) = normOptF64 o := by
  cases o with
  | none =>
    have : f64LtZero f64NegOne = true := by decide
    simp [sentinelF64, normOptF64, this]
  | some v => simp [sentinelF64, normOptF64, Option.bind]

theorem sentinelU8_getD (o : Option Nat) :
    sentinelU8 (o.getD 255) = normOptU8 o := by
  cases o with
  | none => simp [sentinelU8, normOptU8]
  | some v => simp [sentinelU8, normOptU8, Option.bind]

theorem getD_lt_of_optLt {o : Option Nat} {b : Nat} (h : OptLt o b) (d : Nat)
    (hd : d < b) : o.getD d < b := by
  cases o with
  | none => simpa using hd
  | some v => simpa using h v rfl

theorem f64NegOne_lt : f64NegOne < 2 ^ 64 := by decide

/-- Lift one pass's entry fact to the final encoder output. -/
theorem entryFact_to_E {r : Run} {sz : Nat} {enc : Nat → Bytes}
    {res : List (Nat × Nat) × PlaceSt} {i : Nat} {a : Option (List Nat)} {lo : Nat}
    (henc : enc = natLeBytes sz)
    (hfact : EntryFact (encDof r) sz enc lo res i a)
    (hlo : encDof r ≤ lo)
    (hinv : res.2.cur = encDof r + res.2.bytes.length)
    (hext : ∃ t, encP r = res.2.bytes ++ t)
    (hcur : res.2.cur ≤ encTotal r) :
    ArrFactE r sz (res.1.getD i (0, 0)) a := by
  subst henc
  unfold EntryFact at hfact
  unfold ArrFactE
  match a with
  | none => exact hfact
  | some v =>
    by_cases hv : v.isEmpty
    · simpa [hv] using hfact
    · simp only [hv, Bool.false_eq_true, if_false] at hfact ⊢
      obtain ⟨off, h1, h2, h3, h4, h5⟩ := hfact
      obtain ⟨t, ht⟩ := hext
      refine ⟨off, h1, Nat.le_trans hlo h2, h3, Nat.le_trans h4 hcur, ?_⟩
      have hofflo : lo ≤ off := h2
      rw [seg_encode_P r _ (Nat.le_trans hlo h2)]
      rw [ht, seg_append_left (by omega)]
      exact h5

theorem cur_le_total_1 (r : Run) : (encR1 r).2.cur ≤ encTotal r :=
  Nat.le_trans (encR2_spec r).2.2.1 (Nat.le_trans (encR3_spec r).2.2.1
    (Nat.le_trans (encR4_spec r).2.2.1 (encR5_spec r).2.2.1))

theorem cur_le_total_2 (r : Run) : (encR2 r).2.cur ≤ encTotal r :=
  Nat.le_trans (encR3_spec r).2.2.1 (Nat.le_trans (encR4_spec r).2.2.1
    (encR5_spec r).2.2.1)

theorem cur_le_total_3 (r : Run) : (encR3 r).2.cur ≤ encTotal r :=
  Nat.le_trans (encR4_spec r).2.2.1 (encR5_spec r).2.2.1

theorem cur_le_total_4 (r : Run) : (encR4 r).2.cur ≤ encTotal r :=
  (encR5_spec r).2.2.1

theorem dof_le_cur_1 (r : Run) : encDof r ≤ (encR1 r).2.cur := by
  have h := (encR1_spec r).2.1
  omega

theorem dof_le_cur_2 (r : Run) : encDof r ≤ (encR2 r).2.cur := by
  have h := (encR2_spec r).2.1
  omega

theorem dof_le_cur_3 (r : Run) : encDof r ≤ (encR3 r).2.cur := by
  have h := (encR3_spec r).2.1
  omega

/-- The mz-array promise of spectrum i. -/
theorem arrFactE_mz (r : Run) {i : Nat} (hi : i < encNs r) :
    ArrFactE r 8 ((encR1 r).1.getD i (0, 0)) ((r.spectra.map (·.mz_array)).getD i none) :=
  entryFact_to_E rfl ((encR1_spec r).2.2.2.2 i hi) (Nat.le_refl _) (encR1_spec r).2.1
    (encP_extends r).1 (cur_le_total_1 r)

/-- The intensity-array promise of spectrum i. -/
theorem arrFactE_inten (r : Run) {i : Nat} (hi : i < encNs r) :
    ArrFactE r 4 ((encR2 r).1.getD i (0, 0))
      ((r.spectra.map (·.intensity_array)).getD i none) :=
  entryFact_to_E rfl ((encR2_spec r).2.2.2.2 i hi) (dof_le_cur_1 r) (encR2_spec r).2.1
    (encP_extends r).2.1 (cur_le_total_2 r)

/-- The time-array promise of chromatogram i. -/
theorem arrFactE_time (r : Run) {i : Nat} (hi : i < encNc r) :
    ArrFactE r 8 ((encR3 r).1.getD i (0, 0))
      ((r.chromatograms.map (·.time_array)).getD i none) :=
  entryFact_to_E rfl ((encR3_spec r).2.2.2.2 i hi) (dof_le_cur_2 r) (encR3_spec r).2.1
    (encP_extends r).2.2.1 (cur_le_total_3 r)

/-- The intensity-array promise of chromatogram i. -/
theorem arrFactE_cinten (r : Run) {i : Nat} (hi : i < encNc r) :
    ArrFactE r 4 ((encR4 r).1.getD i (0, 0))
      ((r.chromatograms.map (·.intensity_array)).getD i none) :=
  entryFact_to_E rfl ((encR4_spec r).2.2.2.2 i hi) (dof_le_cur_3 r) (encR4_spec r).2.1
    (encP_extends r).2.2.2 (cur_le_total_4 r)

/-- The id promise of chromatogram i. -/
theorem idFactE (r : Run) {i : Nat} (hi : i < encNc r)
    (_hbytes : ∀ b ∈ (r.chromatograms.map (·.id)).getD i [], b < 256) :
    IdFactE r ((encR5 r).1.getD i (0, 0)) ((r.chromatograms.map (·.id)).getD i []) := by
  have hfact := (encR5_spec r).2.2.2.2 i hi
  have hmap : ((r.chromatograms.map (·.id)).map some).getD i none
      = some ((r.chromatograms.map (·.id)).getD i []) := by
    have hlen : i < (r.chromatograms.map (·.id)).length := by
      simpa [encNc] using hi
    rw [List.getD_eq_getElem _ _ (by simpa using hlen), List.getElem_map,
      List.getD_eq_getElem _ _ hlen]
  rw [hmap] at hfact
  unfold EntryFact at hfact
  set idb := (r.chromatograms.map (·.id)).getD i [] with hidb
  unfold IdFactE
  by_cases hv : idb.isEmpty
  · simpa [hv] using hfact
  · simp only [hv, Bool.false_eq_true, if_false] at hfact ⊢
    obtain ⟨off, h1, h2, h3, h4, h5⟩ := hfact
    have hlo : encDof r ≤ (encR4 r).2.cur := by
      have h := (encR4_spec r).2.1
      omega
    obtain ⟨t, ht⟩ := (encR5_spec r).2.2.2.1
    refine ⟨off, h1, Nat.le_trans hlo h2, h3, ?_, ?_⟩
    · have := (encR5_spec r).2.1
      have hmul : idb.length * 1 = idb.length := by omega
      rw [← hmul]
      exact h4
    · have hinv := (encR5_spec r).2.1
      rw [seg_encode_P r _ (Nat.le_trans hlo h2)]
      have hmul : idb.length * 1 = idb.length := by omega
      have h5' := h5
      rw [hmul] at h5'
      have hsingle : idb.flatMap (fun b => [b]) = idb := List.flatMap_singleton' idb
      rw [hsingle] at h5'
      exact h5'

/-! ### Reading arrays back from the encoder output -/

theorem read_array_as_f64_fact {r : Run} {pair : Nat × Nat} {a : Option (List Nat)}
    (fact : ArrFactE r 8 pair a) (helem : OptArrWF a (2 ^ 64)) :
    read_array_as_f64 (encode (MzML.mk (some r))) pair.1 pair.2 2 = .ok (normArr a) := by
  cases a with
  | none =>
    simp only [ArrFactE] at fact
    rw [fact]
    simp [read_array_as_f64, normArr]
  | some v =>
    simp only [ArrFactE] at fact
    by_cases hv : v.isEmpty
    · rw [if_pos hv] at fact
      rw [fact]
      simp [read_array_as_f64, normArr, hv]
    · rw [if_neg (by simpa using hv)] at fact
      obtain ⟨off, h1, _h2, h3, h4, h5⟩ := fact
      rw [h1]
      have hlen0 : v.length ≠ 0 := by
        simpa [List.isEmpty_iff_length_eq_zero] using hv
      show read_array_as_f64 (encode (MzML.mk (some r))) off v.length 2 = _
      unfold read_array_as_f64
      rw [if_neg (show ¬(off = 0 ∨ v.length = 0) by omega)]
      rw [if_pos (show (2 : Nat) = 2 from rfl)]
      rw [if_pos (show off + v.length * 8 ≤ (encode (MzML.mk (some r))).length by
        rw [encode_length]; exact h4)]
      rw [readLeChunk_eq (by omega) h5 (fun x hx => (helem v rfl).2 x hx)]
      simp [normArr, hv]

theorem read_array_as_f32_fact {r : Run} {pair : Nat × Nat} {a : Option (List Nat)}
    (fact : ArrFactE r 4 pair a) (helem : OptArrWF a (2 ^ 32)) :
    read_array_as_f32 (encode (MzML.mk (some r))) pair.1 pair.2 1 = .ok (normArr a) := by
  cases a with
  | none =>
    simp only [ArrFactE] at fact
    rw [fact]
    simp [read_array_as_f32, normArr]
  | some v =>
    simp only [ArrFactE] at fact
    by_cases hv : v.isEmpty
    · rw [if_pos hv] at fact
      rw [fact]
      simp [read_array_as_f32, normArr, hv]
    · rw [if_neg (by simpa using hv)] at fact
      obtain ⟨off, h1, _h2, h3, h4, h5⟩ := fact
      rw [h1]
      have hlen0 : v.length ≠ 0 := by
        simpa [List.isEmpty_iff_length_eq_zero] using hv
      show read_array_as_f32 (encode (MzML.mk (some r))) off v.length 1 = _
      unfold read_array_as_f32
      rw [if_neg (show ¬(off = 0 ∨ v.length = 0) by omega)]
      rw [if_pos (show (1 : Nat) = 1 from rfl)]
      rw [if_pos (show off + v.length * 4 ≤ (encode (MzML.mk (some r))).length by
        rw [encode_length]; exact h4)]
      rw [readLeChunk_eq (by omega) h5 (fun x hx => (helem v rfl).2 x hx)]
      simp [normArr, hv]

/-! ### Reading the index tables back -/

theorem seg_E_SIentry (r : Run) {j : Nat} (hj : j < encNs r) (δ n : Nat)
    (hδ : δ + n ≤ 32) :
    seg (encode (MzML.mk (some r))) (64 + (j * 32 + δ)) n
      = seg (indexEntry ((encR1 r).1.getD j (0, 0)) ((encR2 r).1.getD j (0, 0))) δ n := by
  rw [seg_encode_SI r (by omega)]
  have hzlen : ((encR1 r).1.zip (encR2 r).1).length = encNs r := by
    rw [List.length_zip, (encR1_spec r).1, (encR2_spec r).1, Nat.min_self]
  have hj' : j < ((encR1 r).1.zip (encR2 r).1).length := by omega
  have hstep : j * 32 + δ = 32 * j + δ := by omega
  rw [hstep, encSI]
  rw [@seg_flatMap_const ((Nat × Nat) × (Nat × Nat)) (fun p => indexEntry p.1 p.2) 32
    (fun p => indexEntry_length p.1 p.2) ((encR1 r).1.zip (encR2 r).1) j hj' δ n hδ]
  have hget : ((encR1 r).1.zip (encR2 r).1).get ⟨j, hj'⟩
      = ((encR1 r).1.getD j (0, 0), (encR2 r).1.getD j (0, 0)) := by
    have h1 : j < (encR1 r).1.length := by rw [(encR1_spec r).1]; omega
    have h2 : j < (encR2 r).1.length := by rw [(encR2_spec r).1]; omega
    rw [List.get_eq_getElem, List.getElem_zip, List.getD_eq_getElem _ _ h1,
      List.getD_eq_getElem _ _ h2]
  rw [hget]

theorem seg_E_CIentry (r : Run) {j : Nat} (hj : j < encNc r) (δ n : Nat)
    (hδ : δ + n ≤ 32) :
    seg (encode (MzML.mk (some r))) (encCio r + (j * 32 + δ)) n
      = seg (indexEntry ((encR3 r).1.getD j (0, 0)) ((encR4 r).1.getD j (0, 0))) δ n := by
  rw [seg_encode_CI r (by omega)]
  have hzlen : ((encR3 r).1.zip (encR4 r).1).length = encNc r := by
    rw [List.length_zip, (encR3_spec r).1, (encR4_spec r).1, Nat.min_self]
  have hj' : j < ((encR3 r).1.zip (encR4 r).1).length := by omega
  have hstep : j * 32 + δ = 32 * j + δ := by omega
  rw [hstep, encCI]
  rw [@seg_flatMap_const ((Nat × Nat) × (Nat × Nat)) (fun p => indexEntry p.1 p.2) 32
    (fun p => indexEntry_length p.1 p.2) ((encR3 r).1.zip (encR4 r).1) j hj' δ n hδ]
  have hget : ((encR3 r).1.zip (encR4 r).1).get ⟨j, hj'⟩
      = ((encR3 r).1.getD j (0, 0), (encR4 r).1.getD j (0, 0)) := by
    have h1 : j < (encR3 r).1.length := by rw [(encR3_spec r).1]; omega
    have h2 : j < (encR4 r).1.length := by rw [(encR4_spec r).1]; omega
    rw [List.get_eq_getElem, List.getElem_zip, List.getD_eq_getElem _ _ h1,
      List.getD_eq_getElem _ _ h2]
  rw [hget]

theorem dof_le_encode_length (r : Run) : encDof r ≤ (encode (MzML.mk (some r))).length := by
  rw [encode_length]
  have h := encTotal_eq r
  omega

theorem arrFactE_bounds {r : Run} {sz : Nat} {pair : Nat × Nat} {a : Option (List Nat)}
    {B : Nat} (fact : ArrFactE r sz pair a) (htot : encTotal r < 2 ^ 64)
    (hwf : OptArrWF a B) : pair.1 < 2 ^ 64 ∧ pair.2 < 2 ^ 32 := by
  cases a with
  | none =>
    simp only [ArrFactE] at fact
    rw [fact]
    exact ⟨by norm_num, by norm_num⟩
  | some v =>
    simp only [ArrFactE] at fact
    by_cases hv : v.isEmpty
    · rw [if_pos hv] at fact
      rw [fact]
      exact ⟨by norm_num, by norm_num⟩
    · rw [if_neg (by simpa using hv)] at fact
      obtain ⟨off, h1, _h2, _h3, h4, _h5⟩ := fact
      rw [h1]
      exact ⟨by simp; omega, by simpa using (hwf v rfl).1⟩

theorem idFactE_bounds {r : Run} {pair : Nat × Nat} {id : Bytes}
    (fact : IdFactE r pair id) (htot : encTotal r < 2 ^ 64)
    (hlen : id.length < 2 ^ 32) : pair.1 < 2 ^ 64 ∧ pair.2 < 2 ^ 32 := by
  unfold IdFactE at fact
  by_cases hv : id.isEmpty
  · rw [if_pos hv] at fact
    rw [fact]
    exact ⟨by norm_num, by norm_num⟩
  · rw [if_neg (by simpa using hv)] at fact
    obtain ⟨off, h1, _h2, _h3, h4, _h5⟩ := fact
    rw [h1]
    exact ⟨by simp; omega, by simpa using hlen⟩

theorem cio_le_encode_length (r : Run) :
    encCio r + encNc r * 32 ≤ (encode (MzML.mk (some r))).length := by
  have h := dof_le_encode_length r
  unfold encDof encCmo encSmo at h
  unfold encCio at h ⊢
  omega

theorem si_le_encode_length (r : Run) :
    64 + encNs r * 32 ≤ (encode (MzML.mk (some r))).length := by
  have h := dof_le_encode_length r
  unfold encDof encCmo encSmo encCio at h
  omega

theorem rdS_xoff (r : Run) {j : Nat} (hj : j < encNs r) :
    rdU64 (encode (MzML.mk (some r))) (64 + j * 32)
      = .ok (leNat (natLeBytes 8 ((encR1 r).1.getD j (0, 0)).1)) := by
  unfold rdU64
  rw [if_pos (by have := si_le_encode_length r; omega)]
  have h1 : 64 + j * 32 = 64 + (j * 32 + 0) := by omega
  rw [h1, seg_E_SIentry r hj 0 8 (by omega), idxEntry_seg0]

theorem rdS_xlen (r : Run) {j : Nat} (hj : j < encNs r) :
    rdU32 (encode (MzML.mk (some r))) (64 + j * 32 + 8)
      = .ok (leNat (natLeBytes 4 ((encR1 r).1.getD j (0, 0)).2)) := by
  unfold rdU32
  rw [if_pos (by have := si_le_encode_length r; omega)]
  have h1 : 64 + j * 32 + 8 = 64 + (j * 32 + 8) := by omega
  rw [h1, seg_E_SIentry r hj 8 4 (by omega), idxEntry_seg8]

theorem rdS_yoff (r : Run) {j : Nat} (hj : j < encNs r) :
    rdU64 (encode (MzML.mk (some r))) (64 + j * 32 + 12)
      = .ok (leNat (natLeBytes 8 ((encR2 r).1.getD j (0, 0)).1)) := by
  unfold rdU64
  rw [if_pos (by have := si_le_encode_length r; omega)]
  have h1 : 64 + j * 32 + 12 = 64 + (j * 32 + 12) := by omega
  rw [h1, seg_E_SIentry r hj 12 8 (by omega), idxEntry_seg12]

theorem rdS_ylen (r : Run) {j : Nat} (hj : j < encNs r) :
    rdU32 (encode (MzML.mk (some r))) (64 + j * 32 + 20)
      = .ok (leNat (natLeBytes 4 ((encR2 r).1.getD j (0, 0)).2)) := by
  unfold rdU32
  rw [if_pos (by have := si_le_encode_length r; omega)]
  have h1 : 64 + j * 32 + 20 = 64 + (j * 32 + 20) := by omega
  rw [h1, seg_E_SIentry r hj 20 4 (by omega), idxEntry_seg20]

theorem rdC_xoff (r : Run) {j : Nat} (hj : j < encNc r) :
    rdU64 (encode (MzML.mk (some r))) (encCio r + j * 32)
      = .ok (leNat (natLeBytes 8 ((encR3 r).1.getD j (0, 0)).1)) := by
  unfold rdU64
  rw [if_pos (by have := cio_le_encode_length r; omega)]
  have h1 : encCio r + j * 32 = encCio r + (j * 32 + 0) := by omega
  rw [h1, seg_E_CIentry r hj 0 8 (by omega), idxEntry_seg0]

theorem rdC_xlen (r : Run) {j : Nat} (hj : j < encNc r) :
    rdU32 (encode (MzML.mk (some r))) (encCio r + j * 32 + 8)
      = .ok (leNat (natLeBytes 4 ((encR3 r).1.getD j (0, 0)).2)) := by
  unfold rdU32
  rw [if_pos (by have := cio_le_encode_length r; omega)]
  have h1 : encCio r + j * 32 + 8 = encCio r + (j * 32 + 8) := by omega
  rw [h1, seg_E_CIentry r hj 8 4 (by omega), idxEntry_seg8]

theorem rdC_yoff (r : Run) {j : Nat} (hj : j < encNc r) :
    rdU64 (encode (MzML.mk (some r))) (encCio r + j * 32 + 12)
      = .ok (leNat (natLeBytes 8 ((encR4 r).1.getD j (0, 0)).1)) := by
  unfold rdU64
  rw [if_pos (by have := cio_le_encode_length r; omega)]
  have h1 : encCio r + j * 32 + 12 = encCio r + (j * 32 + 12) := by omega
  rw [h1, seg_E_CIentry r hj 12 8 (by omega), idxEntry_seg12]

theorem rdC_ylen (r : Run) {j : Nat} (hj : j < encNc r) :
    rdU32 (encode (MzML.mk (some r))) (encCio r + j * 32 + 20)
      = .ok (leNat (natLeBytes 4 ((encR4 r).1.getD j (0, 0)).2)) := by
  unfold rdU32
  rw [if_pos (by have := cio_le_encode_length r; omega)]
  have h1 : encCio r + j * 32 + 20 = encCio r + (j * 32 + 20) := by omega
  rw [h1, seg_E_CIentry r hj 20 4 (by omega), idxEntry_seg20]

theorem leNat8_of_lt {v : Nat} (h : v < 2 ^ 64) : leNat (natLeBytes 8 v) = v := by
  rw [leNat_natLeBytes]
  have h2 : 2 ^ (8 * 8) = 2 ^ 64 := by norm_num
  rw [h2, Nat.mod_eq_of_lt h]

theorem leNat4_of_lt {v : Nat} (h : v < 2 ^ 32) : leNat (natLeBytes 4 v) = v := by
  rw [leNat_natLeBytes]
  have h2 : 2 ^ (8 * 4) = 2 ^ 32 := by norm_num
  rw [h2, Nat.mod_eq_of_lt h]

theorem getD_map_field {α β : Type} {l : List α} (f : α → β) {j : Nat} {d : α} {db : β}
    (hj : j < l.length) (_hd : f d = db) :
    (l.map f).getD j db = f (l.getD j d) := by
  rw [List.getD_eq_getElem _ _ (by simpa using hj), List.getElem_map,
    List.getD_eq_getElem _ _ hj]

theorem getD_mem {α : Type} {l : List α} {j : Nat} (d : α) (hj : j < l.length) :
    l.getD j d ∈ l := by
  rw [List.getD_eq_getElem _ _ hj]
  exact List.getElem_mem hj

theorem spec_wf_at (r : Run) (hWF : RunWF r) {j : Nat} (hj : j < encNs r) :
    SpecWF (r.spectra.getD j (binsDefaultSpec 0)) :=
  hWF.spectra _ (getD_mem _ (by simpa [encNs] using hj))

theorem chrom_wf_at (r : Run) (hWF : RunWF r) {j : Nat} (hj : j < encNc r) :
    ChromWF (r.chromatograms.getD j (binsDefaultChrom 0)) :=
  hWF.chroms _ (getD_mem _ (by simpa [encNc] using hj))

theorem mz_getD_eq (r : Run) {j : Nat} (hj : j < encNs r) :
    (r.spectra.map (·.mz_array)).getD j none
      = (r.spectra.getD j (binsDefaultSpec 0)).mz_array :=
  getD_map_field _ (by simpa [encNs] using hj) rfl

theorem inten_getD_eq (r : Run) {j : Nat} (hj : j < encNs r) :
    (r.spectra.map (·.intensity_array)).getD j none
      = (r.spectra.getD j (binsDefaultSpec 0)).intensity_array :=
  getD_map_field _ (by simpa [encNs] using hj) rfl

theorem time_getD_eq (r : Run) {j : Nat} (hj : j < encNc r) :
    (r.chromatograms.map (·.time_array)).getD j none
      = (r.chromatograms.getD j (binsDefaultChrom 0)).time_array :=
  getD_map_field _ (by simpa [encNc] using hj) rfl

theorem cinten_getD_eq (r : Run) {j : Nat} (hj : j < encNc r) :
    (r.chromatograms.map (·.intensity_array)).getD j none
      = (r.chromatograms.getD j (binsDefaultChrom 0)).intensity_array :=
  getD_map_field _ (by simpa [encNc] using hj) rfl

theorem id_getD_eq (r : Run) {j : Nat} (hj : j < encNc r) :
    (r.chromatograms.map (·.id)).getD j []
      = (r.chromatograms.getD j (binsDefaultChrom 0)).id :=
  getD_map_field _ (by simpa [encNc] using hj) rfl

theorem readIndexTable_S (r : Run) (hWF : RunWF r) (htot : encTotal r < 2 ^ 64) :
    readIndexTable (encode (MzML.mk (some r))) (if 0 < encNs r then 64 else 0) (encNs r)
      = .ok (sidxExp r) := by
  rw [sidxExp]
  by_cases hns : 0 < encNs r
  · rw [if_pos hns]
    unfold readIndexTable
    apply exceptRange_ok
    intro j hj
    have hmz := arrFactE_mz r hj
    have hin := arrFactE_inten r hj
    have hwmz : OptArrWF ((r.spectra.map (·.mz_array)).getD j none) (2 ^ 64) := by
      rw [mz_getD_eq r hj]
      exact (spec_wf_at r hWF hj).mz
    have hwin : OptArrWF ((r.spectra.map (·.intensity_array)).getD j none) (2 ^ 32) := by
      rw [inten_getD_eq r hj]
      exact (spec_wf_at r hWF hj).inten
    have hb1 := arrFactE_bounds hmz htot hwmz
    have hb2 := arrFactE_bounds hin htot hwin
    simp only [rdS_xoff r hj, rdS_xlen r hj, rdS_yoff r hj, rdS_ylen r hj, ok_bind,
      leNat8_of_lt hb1.1, leNat4_of_lt hb1.2, leNat8_of_lt hb2.1, leNat4_of_lt hb2.2]
    rfl
  · rw [if_neg hns]
    have h0 : encNs r = 0 := by omega
    rw [h0]
    unfold readIndexTable
    rw [exceptRange_ok (fun j hj => absurd hj (by omega))]

theorem readIndexTable_C (r : Run) (hWF : RunWF r) (htot : encTotal r < 2 ^ 64) :
    readIndexTable (encode (MzML.mk (some r))) (if 0 < encNc r then encCio r else 0)
      (encNc r) = .ok (cidxExp r) := by
  rw [cidxExp]
  by_cases hnc : 0 < encNc r
  · rw [if_pos hnc]
    unfold readIndexTable
    apply exceptRange_ok
    intro j hj
    have htm := arrFactE_time r hj
    have hci := arrFactE_cinten r hj
    have hwtm : OptArrWF ((r.chromatograms.map (·.time_array)).getD j none) (2 ^ 64) := by
      rw [time_getD_eq r hj]
      exact (chrom_wf_at r hWF hj).time
    have hwci : OptArrWF ((r.chromatograms.map (·.intensity_array)).getD j none)
        (2 ^ 32) := by
      rw [cinten_getD_eq r hj]
      exact (chrom_wf_at r hWF hj).inten
    have hb1 := arrFactE_bounds htm htot hwtm
    have hb2 := arrFactE_bounds hci htot hwci
    simp only [rdC_xoff r hj, rdC_xlen r hj, rdC_yoff r hj, rdC_ylen r hj, ok_bind,
      leNat8_of_lt hb1.1, leNat4_of_lt hb1.2, leNat8_of_lt hb2.1, leNat4_of_lt hb2.2]
    rfl
  · rw [if_neg hnc]
    have h0 : encNc r = 0 := by omega
    rw [h0]
    unfold readIndexTable
    rw [exceptRange_ok (fun j hj => absurd hj (by omega))]

/-! ### Reading the metadata tables back -/

theorem smo_le_encode_length (r : Run) :
    encSmo r + encNs r * 104 ≤ (encode (MzML.mk (some r))).length := by
  have h := dof_le_encode_length r
  unfold encDof encCmo at h
  omega

theorem cmo_le_encode_length (r : Run) :
    encCmo r + encNc r * 24 ≤ (encode (MzML.mk (some r))).length := by
  have h := dof_le_encode_length r
  unfold encDof at h
  omega

theorem smeta_seg (r : Run) {j : Nat} (hj : j < encNs r) (δ n : Nat) (hδ : δ + n ≤ 104) :
    seg (encode (MzML.mk (some r))) (encSmo r + (j * 104 + δ)) n
      = seg (specMetaEntry (r.spectra.getD j (binsDefaultSpec 0))) δ n := by
  rw [seg_encode_SM r (by omega)]
  have hj' : j < r.spectra.length := by simpa [encNs] using hj
  have hstep : j * 104 + δ = 104 * j + δ := by omega
  rw [hstep, encSM]
  rw [@seg_flatMap_const SpectrumSummary specMetaEntry 104 specMetaEntry_length
    r.spectra j hj' δ n hδ]
  congr 1
  rw [List.get_eq_getElem, List.getD_eq_getElem _ _ hj']

theorem cmeta_seg (r : Run) {j : Nat} (hj : j < encNc r) (δ n : Nat) (hδ : δ + n ≤ 24) :
    seg (encode (MzML.mk (some r))) (encCmo r + (j * 24 + δ)) n
      = seg (chromMetaEntry (r.chromatograms.getD j (binsDefaultChrom 0))
          ((encR5 r).1.getD j (0, 0))) δ n := by
  rw [seg_encode_CM r (by omega)]
  have hzlen : (r.chromatograms.zip (encR5 r).1).length = encNc r := by
    rw [List.length_zip, (encR5_spec r).1]
    have hc : r.chromatograms.length = encNc r := rfl
    rw [hc, Nat.min_self]
  have hj' : j < (r.chromatograms.zip (encR5 r).1).length := by omega
  have hstep : j * 24 + δ = 24 * j + δ := by omega
  rw [hstep, encCM]
  rw [@seg_flatMap_const (ChromatogramSummary × (Nat × Nat))
    (fun p => chromMetaEntry p.1 p.2) 24 (fun p => chromMetaEntry_length p.1 p.2)
    (r.chromatograms.zip (encR5 r).1) j hj' δ n hδ]
  have h1 : j < r.chromatograms.length := by simpa [encNc] using hj
  have h2 : j < (encR5 r).1.length := by rw [(encR5_spec r).1]; omega
  have hget : (r.chromatograms.zip (encR5 r).1).get ⟨j, hj'⟩
      = (r.chromatograms.getD j (binsDefaultChrom 0), (encR5 r).1.getD j (0, 0)) := by
    rw [List.get_eq_getElem, List.getElem_zip, List.getD_eq_getElem _ _ h1,
      List.getD_eq_getElem _ _ h2]
  rw [hget]

theorem seg_one {b : Bytes} {i : Nat} (h : i < b.length) : seg b i 1 = [byteAt b i] := by
  unfold seg byteAt
  have hlen : (b.drop i).length = b.length - i := List.length_drop i b
  match hd : b.drop i with
  | [] =>
    rw [hd] at hlen
    simp at hlen
    omega
  | x :: xs =>
    simp only [List.take_succ_cons, List.take_zero]
    have hx : b.getD i 0 = x := by
      rw [List.getD_eq_getElem _ _ h]
      have h4 : (b.drop i)[0]? = some x := by simp [hd]
      rw [List.getElem?_drop] at h4
      have h5 := @List.getElem?_eq_getElem _ b (i + 0) (by omega)
      rw [h5] at h4
      simpa using h4
    rw [hx]

theorem byteAt_of_seg {b c : Bytes} {i j : Nat} (h : seg b i 1 = seg c j 1)
    (hib : i < b.length) (hjc : j < c.length) : byteAt b i = byteAt c j := by
  have h1 := seg_one hib
  have h2 := seg_one hjc
  rw [h1, h2] at h
  exact List.head_eq_of_cons_eq h

theorem rdU32_SM (r : Run) {j : Nat} (hj : j < encNs r) (δ : Nat) (hδ : δ + 4 ≤ 104) :
    rdU32 (encode (MzML.mk (some r))) (encSmo r + j * 104 + δ)
      = .ok (leNat (seg (specMetaEntry (r.spectra.getD j (binsDefaultSpec 0))) δ 4)) := by
  unfold rdU32
  rw [if_pos (by have := smo_le_encode_length r; omega)]
  have h1 : encSmo r + j * 104 + δ = encSmo r + (j * 104 + δ) := by omega
  rw [h1, smeta_seg r hj δ 4 hδ]

theorem rdU32_SM0 (r : Run) {j : Nat} (hj : j < encNs r) :
    rdU32 (encode (MzML.mk (some r))) (encSmo r + j * 104)
      = .ok (leNat (seg (specMetaEntry (r.spectra.getD j (binsDefaultSpec 0))) 0 4)) := by
  have h := rdU32_SM r hj 0 (by omega)
  rw [Nat.add_zero] at h
  exact h

theorem rdF64_SM (r : Run) {j : Nat} (hj : j < encNs r) (δ : Nat) (hδ : δ + 8 ≤ 104) :
    rdF64 (encode (MzML.mk (some r))) (encSmo r + j * 104 + δ)
      = .ok (leNat (seg (specMetaEntry (r.spectra.getD j (binsDefaultSpec 0))) δ 8)) := by
  unfold rdF64
  rw [if_pos (by have := smo_le_encode_length r; omega)]
  have h1 : encSmo r + j * 104 + δ = encSmo r + (j * 104 + δ) := by omega
  rw [h1, smeta_seg r hj δ 8 hδ]

theorem byteAt_SM (r : Run) {j : Nat} (hj : j < encNs r) (δ : Nat) (hδ : δ < 104) :
    byteAt (encode (MzML.mk (some r))) (encSmo r + j * 104 + δ)
      = byteAt (specMetaEntry (r.spectra.getD j (binsDefaultSpec 0))) δ := by
  apply byteAt_of_seg
  · have h := smeta_seg r hj δ 1 (by omega)
    have h1 : encSmo r + j * 104 + δ = encSmo r + (j * 104 + δ) := by omega
    rw [h1]
    exact h
  · have := smo_le_encode_length r
    omega
  · rw [specMetaEntry_length]
    omega

theorem rdU32_CM (r : Run) {j : Nat} (hj : j < encNc r) (δ : Nat) (hδ : δ + 4 ≤ 24) :
    rdU32 (encode (MzML.mk (some r))) (encCmo r + j * 24 + δ)
      = .ok (leNat (seg (chromMetaEntry (r.chromatograms.getD j (binsDefaultChrom 0))
          ((encR5 r).1.getD j (0, 0))) δ 4)) := by
  unfold rdU32
  rw [if_pos (by have := cmo_le_encode_length r; omega)]
  have h1 : encCmo r + j * 24 + δ = encCmo r + (j * 24 + δ) := by omega
  rw [h1, cmeta_seg r hj δ 4 hδ]

theorem rdU32_CM0 (r : Run) {j : Nat} (hj : j < encNc r) :
    rdU32 (encode (MzML.mk (some r))) (encCmo r + j * 24)
      = .ok (leNat (seg (chromMetaEntry (r.chromatograms.getD j (binsDefaultChrom 0))
          ((encR5 r).1.getD j (0, 0))) 0 4)) := by
  have h := rdU32_CM r hj 0 (by omega)
  rw [Nat.add_zero] at h
  exact h

theorem rdU64_CM (r : Run) {j : Nat} (hj : j < encNc r) (δ : Nat) (hδ : δ + 8 ≤ 24) :
    rdU64 (encode (MzML.mk (some r))) (encCmo r + j * 24 + δ)
      = .ok (leNat (seg (chromMetaEntry (r.chromatograms.getD j (binsDefaultChrom 0))
          ((encR5 r).1.getD j (0, 0))) δ 8)) := by
  unfold rdU64
  rw [if_pos (by have := cmo_le_encode_length r; omega)]
  have h1 : encCmo r + j * 24 + δ = encCmo r + (j * 24 + δ) := by omega
  rw [h1, cmeta_seg r hj δ 8 hδ]

/-! ### Reading the header back -/

theorem cio_lt (r : Run) (hns : encNs r < 2 ^ 32) : encCio r < 2 ^ 64 := by
  unfold encCio
  omega

theorem smo_lt (r : Run) (hns : encNs r < 2 ^ 32) (hnc : encNc r < 2 ^ 32) :
    encSmo r < 2 ^ 64 := by
  unfold encSmo encCio
  omega

theorem cmo_lt (r : Run) (hns : encNs r < 2 ^ 32) (hnc : encNc r < 2 ^ 32) :
    encCmo r < 2 ^ 64 := by
  unfold encCmo encSmo encCio
  omega

theorem dof_lt (r : Run) (hns : encNs r < 2 ^ 32) (hnc : encNc r < 2 ^ 32) :
    encDof r < 2 ^ 64 := by
  unfold encDof encCmo encSmo encCio
  omega

theorem rdHdr_ns (r : Run) (hns : encNs r < 2 ^ 32) :
    rdU32 (encode (MzML.mk (some r))) 4 = .ok (encNs r) := by
  unfold rdU32
  rw [if_pos (by have := encode_length_ge r; omega)]
  rw [seg_encode_hdr r (by omega), encHeaderOf, hdr_seg_ns, leNat4_of_lt hns]

theorem rdHdr_nc (r : Run) (hnc : encNc r < 2 ^ 32) :
    rdU32 (encode (MzML.mk (some r))) 8 = .ok (encNc r) := by
  unfold rdU32
  rw [if_pos (by have := encode_length_ge r; omega)]
  rw [seg_encode_hdr r (by omega), encHeaderOf, hdr_seg_nc, leNat4_of_lt hnc]

theorem byteAt_encode12 (r : Run) : byteAt (encode (MzML.mk (some r))) 12 = 2 := by
  rw [byteAt_encode_hdr r (by omega), encHeaderOf, hdr_byte12]

theorem byteAt_encode13 (r : Run) : byteAt (encode (MzML.mk (some r))) 13 = 1 := by
  rw [byteAt_encode_hdr r (by omega), encHeaderOf, hdr_byte13]

theorem byteAt_encode14 (r : Run) : byteAt (encode (MzML.mk (some r))) 14 = 2 := by
  rw [byteAt_encode_hdr r (by omega), encHeaderOf, hdr_byte14]

theorem byteAt_encode15 (r : Run) : byteAt (encode (MzML.mk (some r))) 15 = 1 := by
  rw [byteAt_encode_hdr r (by omega), encHeaderOf, hdr_byte15]

theorem rdHdr_sio (r : Run) :
    rdU64 (encode (MzML.mk (some r))) 16 = .ok (if 0 < encNs r then 64 else 0) := by
  unfold rdU64
  rw [if_pos (by have := encode_length_ge r; omega)]
  rw [seg_encode_hdr r (by omega), encHeaderOf, hdr_seg16,
    leNat8_of_lt (by split <;> norm_num)]

theorem rdHdr_cio (r : Run) (hns : encNs r < 2 ^ 32) :
    rdU64 (encode (MzML.mk (some r))) 24
      = .ok (if 0 < encNc r then encCio r else 0) := by
  unfold rdU64
  rw [if_pos (by have := encode_length_ge r; omega)]
  rw [seg_encode_hdr r (by omega), encHeaderOf, hdr_seg24,
    leNat8_of_lt (by split; exacts [cio_lt r hns, by norm_num])]

theorem rdHdr_smo (r : Run) (hns : encNs r < 2 ^ 32) (hnc : encNc r < 2 ^ 32) :
    rdU64 (encode (MzML.mk (some r))) 32
      = .ok (if 0 < encNs r then encSmo r else 0) := by
  unfold rdU64
  rw [if_pos (by have := encode_length_ge r; omega)]
  rw [seg_encode_hdr r (by omega), encHeaderOf, hdr_seg32,
    leNat8_of_lt (by split; exacts [smo_lt r hns hnc, by norm_num])]

theorem rdHdr_cmo (r : Run) (hns : encNs r < 2 ^ 32) (hnc : encNc r < 2 ^ 32) :
    rdU64 (encode (MzML.mk (some r))) 40
      = .ok (if 0 < encNc r then encCmo r else 0) := by
  unfold rdU64
  rw [if_pos (by have := encode_length_ge r; omega)]
  rw [seg_encode_hdr r (by omega), encHeaderOf, hdr_seg40,
    leNat8_of_lt (by split; exacts [cmo_lt r hns hnc, by norm_num])]

theorem rdHdr_dof (r : Run) (hns : encNs r < 2 ^ 32) (hnc : encNc r < 2 ^ 32) :
    rdU64 (encode (MzML.mk (some r))) 48 = .ok (encDof r) := by
  unfold rdU64
  rw [if_pos (by have := encode_length_ge r; omega)]
  rw [seg_encode_hdr r (by omega), encHeaderOf, hdr_seg48,
    leNat8_of_lt (dof_lt r hns hnc)]

theorem rdHdr_total (r : Run) :
    rdU64 (encode (MzML.mk (some r))) 56
      = .ok (leNat (natLeBytes 8 (encTotal r))) := by
  unfold rdU64
  rw [if_pos (by have := encode_length_ge r; omega)]
  rw [seg_encode_hdr r (by omega), encHeaderOf, hdr_seg56]

theorem magic_encode (r : Run) : seg (encode (MzML.mk (some r))) 0 4 = bin1Magic := by
  rw [seg_encode_hdr r (by omega), encHeaderOf, hdr_seg_magic]

/-! ### More list and monad calculus for the table-level readback -/

theorem exceptRange_zero {α : Type} (f : Nat → Except String α) :
    exceptRange 0 f = .ok [] := rfl

theorem rangeMap_getD {β : Type} {n i : Nat} (F : Nat → β) (d : β) (hi : i < n) :
    ((List.range n).map F).getD i d = F i := by
  rw [List.getD_eq_getElem _ _ (by simpa using hi), List.getElem_map, List.getElem_range]

theorem sidxExp_getD (r : Run) {i : Nat} (hi : i < encNs r) :
    (sidxExp r).getD i (0, 0, 0, 0)
      = (((encR1 r).1.getD i (0, 0)).1, ((encR1 r).1.getD i (0, 0)).2,
         ((encR2 r).1.getD i (0, 0)).1, ((encR2 r).1.getD i (0, 0)).2) := by
  unfold sidxExp
  exact rangeMap_getD _ _ hi

theorem cidxExp_getD (r : Run) {i : Nat} (hi : i < encNc r) :
    (cidxExp r).getD i (0, 0, 0, 0)
      = (((encR3 r).1.getD i (0, 0)).1, ((encR3 r).1.getD i (0, 0)).2,
         ((encR4 r).1.getD i (0, 0)).1, ((encR4 r).1.getD i (0, 0)).2) := by
  unfold cidxExp
  exact rangeMap_getD _ _ hi

theorem map_fst_zip_eq {α β : Type} :
    ∀ {l1 : List α} {l2 : List β}, l1.length = l2.length →
      (l1.zip l2).map (fun p => p.1) = l1 := by
  intro l1
  induction l1 with
  | nil => intro l2 _h; rfl
  | cons a t ih =>
    intro l2 h
    cases l2 with
    | nil => simp at h
    | cons b t2 =>
      simp only [List.zip_cons_cons, List.map_cons]
      rw [ih (by simpa using h)]

theorem map_snd_zip_eq {α β : Type} :
    ∀ {l1 : List α} {l2 : List β}, l1.length = l2.length →
      (l1.zip l2).map (fun p => p.2) = l2 := by
  intro l1
  induction l1 with
  | nil =>
    intro l2 h
    cases l2 with
    | nil => rfl
    | cons b t2 => simp at h
  | cons a t ih =>
    intro l2 h
    cases l2 with
    | nil => simp at h
    | cons b t2 =>
      simp only [List.zip_cons_cons, List.map_cons]
      rw [ih (by simpa using h)]

/-- Pairwise monadic traversal of two length-n lists whose i-th result is
given by an index function. -/
theorem exceptZipWith_ok_idx {α β γ : Type} {f : α → β → Except String γ}
    (da : α) (db : β) :
    ∀ {n : Nat} {G : Nat → γ} {as : List α} {bs : List β},
      as.length = n → bs.length = n →
      (∀ i, i < n → f (as.getD i da) (bs.getD i db) = .ok (G i)) →
      exceptZipWith f as bs = .ok ((List.range n).map G) := by
  intro n
  induction n with
  | zero =>
    intro G as bs ha hb _h
    cases as with
    | nil =>
      cases bs with
      | nil => rfl
      | cons b t2 => simp at hb
    | cons a t => simp at ha
  | succ k ih =>
    intro G as bs ha hb h
    cases as with
    | nil => simp at ha
    | cons a t =>
      cases bs with
      | nil => simp at hb
      | cons b t2 =>
        have h0 := h 0 (by omega)
        simp only [List.getD_cons_zero] at h0
        show (f a b) >>= (fun c => (exceptZipWith f t t2) >>= (fun cs => pure (c :: cs)))
          = _
        rw [h0, @ih (fun i => G (i + 1)) t t2 (by simpa using ha) (by simpa using hb)
          (fun i hi => by
            have h2 := h (i + 1) (by omega)
            simpa using h2)]
        rw [List.range_succ_eq_map, List.map_cons, List.map_map]
        rfl

/-! ### Evaluating one metadata entry -/

theorem sentinelF64_negOne : sentinelF64 f64NegOne = none := by
  have h : f64LtZero f64NegOne = true := by decide
  simp [sentinelF64, h]

theorem precFields_lt {s : SpectrumSummary} (hwf : SpecWF s) :
    (precFields s.precursor).1 < 2 ^ 64 ∧ (precFields s.precursor).2.1 < 2 ^ 64 ∧
    (precFields s.precursor).2.2.1 < 2 ^ 64 ∧ (precFields s.precursor).2.2.2 < 2 ^ 64 := by
  cases hp : s.precursor with
  | none =>
    simp only [precFields]
    exact ⟨f64NegOne_lt, f64NegOne_lt, f64NegOne_lt, f64NegOne_lt⟩
  | some p =>
    have hw := hwf.prec p hp
    simp only [precFields]
    exact ⟨getD_lt_of_optLt hw.1 _ f64NegOne_lt, getD_lt_of_optLt hw.2.1 _ f64NegOne_lt,
      getD_lt_of_optLt hw.2.2.1 _ f64NegOne_lt, getD_lt_of_optLt hw.2.2.2 _ f64NegOne_lt⟩

theorem prec_rebuild (o : Option Precursor) :
    (if sentinelF64 (precFields o).1 = none ∧ sentinelF64 (precFields o).2.1 = none ∧
        sentinelF64 (precFields o).2.2.1 = none ∧ sentinelF64 (precFields o).2.2.2 = none
     then none
     else some (Precursor.mk (sentinelF64 (precFields o).1)
        (sentinelF64 (precFields o).2.1) (sentinelF64 (precFields o).2.2.1)
        (sentinelF64 (precFields o).2.2.2)))
      = normPrec o := by
  cases o with
  | none => simp [precFields, sentinelF64_negOne, normPrec]
  | some p =>
    simp only [precFields, normPrec, sentinelF64_getD]

theorem readSpecMetaEntry_E (r : Run) (hWF : RunWF r) {j : Nat} (hj : j < encNs r) :
    readSpecMetaEntry (encode (MzML.mk (some r))) (encSmo r + j * 104)
      = .ok (metaOnlySpec (r.spectra.getD j (binsDefaultSpec 0))) := by
  have hwf := spec_wf_at r hWF hj
  have hidx := rdU32_SM0 r hj
  rw [specMeta_seg0, leNat4_of_lt hwf.index] at hidx
  have halen := rdU32_SM r hj 4 (by omega)
  rw [specMeta_seg4, leNat4_of_lt hwf.alen] at halen
  have hrt := rdF64_SM r hj 12 (by omega)
  rw [specMeta_seg12, leNat8_of_lt (getD_lt_of_optLt hwf.rt _ f64NegOne_lt)] at hrt
  have hswl := rdF64_SM r hj 20 (by omega)
  rw [specMeta_seg20, leNat8_of_lt (getD_lt_of_optLt hwf.swl _ f64NegOne_lt)] at hswl
  have hswu := rdF64_SM r hj 28 (by omega)
  rw [specMeta_seg28, leNat8_of_lt (getD_lt_of_optLt hwf.swu _ f64NegOne_lt)] at hswu
  have htic := rdF64_SM r hj 36 (by omega)
  rw [specMeta_seg36, leNat8_of_lt (getD_lt_of_optLt hwf.tic _ f64NegOne_lt)] at htic
  have hbpi := rdF64_SM r hj 44 (by omega)
  rw [specMeta_seg44, leNat8_of_lt (getD_lt_of_optLt hwf.bpi _ f64NegOne_lt)] at hbpi
  have hbpm := rdF64_SM r hj 52 (by omega)
  rw [specMeta_seg52, leNat8_of_lt (getD_lt_of_optLt hwf.bpm _ f64NegOne_lt)] at hbpm
  have hplt := precFields_lt hwf
  have hpt := rdF64_SM r hj 60 (by omega)
  rw [specMeta_seg60, leNat8_of_lt hplt.1] at hpt
  have hpl := rdF64_SM r hj 68 (by omega)
  rw [specMeta_seg68, leNat8_of_lt hplt.2.1] at hpl
  have hpu := rdF64_SM r hj 76 (by omega)
  rw [specMeta_seg76, leNat8_of_lt hplt.2.2.1] at hpu
  have hps := rdF64_SM r hj 84 (by omega)
  rw [specMeta_seg84, leNat8_of_lt hplt.2.2.2] at hps
  have hb8 := byteAt_SM r hj 8 (by omega)
  rw [specMeta_byte8] at hb8
  have hb9 := byteAt_SM r hj 9 (by omega)
  rw [specMeta_byte9] at hb9
  have hb10 := byteAt_SM r hj 10 (by omega)
  rw [specMeta_byte10] at hb10
  unfold readSpecMetaEntry
  rw [hidx]
  simp only [ok_bind]
  rw [halen]
  simp only [ok_bind]
  rw [hb8, hb9, hb10, hrt]
  simp only [ok_bind]
  rw [hswl]
  simp only [ok_bind]
  rw [hswu]
  simp only [ok_bind]
  rw [htic]
  simp only [ok_bind]
  rw [hbpi]
  simp only [ok_bind]
  rw [hbpm]
  simp only [ok_bind]
  rw [hpt]
  simp only [ok_bind]
  rw [hpl]
  simp only [ok_bind]
  rw [hpu]
  simp only [ok_bind]
  rw [hps]
  simp only [ok_bind]
  rw [sentinelU8_getD, sentinelU8_getD, sentinelU8_getD, sentinelF64_getD,
    sentinelF64_getD, sentinelF64_getD, sentinelF64_getD, sentinelF64_getD,
    sentinelF64_getD, prec_rebuild]
  rfl

theorem readChromMetaEntry_E (r : Run) (hWF : RunWF r) {j : Nat} (hj : j < encNc r)
    (htot : encTotal r < 2 ^ 64) :
    readChromMetaEntry (encode (MzML.mk (some r))) (encCmo r + j * 24)
      = .ok (metaOnlyChrom (r.chromatograms.getD j (binsDefaultChrom 0)),
          (encR5 r).1.getD j (0, 0)) := by
  have hwf := chrom_wf_at r hWF hj
  have hfact := idFactE r hj (by rw [id_getD_eq r hj]; exact hwf.idBytes)
  have hlen : ((r.chromatograms.map (·.id)).getD j []).length < 2 ^ 32 := by
    rw [id_getD_eq r hj]
    exact hwf.idLen
  have hb := idFactE_bounds hfact htot hlen
  have hidx := rdU32_CM0 r hj
  rw [chromMeta_seg0, leNat4_of_lt hwf.index] at hidx
  have halen := rdU32_CM r hj 4 (by omega)
  rw [chromMeta_seg4, leNat4_of_lt hwf.alen] at halen
  have hoff := rdU64_CM r hj 8 (by omega)
  rw [chromMeta_seg8, leNat8_of_lt hb.1] at hoff
  have hl := rdU32_CM r hj 16 (by omega)
  rw [chromMeta_seg16, leNat4_of_lt hb.2] at hl
  unfold readChromMetaEntry
  rw [hidx]
  simp only [ok_bind]
  rw [halen]
  simp only [ok_bind]
  rw [hoff]
  simp only [ok_bind]
  rw [hl]
  simp only [ok_bind]
  rfl

/-! ### Reading the metadata tables back -/

theorem readSpecTable_E (r : Run) (hWF : RunWF r) :
    exceptRange (encNs r) (fun i => readSpecMetaEntry (encode (MzML.mk (some r)))
        ((if 0 < encNs r then encSmo r else 0) + i * 104))
      = .ok (r.spectra.map metaOnlySpec) := by
  by_cases hns : 0 < encNs r
  · simp only [if_pos hns]
    rw [exceptRange_ok (fun j hj => readSpecMetaEntry_E r hWF hj)]
    rw [show encNs r = r.spectra.length from rfl,
      rangeMap_getD_eq_map metaOnlySpec r.spectra (binsDefaultSpec 0)]
  · simp only [if_neg hns]
    have h0 : encNs r = 0 := by omega
    have hnil : r.spectra = [] := List.length_eq_zero.mp h0
    rw [h0, exceptRange_zero, hnil]
    rfl

theorem readChromTable_E (r : Run) (hWF : RunWF r) (htot : encTotal r < 2 ^ 64) :
    exceptRange (encNc r) (fun i => readChromMetaEntry (encode (MzML.mk (some r)))
        ((if 0 < encNc r then encCmo r else 0) + i * 24))
      = .ok ((r.chromatograms.map metaOnlyChrom).zip (encR5 r).1) := by
  by_cases hnc : 0 < encNc r
  · simp only [if_pos hnc]
    rw [exceptRange_ok (fun j hj => readChromMetaEntry_E r hWF hj htot)]
    have hz : (r.chromatograms.map metaOnlyChrom).zip (encR5 r).1
        = (List.range (encNc r)).map (fun i =>
            (metaOnlyChrom (r.chromatograms.getD i (binsDefaultChrom 0)),
             (encR5 r).1.getD i (0, 0))) := by
      have h1 : (r.chromatograms.map metaOnlyChrom).zip (encR5 r).1
          = List.zipWith Prod.mk (r.chromatograms.map metaOnlyChrom) (encR5 r).1 := rfl
      rw [h1, zipWith_eq_rangeMap (metaOnlyChrom (binsDefaultChrom 0)) ((0 : Nat), (0 : Nat))
        (show (r.chromatograms.map metaOnlyChrom).length = encNc r by simp [encNc])
        (encR5_spec r).1]
      apply rangeMap_congr
      intro i hi
      rw [getD_map_field metaOnlyChrom (show i < r.chromatograms.length by
        simpa [encNc] using hi) rfl]
    rw [hz]
  · simp only [if_neg hnc]
    have h0 : encNc r = 0 := by omega
    have hnil : r.chromatograms = [] := List.length_eq_zero.mp h0
    rw [h0, exceptRange_zero, hnil]
    rfl

/-! ### Attaching the arrays and ids on the encoder output -/

theorem attachSpecArrays_E (r : Run) (hWF : RunWF r) :
    attachSpecArrays (encode (MzML.mk (some r))) 2 1 (sidxExp r)
        (r.spectra.map metaOnlySpec)
      = .ok (r.spectra.map normalizeSpec) := by
  have hlen1 : (r.spectra.map metaOnlySpec).length = encNs r := by simp [encNs]
  have hlen2 : (sidxExp r).length = encNs r := by simp [sidxExp]
  have h1 : exceptZipWith (fun s e => do
        let a ← read_array_as_f64 (encode (MzML.mk (some r))) e.1 e.2.1 2
        return { s with mz_array := a })
      (r.spectra.map metaOnlySpec) (sidxExp r)
      = .ok ((List.range (encNs r)).map (fun i =>
          { metaOnlySpec (r.spectra.getD i (binsDefaultSpec 0)) with
            mz_array := normArr (r.spectra.getD i (binsDefaultSpec 0)).mz_array })) := by
    apply exceptZipWith_ok_idx (metaOnlySpec (binsDefaultSpec 0)) (0, 0, 0, 0) hlen1 hlen2
    intro i hi
    have hj : i < r.spectra.length := by simpa [encNs] using hi
    have hw : OptArrWF ((r.spectra.map (·.mz_array)).getD i none) (2 ^ 64) := by
      rw [mz_getD_eq r hi]
      exact (spec_wf_at r hWF hi).mz
    have hmz := read_array_as_f64_fact (arrFactE_mz r hi) hw
    rw [mz_getD_eq r hi] at hmz
    rw [sidxExp_getD r hi, getD_map_field metaOnlySpec hj rfl]
    show read_array_as_f64 (encode (MzML.mk (some r))) ((encR1 r).1.getD i (0, 0)).1
        ((encR1 r).1.getD i (0, 0)).2 2 >>= (fun a =>
        pure { metaOnlySpec (r.spectra.getD i (binsDefaultSpec 0)) with mz_array := a })
      = _
    rw [hmz]
    exact ok_bind _ _
  have h2 : exceptZipWith (fun s e => do
        let a ← read_array_as_f32 (encode (MzML.mk (some r))) e.2.2.1 e.2.2.2 1
        return { s with intensity_array := a })
      ((List.range (encNs r)).map (fun i =>
          { metaOnlySpec (r.spectra.getD i (binsDefaultSpec 0)) with
            mz_array := normArr (r.spectra.getD i (binsDefaultSpec 0)).mz_array }))
      (sidxExp r)
      = .ok ((List.range (encNs r)).map (fun i =>
          normalizeSpec (r.spectra.getD i (binsDefaultSpec 0)))) := by
    apply exceptZipWith_ok_idx (binsDefaultSpec 0) (0, 0, 0, 0) (by simp) hlen2
    intro i hi
    have hw : OptArrWF ((r.spectra.map (·.intensity_array)).getD i none) (2 ^ 32) := by
      rw [inten_getD_eq r hi]
      exact (spec_wf_at r hWF hi).inten
    have hin := read_array_as_f32_fact (arrFactE_inten r hi) hw
    rw [inten_getD_eq r hi] at hin
    rw [sidxExp_getD r hi, rangeMap_getD _ _ hi]
    show read_array_as_f32 (encode (MzML.mk (some r))) ((encR2 r).1.getD i (0, 0)).1
        ((encR2 r).1.getD i (0, 0)).2 1 >>= (fun a =>
        pure { { metaOnlySpec (r.spectra.getD i (binsDefaultSpec 0)) with
            mz_array := normArr (r.spectra.getD i (binsDefaultSpec 0)).mz_array } with
          intensity_array := a })
      = _
    rw [hin]
    exact ok_bind _ _
  unfold attachSpecArrays
  rw [h1]
  simp only [ok_bind]
  rw [h2]
  rw [show encNs r = r.spectra.length from rfl,
    rangeMap_getD_eq_map normalizeSpec r.spectra (binsDefaultSpec 0)]

theorem attachChromArrays_E (r : Run) (hWF : RunWF r) :
    attachChromArrays (encode (MzML.mk (some r))) 2 1 (cidxExp r)
        (r.chromatograms.map metaOnlyChrom)
      = .ok (r.chromatograms.map chromWithArrays) := by
  have hlen1 : (r.chromatograms.map metaOnlyChrom).length = encNc r := by simp [encNc]
  have hlen2 : (cidxExp r).length = encNc r := by simp [cidxExp]
  have h1 : exceptZipWith (fun c e => do
        let a ← read_array_as_f64 (encode (MzML.mk (some r))) e.1 e.2.1 2
        return { c with time_array := a })
      (r.chromatograms.map metaOnlyChrom) (cidxExp r)
      = .ok ((List.range (encNc r)).map (fun i =>
          { metaOnlyChrom (r.chromatograms.getD i (binsDefaultChrom 0)) with
            time_array := normArr
              (r.chromatograms.getD i (binsDefaultChrom 0)).time_array })) := by
    apply exceptZipWith_ok_idx (metaOnlyChrom (binsDefaultChrom 0)) (0, 0, 0, 0) hlen1 hlen2
    intro i hi
    have hj : i < r.chromatograms.length := by simpa [encNc] using hi
    have hw : OptArrWF ((r.chromatograms.map (·.time_array)).getD i none) (2 ^ 64) := by
      rw [time_getD_eq r hi]
      exact (chrom_wf_at r hWF hi).time
    have htm := read_array_as_f64_fact (arrFactE_time r hi) hw
    rw [time_getD_eq r hi] at htm
    rw [cidxExp_getD r hi, getD_map_field metaOnlyChrom hj rfl]
    show read_array_as_f64 (encode (MzML.mk (some r))) ((encR3 r).1.getD i (0, 0)).1
        ((encR3 r).1.getD i (0, 0)).2 2 >>= (fun a =>
        pure { metaOnlyChrom (r.chromatograms.getD i (binsDefaultChrom 0)) with
          time_array := a })
      = _
    rw [htm]
    exact ok_bind _ _
  have h2 : exceptZipWith (fun c e => do
        let a ← read_array_as_f32 (encode (MzML.mk (some r))) e.2.2.1 e.2.2.2 1
        return { c with intensity_array := a })
      ((List.range (encNc r)).map (fun i =>
          { metaOnlyChrom (r.chromatograms.getD i (binsDefaultChrom 0)) with
            time_array := normArr
              (r.chromatograms.getD i (binsDefaultChrom 0)).time_array }))
      (cidxExp r)
      = .ok ((List.range (encNc r)).map (fun i =>
          chromWithArrays (r.chromatograms.getD i (binsDefaultChrom 0)))) := by
    apply exceptZipWith_ok_idx (binsDefaultChrom 0) (0, 0, 0, 0) (by simp) hlen2
    intro i hi
    have hw : OptArrWF ((r.chromatograms.map (·.intensity_array)).getD i none)
        (2 ^ 32) := by
      rw [cinten_getD_eq r hi]
      exact (chrom_wf_at r hWF hi).inten
    have hci := read_array_as_f32_fact (arrFactE_cinten r hi) hw
    rw [cinten_getD_eq r hi] at hci
    rw [cidxExp_getD r hi, rangeMap_getD _ _ hi]
    show read_array_as_f32 (encode (MzML.mk (some r))) ((encR4 r).1.getD i (0, 0)).1
        ((encR4 r).1.getD i (0, 0)).2 1 >>= (fun a =>
        pure { { metaOnlyChrom (r.chromatograms.getD i (binsDefaultChrom 0)) with
            time_array := normArr
              (r.chromatograms.getD i (binsDefaultChrom 0)).time_array } with
          intensity_array := a })
      = _
    rw [hci]
    exact ok_bind _ _
  unfold attachChromArrays
  rw [h1]
  simp only [ok_bind]
  rw [h2]
  rw [show encNc r = r.chromatograms.length from rfl,
    rangeMap_getD_eq_map chromWithArrays r.chromatograms (binsDefaultChrom 0)]

theorem attachChromIds_E (r : Run) (hWF : RunWF r) :
    attachChromIds (encode (MzML.mk (some r))) (r.chromatograms.map chromWithArrays)
        (encR5 r).1
      = .ok (r.chromatograms.map normalizeChrom) := by
  unfold attachChromIds
  rw [show r.chromatograms.map normalizeChrom
      = (List.range (encNc r)).map (fun i =>
          normalizeChrom (r.chromatograms.getD i (binsDefaultChrom 0))) by
    rw [show encNc r = r.chromatograms.length from rfl,
      rangeMap_getD_eq_map normalizeChrom r.chromatograms (binsDefaultChrom 0)]]
  apply exceptZipWith_ok_idx (chromWithArrays (binsDefaultChrom 0)) (0, 0)
    (by simp [encNc]) (encR5_spec r).1
  intro i hi
  have hj : i < r.chromatograms.length := by simpa [encNc] using hi
  have hwf := chrom_wf_at r hWF hi
  have hfact := idFactE r hi (by rw [id_getD_eq r hi]; exact hwf.idBytes)
  rw [id_getD_eq r hi] at hfact
  rw [getD_map_field chromWithArrays hj rfl]
  by_cases hid : (r.chromatograms.getD i (binsDefaultChrom 0)).id.isEmpty
  · unfold IdFactE at hfact
    rw [if_pos hid] at hfact
    have hnil : (r.chromatograms.getD i (binsDefaultChrom 0)).id = [] := by
      simpa [List.isEmpty_iff] using hid
    have hnorm : normalizeChrom (r.chromatograms.getD i (binsDefaultChrom 0))
        = { chromWithArrays (r.chromatograms.getD i (binsDefaultChrom 0)) with
            id := ([] : Bytes) } := by
      unfold normalizeChrom chromWithArrays
      rw [hnil]
      rfl
    rw [hfact, hnorm]
    rfl
  · unfold IdFactE at hfact
    rw [if_neg (by simpa using hid)] at hfact
    obtain ⟨off, h1, _h2, h3, h4, h5⟩ := hfact
    rw [h1]
    have hlen0 : (r.chromatograms.getD i (binsDefaultChrom 0)).id.length ≠ 0 := by
      simpa [List.isEmpty_iff_length_eq_zero] using hid
    have hle : off + (r.chromatograms.getD i (binsDefaultChrom 0)).id.length
        ≤ (encode (MzML.mk (some r))).length := by
      rw [encode_length]
      exact h4
    show (if off = 0 ∨ (r.chromatograms.getD i (binsDefaultChrom 0)).id.length = 0
        then Except.ok { chromWithArrays (r.chromatograms.getD i (binsDefaultChrom 0))
          with id := ([] : Bytes) }
        else if off + (r.chromatograms.getD i (binsDefaultChrom 0)).id.length
            ≤ (encode (MzML.mk (some r))).length then
          Except.ok { chromWithArrays (r.chromatograms.getD i (binsDefaultChrom 0)) with
            id := if utf8Valid (seg (encode (MzML.mk (some r))) off
                (r.chromatograms.getD i (binsDefaultChrom 0)).id.length)
              then seg (encode (MzML.mk (some r))) off
                (r.chromatograms.getD i (binsDefaultChrom 0)).id.length
              else [] }
        else Except.error "chrom id OOB")
      = _
    rw [if_neg (by omega), if_pos hle, h5]
    rfl

/-! ### The round trip -/

theorem decode_encode (r : Run) (hWF : RunWF r) (htot : encTotal r < 2 ^ 64) :
    decode (encode (MzML.mk (some r)))
      = .ok (MzML.mk (some (normalizeRun r))) := by
  have hns := hWF.ns
  have hnc := hWF.nc
  have hlen64 := encode_length_ge r
  have hdofle := dof_le_encode_length r
  have hcioE : encCio r = 64 + 32 * encNs r := rfl
  have hsmoE : encSmo r = encCio r + 32 * encNc r := rfl
  have hcmoE : encCmo r = encSmo r + 104 * encNs r := rfl
  have hdofE : encDof r = encCmo r + 24 * encNc r := rfl
  have hb1 := cio_le_encode_length r
  have hb2 := smo_le_encode_length r
  have hb3 := cmo_le_encode_length r
  unfold decode
  rw [if_neg (by omega)]
  simp only [magic_encode r, rdHdr_ns r hns, rdHdr_nc r hnc, rdHdr_sio r, rdHdr_cio r hns,
    rdHdr_smo r hns hnc, rdHdr_cmo r hns hnc, rdHdr_dof r hns hnc, rdHdr_total r,
    byteAt_encode12, byteAt_encode13, byteAt_encode14, byteAt_encode15, ok_bind]
  rw [if_neg (show ¬(encDof r > (encode (MzML.mk (some r))).length) by omega)]
  rw [if_neg (show ¬((if 0 < encNs r then 64 else 0) + encNs r * 32
      > (encode (MzML.mk (some r))).length) by split <;> omega)]
  rw [readIndexTable_S r hWF htot]
  simp only [ok_bind]
  rw [if_neg (show ¬((if 0 < encNc r then encCio r else 0) + encNc r * 32
      > (encode (MzML.mk (some r))).length) by split <;> omega)]
  rw [readIndexTable_C r hWF htot]
  simp only [ok_bind]
  rw [if_pos trivial]
  rw [if_neg (show ¬((if 0 < encNs r then encSmo r else 0) + encNs r * 104
      > (encode (MzML.mk (some r))).length) by split <;> omega)]
  rw [readSpecTable_E r hWF]
  simp only [ok_bind]
  rw [if_neg (show ¬((if 0 < encNc r then encCmo r else 0) + encNc r * 24
      > (encode (MzML.mk (some r))).length) by split <;> omega)]
  rw [readChromTable_E r hWF htot]
  simp only [ok_bind]
  rw [attachSpecArrays_E r hWF]
  simp only [ok_bind]
  rw [map_fst_zip_eq (show (r.chromatograms.map metaOnlyChrom).length
      = (encR5 r).1.length by rw [List.length_map, (encR5_spec r).1]; rfl)]
  rw [attachChromArrays_E r hWF]
  simp only [ok_bind]
  rw [map_snd_zip_eq (show (r.chromatograms.map metaOnlyChrom).length
      = (encR5 r).1.length by rw [List.length_map, (encR5_spec r).1]; rfl)]
  rw [attachChromIds_E r hWF]
  simp only [ok_bind]
  rfl

/-! ### Wire-type facts of the concrete canonical run -/

theorem optLt_none {b : Nat} : OptLt none b := by
  intro v hv
  simp at hv

theorem optLt_some {v b : Nat} (h : v < b) : OptLt (some v) b := by
  intro x hx
  simp at hx
  omega

theorem optArrWF_none {b : Nat} : OptArrWF none b := by
  intro a ha
  simp at ha

theorem optArrWF_some {v : List Nat} {b : Nat} (h1 : v.length < 2 ^ 32)
    (h2 : ∀ x ∈ v, x < b) : OptArrWF (some v) b := by
  intro a ha
  simp at ha
  subst ha
  exact ⟨h1, h2⟩

theorem cwSpec_wf : SpecWF cwSpec :=
  ⟨by decide, by decide, optLt_some (by decide), optLt_some (by decide),
   optLt_some (by decide), optLt_some (by decide), optLt_none, optLt_none, optLt_none,
   optLt_none, optLt_none, optArrWF_some (by decide) (by decide),
   optArrWF_some (by decide) (by decide), by intro p hp; simp [cwSpec] at hp⟩

theorem cwChrom_wf : ChromWF cwChrom :=
  ⟨by decide, by decide, optArrWF_some (by decide) (by decide),
   optArrWF_some (by decide) (by decide), by decide, by decide⟩

theorem cwRun_wf : RunWF cwRun := by
  refine ⟨by decide, by decide, ?_, ?_⟩
  · intro s hs
    have hse : s = cwSpec := by simpa [cwRun] using hs
    rw [hse]
    exact cwSpec_wf
  · intro c hc
    have hce : c = cwChrom := by simpa [cwRun] using hc
    rw [hce]
    exact cwChrom_wf

/-! ### The codec claims -/

set_option maxRecDepth 10000 in
/-- Claim C1, counterexample: the round trip does not preserve present
optional values, only the absent ones the claim describes.  A present,
negative retention time (-2.0, whose bit pattern is not the -1.0
sentinel) decodes back to absent. -/
theorem C1_counterexample :
    negRtSpec.retention_time = some 0xC000000000000000 ∧
    0xC000000000000000 ≠ f64NegOne ∧
    decode (encode (MzML.mk (some negRtRun)))
      = .ok (MzML.mk (some (Run.mk [] none none (some 1) (some 0)
          [SpectrumSummary.mk 0 0 none none none none none none none none none
            none none none] []))) :=
  ⟨rfl, by decide, rfl⟩

/-- Claim C1 (amended): for every wire-typed run whose encoding fits in
the u64 total-size field, decoding the encoding yields exactly the
normalized run: every field survives modulo the sentinel normalization,
which maps every negative double (not only the -1.0 written for absent
fields), the byte 255, every empty or absent array, an all-absent
precursor and every invalid-UTF-8 id to the absent or empty value, and
recomputes the run-level counts. -/
theorem C1_roundtrip (r : Run) (hWF : RunWF r) (htot : encTotal r < 2 ^ 64) :
    decode (encode (MzML.mk (some r))) = .ok (MzML.mk (some (normalizeRun r))) :=
  decode_encode r hWF htot

set_option maxRecDepth 10000 in
/-- Witness for C1: the amended round trip at the concrete canonical
run exercising all five payload phases. -/
theorem C1_roundtrip_witness :
    RunWF cwRun ∧ encTotal cwRun < 2 ^ 64 ∧
      decode (encode (MzML.mk (some cwRun)))
        = .ok (MzML.mk (some (normalizeRun cwRun))) :=
  ⟨cwRun_wf, by decide, C1_roundtrip cwRun cwRun_wf (by decide)⟩

set_option maxRecDepth 10000 in
/-- Claim C2, counterexample: the canonical 64-byte absent-run container
is well-formed (its decode succeeds), yet re-encoding its decode does
not reproduce it: the re-encoded buffer records data_offset 64 at byte
48 where the original holds 0. -/
theorem C2_counterexample :
    decode (encode (MzML.mk none)) = .ok emptyDecoded ∧
    byteAt (encode (MzML.mk none)) 48 = 0 ∧
    byteAt (encode emptyDecoded) 48 = 64 ∧
    encode emptyDecoded ≠ encode (MzML.mk none) :=
  ⟨rfl, rfl, rfl, by decide⟩

/-- Claim C2 (amended): encode-decode is the identity on encodings of
canonical present runs: for a wire-typed run fixed by the sentinel
normalization, decoding its encoding succeeds and re-encoding the decode
reproduces the buffer byte for byte.  The absent-run container is the
exception the counterexample exhibits. -/
theorem C2_encode_decode (r : Run) (hWF : RunWF r) (htot : encTotal r < 2 ^ 64)
    (hcanon : normalizeRun r = r) :
    ∃ m, decode (encode (MzML.mk (some r))) = .ok m ∧
      encode m = encode (MzML.mk (some r)) := by
  refine ⟨MzML.mk (some (normalizeRun r)), decode_encode r hWF htot, ?_⟩
  rw [hcanon]

set_option maxRecDepth 10000 in
/-- Witness for C2: the amended statement at the concrete canonical run,
which the normalization fixes. -/
theorem C2_encode_decode_witness :
    RunWF cwRun ∧ encTotal cwRun < 2 ^ 64 ∧ normalizeRun cwRun = cwRun ∧
      ∃ m, decode (encode (MzML.mk (some cwRun))) = .ok m ∧
        encode m = encode (MzML.mk (some cwRun)) :=
  ⟨cwRun_wf, by decide, by decide,
   C2_encode_decode cwRun cwRun_wf (by decide) (by decide)⟩

set_option maxRecDepth 10000 in
/-- Claim C4, counterexample: on a buffer whose bytes 12-13 hold (2, 1)
exactly as the claimed spectra-format layout prescribes, the decoder
nevertheless reads the spectrum mz array with the format in byte 14
(here 1 = f32): the decoded elements are the two f32 payload values
widened to f64 bit patterns.  Under the claimed reading (byte 12 = 2 =
f64) the 2-element array would need bytes 200..216 of a 208-byte buffer
and decode would have to fail instead. -/
theorem C4_counterexample :
    byteAt (c4Buf [2, 1, 1, 1]) 12 = 2 ∧ byteAt (c4Buf [2, 1, 1, 1]) 14 = 1 ∧
    (c4Buf [2, 1, 1, 1]).length = 208 ∧
    decode (c4Buf [2, 1, 1, 1]) = .ok c4DecodedF32 :=
  ⟨rfl, rfl, rfl, rfl⟩

set_option maxRecDepth 10000 in
set_option maxHeartbeats 4000000 in
/-- Claim C4 (amended): decode takes the spectrum array formats from
header bytes 14-15 and the chromatogram formats from bytes 12-13: on
the hand-built buffer, swapping the byte pair at 12-13 leaves the
spectrum decode result unchanged, while turning byte 14 into 2 flips the
spectrum read from the in-bounds 2-element f32 read to an out-of-bounds
2-element f64 read.  The encoder writes 2, 1, 2, 1, so on encoder output
both byte pairs carry (f64, f32) and the swap has no effect on
self-produced buffers. -/
theorem C4_formats (r : Run) :
    decode (c4Buf [1, 2, 1, 1]) = .ok c4DecodedF32 ∧
    decode (c4Buf [0, 0, 1, 1]) = .ok c4DecodedF32 ∧
    decode (c4Buf [2, 1, 2, 1]) = .error "f64 array OOB" ∧
    byteAt (encode (MzML.mk (some r))) 12 = 2 ∧
    byteAt (encode (MzML.mk (some r))) 13 = 1 ∧
    byteAt (encode (MzML.mk (some r))) 14 = 2 ∧
    byteAt (encode (MzML.mk (some r))) 15 = 1 :=
  ⟨rfl, rfl, rfl, byteAt_encode12 r, byteAt_encode13 r, byteAt_encode14 r,
   byteAt_encode15 r⟩

set_option maxRecDepth 10000 in
/-- Claim C9, counterexample: a 64-byte header whose total_size field
holds 1 while data_offset holds 64 decodes successfully, so the claimed
check data_offset ≤ total_size ≤ bytes.len does not happen. -/
theorem C9_counterexample :
    rdU64 (encodeHeader 0 0 64 64 64 64 64 1) 48 = .ok 64 ∧
    rdU64 (encodeHeader 0 0 64 64 64 64 64 1) 56 = .ok 1 ∧
    (encodeHeader 0 0 64 64 64 64 64 1).length = 64 ∧
    decode (encodeHeader 0 0 64 64 64 64 64 1) = .ok emptyDecoded :=
  ⟨rfl, rfl, rfl, rfl⟩

set_option maxRecDepth 10000 in
set_option maxHeartbeats 2000000 in
/-- Claim C9 (amended): decode rejects short buffers and checks
data_offset and each table range it dereferences against bytes.len, but
the total_size field is read and discarded: the 64-byte header decodes
to the empty run whatever value t its total_size field holds, so
data_offset ≤ total_size ≤ bytes.len is never enforced. -/
theorem C9_bounds :
    (∀ bin : Bytes, bin.length < 64 → decode bin = .error "short header") ∧
    (∀ t : Nat, decode (encodeHeader 0 0 64 64 64 64 64 t) = .ok emptyDecoded) := by
  constructor
  · intro bin h
    unfold decode
    rw [if_pos h]
    rfl
  · intro t
    rfl

/-- Witness for C9: the short-header case at the empty buffer and the
ignored-total case at total_size 1. -/
theorem C9_bounds_witness :
    ([] : Bytes).length < 64 ∧ decode ([] : Bytes) = .error "short header" ∧
    decode (encodeHeader 0 0 64 64 64 64 64 1) = .ok emptyDecoded :=
  ⟨by decide, C9_bounds.1 [] (by decide), C9_bounds.2 1⟩

set_option maxRecDepth 10000 in
/-- Claim C10: the encoding of an absent run is exactly the 64-byte
header with magic BIN1, zero counts, format bytes 2, 1, 2, 1, all table
and data offsets zero and total_size 64, and it decodes to a present run
with zero spectra and zero chromatograms. -/
theorem C10_empty_container :
    (encode (MzML.mk none)).length = 64 ∧
    seg (encode (MzML.mk none)) 0 4 = bin1Magic ∧
    rdU32 (encode (MzML.mk none)) 4 = .ok 0 ∧
    rdU32 (encode (MzML.mk none)) 8 = .ok 0 ∧
    byteAt (encode (MzML.mk none)) 12 = 2 ∧
    byteAt (encode (MzML.mk none)) 13 = 1 ∧
    byteAt (encode (MzML.mk none)) 14 = 2 ∧
    byteAt (encode (MzML.mk none)) 15 = 1 ∧
    rdU64 (encode (MzML.mk none)) 16 = .ok 0 ∧
    rdU64 (encode (MzML.mk none)) 24 = .ok 0 ∧
    rdU64 (encode (MzML.mk none)) 32 = .ok 0 ∧
    rdU64 (encode (MzML.mk none)) 40 = .ok 0 ∧
    rdU64 (encode (MzML.mk none)) 48 = .ok 0 ∧
    rdU64 (encode (MzML.mk none)) 56 = .ok 64 ∧
    decode (encode (MzML.mk none)) = .ok emptyDecoded :=
  ⟨rfl, rfl, rfl, rfl, rfl, rfl, rfl, rfl, rfl, rfl, rfl, rfl, rfl, rfl, rfl⟩

/-! ### Order facts of the value model -/

theorem fmax_fin_fin (a b : ℚ) :
    Fq.fmax (Fq.fin a) (Fq.fin b) = if a < b then Fq.fin b else Fq.fin a := by
  simp [Fq.fmax, Fq.lt]

theorem fmaxZero_cases (mz : Fq) :
    (∃ q : ℚ, 0 ≤ q ∧ Fq.fmax mz (Fq.fin 0) = Fq.fin q) ∨
      Fq.fmax mz (Fq.fin 0) = Fq.pinf := by
  cases mz with
  | fin q =>
    by_cases h : q < 0
    · exact .inl ⟨0, le_refl 0, by rw [fmax_fin_fin, if_pos h]⟩
    · exact .inl ⟨q, le_of_not_lt h, by rw [fmax_fin_fin, if_neg h]⟩
  | pinf => exact .inr (by simp [Fq.fmax, Fq.lt])
  | ninf => exact .inl ⟨0, le_refl 0, by simp [Fq.fmax, Fq.lt]⟩
  | nan => exact .inl ⟨0, le_refl 0, by simp [Fq.fmax]⟩

theorem tolBad_char_fin (A : Fq) (q : ℚ) (hq : 0 ≤ q) :
    (!(Fq.fmax A (Fq.fin q)).isFinite || Fq.le (Fq.fmax A (Fq.fin q)) (Fq.fin 0))
      = ((Fq.fin q == Fq.pinf) || (A == Fq.pinf) ||
         ((Fq.fin q == Fq.fin 0) && !(Fq.lt (Fq.fin 0) A))) := by
  cases A with
  | fin a =>
    rw [Bool.eq_iff_iff]
    rw [fmax_fin_fin]
    by_cases h : a < q
    · rw [if_pos h]
      simp only [Fq.le, Fq.isFinite, Fq.lt, decide_eq_true_eq, beq_iff_eq,
        Bool.or_eq_true, Bool.and_eq_true, Bool.not_eq_true', Bool.not_true,
        Bool.false_or, Bool.or_false, decide_eq_false_iff_not, Fq.fin.injEq,
        reduceCtorEq, false_or, or_false]
      constructor
      · intro h2
        exact ⟨by linarith, by linarith⟩
      · intro h2
        linarith [h2.1]
    · rw [if_neg h]
      simp only [Fq.le, Fq.isFinite, Fq.lt, decide_eq_true_eq, beq_iff_eq,
        Bool.or_eq_true, Bool.and_eq_true, Bool.not_eq_true', Bool.not_true,
        Bool.false_or, Bool.or_false, decide_eq_false_iff_not, Fq.fin.injEq,
        reduceCtorEq, false_or, or_false]
      constructor
      · intro h2
        exact ⟨by linarith, by linarith⟩
      · intro h2
        linarith [h2.2]
  | pinf =>
    simp [Fq.fmax, Fq.lt, Fq.le, Fq.isFinite]
  | ninf =>
    have h1 : Fq.fmax Fq.ninf (Fq.fin q) = Fq.fin q := by simp [Fq.fmax, Fq.lt]
    rw [h1, Bool.eq_iff_iff]
    simp [Fq.le, Fq.isFinite, Fq.lt, beq_iff_eq]
    constructor
    · intro h2
      linarith
    · intro h2
      linarith
  | nan =>
    have h1 : Fq.fmax Fq.nan (Fq.fin q) = Fq.fin q := by simp [Fq.fmax]
    rw [h1, Bool.eq_iff_iff]
    simp [Fq.le, Fq.isFinite, Fq.lt, beq_iff_eq]
    constructor
    · intro h2
      linarith
    · intro h2
      linarith

theorem tolBad_char_pinf (A : Fq) :
    (!(Fq.fmax A Fq.pinf).isFinite || Fq.le (Fq.fmax A Fq.pinf) (Fq.fin 0))
      = ((Fq.pinf == Fq.pinf) || (A == Fq.pinf) ||
         ((Fq.pinf == Fq.fin 0) && !(Fq.lt (Fq.fin 0) A))) := by
  cases A <;> simp [Fq.fmax, Fq.lt, Fq.le, Fq.isFinite]

/-- The invalid-tolerance test, characterized on the inputs. -/
theorem eicTolBad_char (opts : EicOptions) (center : Fq) :
    eicTolBad opts center
      = ((Fq.fmax opts.mz_tolerance (Fq.fin 0) == Fq.pinf) ||
         (eicPpmTerm opts center == Fq.pinf) ||
         ((Fq.fmax opts.mz_tolerance (Fq.fin 0) == Fq.fin 0) &&
          !(Fq.lt (Fq.fin 0) (eicPpmTerm opts center)))) := by
  unfold eicTolBad eicTol
  rcases fmaxZero_cases opts.mz_tolerance with ⟨q, hq, hB⟩ | hB <;> rw [hB]
  · exact tolBad_char_fin (eicPpmTerm opts center) q hq
  · exact tolBad_char_pinf (eicPpmTerm opts center)

theorem Fq.lt_asymm {a b : Fq} (h : Fq.lt a b = true) : Fq.lt b a = false := by
  cases a <;> cases b <;> simp_all [Fq.lt]
  linarith

theorem Fq.notlt_trans {a b c : Fq} (hb : b ≠ Fq.nan)
    (h1 : Fq.lt b a = false) (h2 : Fq.lt c b = false) : Fq.lt c a = false := by
  cases a <;> cases b <;> cases c <;> simp_all [Fq.lt]
  linarith

theorem Fq.cmpE_eq_lt {a b : Fq} : (Fq.cmpE a b = .lt) ↔ Fq.lt a b = true := by
  unfold Fq.cmpE
  by_cases h : Fq.lt a b = true
  · simp [h]
  · rw [if_neg (by simp [h])]
    constructor
    · intro h2
      exfalso
      by_cases h3 : Fq.lt b a = true
      · rw [if_pos (by simp [h3])] at h2
        exact absurd h2 (by decide)
      · rw [if_neg (by simp [h3])] at h2
        exact absurd h2 (by decide)
    · intro h2
      exact absurd h2 h

theorem Fq.le_of_not_lt {a b : Fq} (ha : a ≠ Fq.nan) (hb : b ≠ Fq.nan)
    (h : Fq.lt b a = false) : Fq.le a b = true := by
  cases a <;> cases b <;> simp_all [Fq.lt, Fq.le]

theorem Fq.ne_nan_of_le_right {a b : Fq} (h : Fq.le a b = true) : b ≠ Fq.nan := by
  cases a <;> cases b <;> simp_all [Fq.le]

/-! ### The stable sort -/

theorem insertBy_perm {α : Type} (ltb : α → α → Bool) (x : α) (l : List α) :
    List.Perm (insertBy ltb x l) (x :: l) := by
  induction l with
  | nil => exact List.Perm.refl _
  | cons y ys ih =>
    unfold insertBy
    by_cases h : ltb y x
    · rw [if_pos h]
      exact (ih.cons y).trans (List.Perm.swap x y ys)
    · rw [if_neg h]

theorem sortBy_perm {α : Type} (ltb : α → α → Bool) (l : List α) :
    List.Perm (sortBy ltb l) l := by
  induction l with
  | nil => exact List.Perm.refl _
  | cons x xs ih => exact (insertBy_perm ltb x (sortBy ltb xs)).trans (ih.cons x)

theorem insertBy_sorted {α : Type} {ltb : α → α → Bool} {P : α → Prop}
    (hasym : ∀ a b, ltb a b = true → ltb b a = false)
    (htrans : ∀ a b c, P a → P b → P c → ltb b a = false → ltb c b = false →
      ltb c a = false)
    {x : α} {l : List α} (hx : P x) (hl : ∀ a ∈ l, P a)
    (hs : l.Pairwise (fun a b => ltb b a = false)) :
    (insertBy ltb x l).Pairwise (fun a b => ltb b a = false) := by
  induction l with
  | nil => exact List.pairwise_singleton _ _
  | cons y ys ih =>
    rw [List.pairwise_cons] at hs
    unfold insertBy
    by_cases h : ltb y x
    · rw [if_pos h]
      rw [List.pairwise_cons]
      refine ⟨?_, ih (fun a ha => hl a (List.mem_cons_of_mem y ha)) hs.2⟩
      intro z hz
      have hz2 : z = x ∨ z ∈ ys := by
        have := (insertBy_perm ltb x ys).mem_iff.mp hz
        simpa using this
      rcases hz2 with rfl | hz2
      · exact hasym y z h
      · exact hs.1 z hz2
    · rw [if_neg h]
      rw [List.pairwise_cons]
      constructor
      · intro z hz
        rcases List.mem_cons.mp hz with rfl | hz2
        · simpa using h
        · exact htrans x y z hx (hl y (List.mem_cons_self y ys))
            (hl z (List.mem_cons_of_mem y hz2)) (by simpa using h) (hs.1 z hz2)
      · rw [List.pairwise_cons]
        exact hs

theorem sortBy_sorted {α : Type} {ltb : α → α → Bool} {P : α → Prop}
    (hasym : ∀ a b, ltb a b = true → ltb b a = false)
    (htrans : ∀ a b c, P a → P b → P c → ltb b a = false → ltb c b = false →
      ltb c a = false)
    {l : List α} (hl : ∀ a ∈ l, P a) :
    (sortBy ltb l).Pairwise (fun a b => ltb b a = false) := by
  induction l with
  | nil => exact List.Pairwise.nil
  | cons x xs ih =>
    unfold sortBy
    apply insertBy_sorted hasym htrans (hl x (List.mem_cons_self x xs))
    · intro a ha
      exact hl a (List.mem_cons_of_mem x ((sortBy_perm ltb xs).mem_iff.mp ha))
    · exact ih (fun a ha => hl a (List.mem_cons_of_mem x ha))

/-! ### Facts of the collected scans -/

theorem ms1Qualifies_rt {w : FromTo} {s : SpectrumV} (h : ms1Qualifies w s = true) :
    ∃ rt, s.retention_time = some rt ∧ Fq.le w.from_ rt = true ∧
      Fq.le rt w.to_ = true := by
  unfold ms1Qualifies at h
  simp only [Bool.and_eq_true] at h
  obtain ⟨⟨⟨_h1, h2⟩, _h3⟩, _h4⟩ := h
  cases hrt : s.retention_time with
  | none =>
    rw [hrt] at h2
    simp at h2
  | some rt =>
    rw [hrt] at h2
    have h3 : (Fq.le w.from_ rt && Fq.le rt w.to_) = true := h2
    simp only [Bool.and_eq_true] at h3
    exact ⟨rt, rfl, h3.1, h3.2⟩

theorem ms1Scans_rt {m : MzMLV} {w : FromTo} {c : CentroidScan}
    (hc : c ∈ ms1Scans m w) : c.rt ≠ Fq.nan := by
  unfold ms1Scans at hc
  cases hrun : m.run with
  | none =>
    rw [hrun] at hc
    simp at hc
  | some run =>
    rw [hrun] at hc
    obtain ⟨s, _hs, hsc⟩ := List.mem_filterMap.mp hc
    unfold scanOf at hsc
    by_cases hq : ms1Qualifies w s = true
    · rw [if_pos hq] at hsc
      by_cases hp : (scanPairs s).isEmpty = true
      · rw [if_pos hp] at hsc
        exact absurd hsc (by simp)
      · rw [if_neg hp] at hsc
        obtain ⟨rt, hrt, hle, _⟩ := ms1Qualifies_rt hq
        have hcrt : c.rt = rt := by
          rw [← Option.some.inj hsc]
          simp [hrt]
        rw [hcrt]
        exact Fq.ne_nan_of_le_right hle
    · rw [if_neg hq] at hsc
      exact absurd hsc (by simp)

theorem compute_length {scans : List CentroidScan} {rt_len : Nat} {center : Fq}
    {opts : EicOptions} {y : List Fq}
    (h : compute_eic_for_mz scans rt_len center opts = some y) : y.length = rt_len := by
  unfold compute_eic_for_mz at h
  by_cases hb : eicTolBad opts center = true
  · rw [if_pos hb] at h
    exact absurd h (by simp)
  · rw [if_neg hb] at h
    unfold eicMain at h
    cases ha : eicAccs (Fq.sub center (eicTol opts center))
        (Fq.add center (eicTol opts center)) scans with
    | none =>
      rw [ha] at h
      exact absurd h (by simp)
    | some accs =>
      rw [ha] at h
      rw [show ((some accs : Option (List Fq)) >>= fun accs =>
          if rt_len < scans.length then none
          else pure ((List.range rt_len).map (fun i => accs.getD i (Fq.fin 0))))
        = (if rt_len < scans.length then none
          else pure ((List.range rt_len).map (fun i => accs.getD i (Fq.fin 0))))
        from rfl] at h
      by_cases hr : rt_len < scans.length
      · rw [if_pos hr] at h
        exact absurd h (by simp)
      · rw [if_neg hr] at h
        rw [← Option.some.inj h]
        simp

/-! ### The tolerance, scan-collection and smoother claims -/

/-- Claim C5, counterexample: with ppm_tolerance = -1, mz_tolerance = -1
and target m/z -1, the spec's tolerance max(ppm·1e-6·m, mz_tol) is the
positive 1e-6 (the product of two negatives), so the claim promises no
invalid-tolerance failure; the code clamps the non-positive ppm factor
to 0 before multiplying and the negative mz term to 0, obtains tol = 0
and panics. -/
theorem C5_counterexample :
    specTolerance (EicOptions.mk (Fq.fin (-1)) (Fq.fin (-1))) (Fq.fin (-1))
      = Fq.fin (1 / 1000000) ∧
    Fq.lt (Fq.fin 0)
      (specTolerance (EicOptions.mk (Fq.fin (-1)) (Fq.fin (-1))) (Fq.fin (-1)))
      = true ∧
    compute_eic_for_mz [] 0 (Fq.fin (-1)) (EicOptions.mk (Fq.fin (-1)) (Fq.fin (-1)))
      = none := by
  have e1 : specTolerance (EicOptions.mk (Fq.fin (-1)) (Fq.fin (-1))) (Fq.fin (-1))
      = Fq.fin (1 / 1000000) := by
    show Fq.fmax (Fq.fin ((-1) * (1 / 1000000) * (-1))) (Fq.fin (-1))
      = Fq.fin (1 / 1000000)
    rw [fmax_fin_fin, if_neg (by norm_num)]
    exact congrArg Fq.fin (by norm_num)
  refine ⟨e1, ?_, by decide⟩
  rw [e1]
  show decide ((0 : ℚ) < 1 / 1000000) = true
  rw [decide_eq_true_eq]
  norm_num

/-- Claim C5 (amended): the tolerance the code uses is
max(ppm_tolerance > 0 ? ppm_tolerance·1e-6·m : 0, max(mz_tolerance, 0)),
and compute_eic_for_mz fails on the tolerance account exactly when that
tolerance is not finite or not positive; on the inputs this is exactly:
the clamped mz term is +∞, or the ppm term is +∞, or the clamped mz term
is 0 while the ppm term is not positive. -/
theorem C5_tolerance (scans : List CentroidScan) (rt_len : Nat) (center : Fq)
    (opts : EicOptions) :
    compute_eic_for_mz scans rt_len center opts
      = (if eicTolBad opts center then none
         else eicMain scans rt_len (Fq.sub center (eicTol opts center))
           (Fq.add center (eicTol opts center))) ∧
    eicTolBad opts center
      = ((Fq.fmax opts.mz_tolerance (Fq.fin 0) == Fq.pinf) ||
         (eicPpmTerm opts center == Fq.pinf) ||
         ((Fq.fmax opts.mz_tolerance (Fq.fin 0) == Fq.fin 0) &&
          !(Fq.lt (Fq.fin 0) (eicPpmTerm opts center)))) :=
  ⟨rfl, eicTolBad_char opts center⟩

/-- Claim C6, counterexample: a spectrum whose mz array has two entries
but whose intensity array has one is not excluded as the claim's
equal-length condition requires: collect_ms1_scans truncates the pair
list to the shorter length and keeps the scan. -/
theorem C6_counterexample :
    ((SpectrumV.mk (some 1) (some (Fq.fin 10)) (some [Fq.fin 1, Fq.fin 2])
      (some [Fq.fin 5])).mz_array.getD []).length = 2 ∧
    ((SpectrumV.mk (some 1) (some (Fq.fin 10)) (some [Fq.fin 1, Fq.fin 2])
      (some [Fq.fin 5])).intensity_array.getD []).length = 1 ∧
    collect_ms1_scans
      (MzMLV.mk (some (RunV.mk [SpectrumV.mk (some 1) (some (Fq.fin 10))
        (some [Fq.fin 1, Fq.fin 2]) (some [Fq.fin 5])])))
      (FromTo.mk (Fq.fin 0) (Fq.fin 100))
      = ([Fq.fin 10], [CentroidScan.mk (Fq.fin 10) [Fq.fin 1] [Fq.fin 5]]) :=
  ⟨rfl, rfl, by decide⟩

/-- Claim C6 (amended): the scans used for the EIC are exactly (up to
the stable reordering by retention time) the spectra with ms_level 1,
retention time inside [from, to] and both arrays present and non-empty,
each truncated to the shorter of its two arrays with only the
all-finite pairs kept and dropped entirely if nothing remains; the x
vector is the list of their retention times, sorted non-decreasingly;
x and y always have equal lengths; and the output is empty when no
spectrum qualifies. -/
theorem C6_collect (m : MzMLV) (w : FromTo) (t : Fq) (o : EicOptions) :
    (collect_ms1_scans m w).1 = (collect_ms1_scans m w).2.map (fun s => s.rt) ∧
    List.Pairwise (fun a b => Fq.le a b = true) (collect_ms1_scans m w).1 ∧
    List.Perm (collect_ms1_scans m w).2 (ms1Scans m w) ∧
    (∀ c, c ∈ (collect_ms1_scans m w).2 ↔
      ∃ run, m.run = some run ∧ ∃ s ∈ run.spectra, scanOf w s = some c) ∧
    Option.all (fun p => p.1.length == p.2.length) (calculate_eic_from_mzml m t w o)
      = true ∧
    (ms1Scans m w = [] → calculate_eic_from_mzml m t w o = some ([], [])) := by
  have hperm : List.Perm (collect_ms1_scans m w).2 (ms1Scans m w) :=
    sortBy_perm _ _
  have hsorted : ((collect_ms1_scans m w).2).Pairwise
      (fun a b => (decide (Fq.cmpE b.rt a.rt = Ordering.lt)) = false) := by
    refine @sortBy_sorted CentroidScan
      (fun a b => decide (Fq.cmpE a.rt b.rt = Ordering.lt))
      (fun c => c.rt ≠ Fq.nan) ?_ ?_ (ms1Scans m w) (fun a ha => ms1Scans_rt ha)
    · intro a b h
      rw [decide_eq_true_eq, Fq.cmpE_eq_lt] at h
      rw [decide_eq_false_iff_not, Fq.cmpE_eq_lt]
      simp [Fq.lt_asymm h]
    · intro a b c _pa pb _pc h1 h2
      rw [decide_eq_false_iff_not, Fq.cmpE_eq_lt] at h1 h2
      rw [decide_eq_false_iff_not, Fq.cmpE_eq_lt]
      have h1b : Fq.lt b.rt a.rt = false := Bool.eq_false_iff.mpr h1
      have h2b : Fq.lt c.rt b.rt = false := Bool.eq_false_iff.mpr h2
      simp [Fq.notlt_trans pb h1b h2b]
  have htimes : List.Pairwise (fun a b => Fq.le a b = true)
      (collect_ms1_scans m w).1 := by
    have h1 : (collect_ms1_scans m w).1
        = (collect_ms1_scans m w).2.map (fun s => s.rt) := rfl
    rw [h1, List.pairwise_map]
    refine hsorted.imp_of_mem ?_
    intro a b ha hb hr
    have ha2 : a.rt ≠ Fq.nan := ms1Scans_rt (hperm.mem_iff.mp ha)
    have hb2 : b.rt ≠ Fq.nan := ms1Scans_rt (hperm.mem_iff.mp hb)
    have hr2 : Fq.lt b.rt a.rt = false := by
      rw [decide_eq_false_iff_not, Fq.cmpE_eq_lt] at hr
      exact Bool.eq_false_iff.mpr hr
    exact Fq.le_of_not_lt ha2 hb2 hr2
  have hmem : ∀ c, c ∈ (collect_ms1_scans m w).2 ↔
      ∃ run, m.run = some run ∧ ∃ s ∈ run.spectra, scanOf w s = some c := by
    intro c
    rw [hperm.mem_iff]
    unfold ms1Scans
    cases hrun : m.run with
    | none => simp [hrun]
    | some run => simp [hrun, List.mem_filterMap]
  have hall : Option.all (fun p => p.1.length == p.2.length)
      (calculate_eic_from_mzml m t w o) = true := by
    cases hcalc : calculate_eic_from_mzml m t w o with
    | none => rfl
    | some p =>
      unfold calculate_eic_from_mzml at hcalc
      by_cases he : ((collect_ms1_scans m w).2.isEmpty
          || (collect_ms1_scans m w).1.isEmpty) = true
      · rw [if_pos he] at hcalc
        rw [← Option.some.inj hcalc]
        rfl
      · rw [if_neg he] at hcalc
        cases hy : compute_eic_for_mz (collect_ms1_scans m w).2
            (collect_ms1_scans m w).1.length t o with
        | none =>
          rw [hy] at hcalc
          exact absurd hcalc (by simp)
        | some ys =>
          rw [hy] at hcalc
          have hp := Option.some.inj hcalc
          rw [← hp]
          simp [compute_length hy]
  have hne : ms1Scans m w = [] → calculate_eic_from_mzml m t w o = some ([], []) := by
    intro h0
    have hc : collect_ms1_scans m w = ([], []) := by
      simp [collect_ms1_scans, h0, sortBy]
    simp [calculate_eic_from_mzml, hc]
  exact ⟨rfl, htimes, hperm, hmem, hall, hne⟩

/-- Witness for C6: the amended statement at a run with no spectra. -/
theorem C6_collect_witness :
    ms1Scans (MzMLV.mk (some (RunV.mk []))) (FromTo.mk (Fq.fin 0) (Fq.fin 1)) = [] ∧
    calculate_eic_from_mzml (MzMLV.mk (some (RunV.mk []))) (Fq.fin 1)
      (FromTo.mk (Fq.fin 0) (Fq.fin 1)) (EicOptions.mk (Fq.fin 20) (Fq.fin (1 / 200)))
      = some ([], []) :=
  ⟨rfl, (C6_collect (MzMLV.mk (some (RunV.mk []))) (FromTo.mk (Fq.fin 0) (Fq.fin 1))
    (Fq.fin 1) (EicOptions.mk (Fq.fin 20) (Fq.fin (1 / 200)))).2.2.2.2.2 rfl⟩

/-- Claim C8, counterexample: with an odd window of 5, five y samples
(so the window fits) but an empty x array, the claim promises no panic,
yet sgg panics on the empty xs. -/
theorem C8_counterexample :
    ¬(5 % 2 = 0) ∧ ¬(5 < 5) ∧
    ([Fq.fin 1, Fq.fin 1, Fq.fin 1, Fq.fin 1, Fq.fin 1] : List Fq).length = 5 ∧
    sgg [Fq.fin 1, Fq.fin 1, Fq.fin 1, Fq.fin 1, Fq.fin 1] [] (SggOptions.mk 5 0 3)
      = none :=
  ⟨by decide, by decide, rfl, rfl⟩

/-- Claim C8 (amended): sgg panics exactly when the window is even or
below 5, ys or xs is empty, the window exceeds ys.len, the polynomial
order is below 1, or xs is shorter than ys (the hs index panic); under
valid options the output has exactly ys.len entries. -/
theorem C8_sgg (ys xs : List Fq) (opts : SggOptions) :
    (sgg ys xs opts = none ↔
      opts.window_size % 2 = 0 ∨ opts.window_size < 5 ∨ ys = [] ∨ xs = [] ∨
      ys.length < opts.window_size ∨ opts.polynomial < 1 ∨
      xs.length < ys.length) ∧
    (∀ out, sgg ys xs opts = some out → out.length = ys.length) := by
  constructor
  · unfold sgg
    split_ifs with h1 h2 h3 h4 h5 h6
    · exact iff_of_true rfl (by tauto)
    · exact iff_of_true rfl (Or.inr (Or.inr (Or.inl (by simpa using h2))))
    · exact iff_of_true rfl (Or.inr (Or.inr (Or.inr (Or.inl (by simpa using h3)))))
    · exact iff_of_true rfl (by tauto)
    · exact iff_of_true rfl (by tauto)
    · exact iff_of_true rfl (by tauto)
    · refine iff_of_false (by simp) ?_
      simp only [not_or]
      refine ⟨?_, ?_, ?_, ?_, ?_, ?_, ?_⟩
      · exact fun h => h1 (Or.inl h)
      · exact fun h => h1 (Or.inr h)
      · intro h
        exact h2 (by simp [h])
      · intro h
        exact h3 (by simp [h])
      · exact h4
      · exact h5
      · exact h6
  · intro out h
    unfold sgg at h
    split_ifs at h
    rw [← Option.some.inj h]
    simp [sggOut]

/-- Witness for C8: the amended length statement at a concrete valid
input (five constant samples, window 5, cubic fit). -/
theorem C8_sgg_witness :
    sgg [Fq.fin 1, Fq.fin 1, Fq.fin 1, Fq.fin 1, Fq.fin 1]
      [Fq.fin 1, Fq.fin 2, Fq.fin 3, Fq.fin 4, Fq.fin 5] (SggOptions.mk 5 0 3)
      = some (sggOut [Fq.fin 1, Fq.fin 1, Fq.fin 1, Fq.fin 1, Fq.fin 1]
        [Fq.fin 1, Fq.fin 2, Fq.fin 3, Fq.fin 4, Fq.fin 5] (SggOptions.mk 5 0 3)) ∧
    (sggOut [Fq.fin 1, Fq.fin 1, Fq.fin 1, Fq.fin 1, Fq.fin 1]
      [Fq.fin 1, Fq.fin 2, Fq.fin 3, Fq.fin 4, Fq.fin 5] (SggOptions.mk 5 0 3)).length
      = ([Fq.fin 1, Fq.fin 1, Fq.fin 1, Fq.fin 1, Fq.fin 1] : List Fq).length :=
  ⟨rfl, (C8_sgg [Fq.fin 1, Fq.fin 1, Fq.fin 1, Fq.fin 1, Fq.fin 1]
    [Fq.fin 1, Fq.fin 2, Fq.fin 3, Fq.fin 4, Fq.fin 5] (SggOptions.mk 5 0 3)).2
    (sggOut [Fq.fin 1, Fq.fin 1, Fq.fin 1, Fq.fin 1, Fq.fin 1]
      [Fq.fin 1, Fq.fin 2, Fq.fin 3, Fq.fin 4, Fq.fin 5] (SggOptions.mk 5 0 3)) rfl⟩

/-! ### Binary search, the accumulation walk and the range sum (claim C3) -/

/-- Bool transport: if b = true forces a = true and a is false, b is
false. -/
theorem bool_false_of_imp {a b : Bool} (h : b = true → a = true) (ha : a = false) :
    b = false := by
  cases hb : b with
  | false => rfl
  | true =>
    rw [h hb] at ha
    exact absurd ha (by simp)

/-- Fq: a ≤ b < x chains to a < x. -/
theorem Fq.le_lt_trans {a b x : Fq} (h1 : Fq.le a b = true) (h2 : Fq.lt b x = true) :
    Fq.lt a x = true := by
  cases a <;> cases b <;> cases x <;> simp_all [Fq.lt, Fq.le]
  all_goals linarith

/-- Fq: x < a ≤ b chains to x < b. -/
theorem Fq.lt_trans_le {x a b : Fq} (h1 : Fq.lt x a = true) (h2 : Fq.le a b = true) :
    Fq.lt x b = true := by
  cases x <;> cases a <;> cases b <;> simp_all [Fq.lt, Fq.le]
  all_goals linarith

/-- On fins, ≤ is the boolean negation of the reversed strict <. -/
theorem le_eq_not_lt_rat (a b : ℚ) :
    Fq.le (Fq.fin a) (Fq.fin b) = !Fq.lt (Fq.fin b) (Fq.fin a) := by
  show decide (a ≤ b) = !decide (b < a)
  by_cases h : a ≤ b
  · simp [decide_eq_true h, decide_eq_false (not_lt.mpr h)]
  · simp [decide_eq_false h, decide_eq_true (lt_of_not_le h)]

/-- A finite Fq carries a rational. -/
theorem Fq.isFinite_exists {a : Fq} (h : a.isFinite = true) : ∃ q : ℚ, a = Fq.fin q := by
  cases a with
  | fin q => exact ⟨q, rfl⟩
  | pinf => exact absurd h (by simp [Fq.isFinite])
  | ninf => exact absurd h (by simp [Fq.isFinite])
  | nan => exact absurd h (by simp [Fq.isFinite])

/-- Once the predicate fails on such a list, it fails on the whole
dropWhile suffix. -/
theorem dropWhile_all_false {α : Type} (q : α → Bool) :
    ∀ l : List α, l.Pairwise (fun a b => q a = false → q b = false) →
      ∀ a ∈ l.dropWhile q, q a = false := by
  intro l
  induction l with
  | nil =>
    intro _hpw a ha
    exact absurd ha (by simp)
  | cons x t ih =>
    intro hpw a ha
    rw [List.pairwise_cons] at hpw
    by_cases hx : q x = true
    · rw [List.dropWhile_cons, if_pos hx] at ha
      exact ih hpw.2 a ha
    · rw [List.dropWhile_cons, if_neg hx] at ha
      rcases List.mem_cons.mp ha with rfl | ha2
      · exact Bool.eq_false_iff.mpr hx
      · exact hpw.1 a ha2 (Bool.eq_false_iff.mpr hx)

/-- On a list where the predicate can only switch from true to false,
filter and takeWhile agree. -/
theorem filter_eq_takeWhile {α : Type} (q : α → Bool) :
    ∀ l : List α, l.Pairwise (fun a b => q a = false → q b = false) →
      l.filter q = l.takeWhile q := by
  intro l
  induction l with
  | nil => intro _; rfl
  | cons x t ih =>
    intro hpw
    rw [List.pairwise_cons] at hpw
    by_cases hx : q x = true
    · rw [List.filter_cons, if_pos hx, List.takeWhile_cons, if_pos hx, ih hpw.2]
    · rw [List.filter_cons, if_neg hx, List.takeWhile_cons, if_neg hx]
      refine List.filter_eq_nil_iff.mpr (fun a ha => ?_)
      rw [hpw.1 a ha (Bool.eq_false_iff.mpr hx)]
      simp

/-- The binary-search loop of lower_bound: with the crossover index c
bracketed by [lo, hi] and enough fuel, the loop returns c. -/
theorem lbAux_correct (a : List Fq) (x : Fq) (c : Nat)
    (hlt : ∀ i, i < c → Fq.lt (a.getD i Fq.nan) x = true)
    (hge : ∀ i, c ≤ i → i < a.length → Fq.lt (a.getD i Fq.nan) x = false) :
    ∀ fuel lo hi, lo ≤ c → c ≤ hi → hi ≤ a.length → hi - lo ≤ fuel →
      lbAux a x fuel lo hi = c := by
  intro fuel
  induction fuel with
  | zero =>
    intro lo hi h1 h2 _h3 h4
    unfold lbAux
    omega
  | succ f ih =>
    intro lo hi h1 h2 h3 h4
    unfold lbAux
    by_cases hlh : lo < hi
    · rw [if_pos hlh]
      show (if Fq.lt (a.getD ((lo + hi) / 2) Fq.nan) x = true then
          lbAux a x f ((lo + hi) / 2 + 1) hi
        else lbAux a x f lo ((lo + hi) / 2)) = c
      by_cases hmid : Fq.lt (a.getD ((lo + hi) / 2) Fq.nan) x = true
      · rw [if_pos hmid]
        have hc : (lo + hi) / 2 < c := by
          by_contra hcon
          have h5 := hge ((lo + hi) / 2) (by omega) (by omega)
          rw [hmid] at h5
          exact absurd h5 (by simp)
        exact ih ((lo + hi) / 2 + 1) hi (by omega) h2 h3 (by omega)
      · rw [if_neg hmid]
        have hc : c ≤ (lo + hi) / 2 := by
          by_contra hcon
          exact hmid (hlt ((lo + hi) / 2) (by omega))
        exact ih lo ((lo + hi) / 2) h1 hc (by omega) (by omega)
    · rw [if_neg hlh]
      omega

/-- On a list whose elements below x form a prefix, lower_bound returns
the length of that prefix. -/
theorem lower_bound_sorted (a : List Fq) (x : Fq)
    (hpw : a.Pairwise (fun p r => Fq.lt p x = false → Fq.lt r x = false)) :
    lower_bound a x = (a.takeWhile (fun v => Fq.lt v x)).length := by
  have hsplit : a.takeWhile (fun v => Fq.lt v x) ++ a.dropWhile (fun v => Fq.lt v x) = a :=
    List.takeWhile_append_dropWhile _ _
  have hlensum : (a.takeWhile (fun v => Fq.lt v x)).length
      + (a.dropWhile (fun v => Fq.lt v x)).length = a.length := by
    have h1 := congrArg List.length hsplit
    simp only [List.length_append] at h1
    exact h1
  have hlt : ∀ i, i < (a.takeWhile (fun v => Fq.lt v x)).length →
      Fq.lt (a.getD i Fq.nan) x = true := by
    intro i hi
    have h1 : a.getD i Fq.nan = (a.takeWhile (fun v => Fq.lt v x)).getD i Fq.nan := by
      conv_lhs => rw [← hsplit]
      exact List.getD_append _ _ _ _ hi
    rw [h1]
    have h2 := List.mem_takeWhile_imp (getD_mem Fq.nan hi)
    exact h2
  have hge : ∀ i, (a.takeWhile (fun v => Fq.lt v x)).length ≤ i → i < a.length →
      Fq.lt (a.getD i Fq.nan) x = false := by
    intro i hci hilen
    have h1 : a.getD i Fq.nan = (a.dropWhile (fun v => Fq.lt v x)).getD
        (i - (a.takeWhile (fun v => Fq.lt v x)).length) Fq.nan := by
      conv_lhs => rw [← hsplit]
      exact List.getD_append_right _ _ _ _ hci
    rw [h1]
    have hlen2 : i - (a.takeWhile (fun v => Fq.lt v x)).length
        < (a.dropWhile (fun v => Fq.lt v x)).length := by omega
    exact dropWhile_all_false _ a hpw _ (getD_mem _ hlen2)
  unfold lower_bound
  exact lbAux_correct a x _ hlt hge (a.length + 1) 0 a.length (Nat.zero_le _)
    (by omega) (le_refl _) (by omega)

/-- The accumulation walk of compute_eic_for_mz: with enough intensity
entries and guard headroom it folds the intensities of the prefix of
pairs whose m/z does not exceed hi. -/
theorem eicWalk_spec (ints : List Fq) (hi : Fq) :
    ∀ (rest : List Fq) (j : Nat) (acc : Fq) (g : Nat),
      j + rest.length ≤ ints.length → g + rest.length ≤ 5000000 →
      eicWalk ints hi rest j acc g
        = some (((rest.zip (ints.drop j)).takeWhile (fun p => !Fq.lt hi p.1)).foldl
            (fun a p => Fq.add a p.2) acc) := by
  intro rest
  induction rest with
  | nil =>
    intro j acc g _ _
    rfl
  | cons v rest ih =>
    intro j acc g hj hg
    have hjl : j < ints.length := by
      simp only [List.length_cons] at hj
      omega
    have hdrop : ints.drop j = ints.getD j Fq.nan :: ints.drop (j + 1) := by
      rw [List.getD_eq_getElem ints Fq.nan hjl]
      exact List.drop_eq_getElem_cons hjl
    rw [hdrop]
    unfold eicWalk
    by_cases hv : Fq.lt hi v = true
    · rw [if_pos hv, List.zip_cons_cons, List.takeWhile_cons, if_neg (by simp [hv])]
      rfl
    · have hv2 : Fq.lt hi v = false := Bool.eq_false_iff.mpr hv
      have hguard : ¬(5000000 < g + 1) := by
        simp only [List.length_cons] at hg
        omega
      have hj2 : j + 1 + rest.length ≤ ints.length := by
        simp only [List.length_cons] at hj
        omega
      have hg2 : g + 1 + rest.length ≤ 5000000 := by
        simp only [List.length_cons] at hg
        omega
      rw [if_neg hv, if_pos hjl, if_neg hguard,
        ih (j + 1) (Fq.add acc (ints.getD j Fq.nan)) (g + 1) hj2 hg2,
        List.zip_cons_cons, List.takeWhile_cons, if_pos (by simp [hv2]),
        List.foldl_cons]

/-- One sorted, finite, fully-paired scan: the binary search plus walk
accumulates exactly the closed-range intensities. -/
theorem eicScanAcc_sorted (s : CentroidScan) (q t : ℚ)
    (hpw : s.mz.Pairwise (fun a b => Fq.le a b = true))
    (hfin : ∀ v ∈ s.mz, v.isFinite = true)
    (hlen : s.intensity.length = s.mz.length)
    (hbig : s.mz.length ≤ 5000000) :
    eicScanAcc (Fq.fin q) (Fq.fin t) s = some (inRangeSum (Fq.fin q) (Fq.fin t) s) := by
  have hpwlo : s.mz.Pairwise
      (fun p r => Fq.lt p (Fq.fin q) = false → Fq.lt r (Fq.fin q) = false) := by
    refine hpw.imp ?_
    intro a b hle hf
    exact bool_false_of_imp (fun ht => Fq.le_lt_trans hle ht) hf
  have hj : lower_bound s.mz (Fq.fin q)
      = (s.mz.takeWhile (fun v => Fq.lt v (Fq.fin q))).length :=
    lower_bound_sorted s.mz (Fq.fin q) hpwlo
  have hsplit : s.mz.takeWhile (fun v => Fq.lt v (Fq.fin q))
      ++ s.mz.dropWhile (fun v => Fq.lt v (Fq.fin q)) = s.mz :=
    List.takeWhile_append_dropWhile _ _
  have hlensum : (s.mz.takeWhile (fun v => Fq.lt v (Fq.fin q))).length
      + (s.mz.dropWhile (fun v => Fq.lt v (Fq.fin q))).length = s.mz.length := by
    have h1 := congrArg List.length hsplit
    simp only [List.length_append] at h1
    exact h1
  have hitklen : (s.intensity.take
        ((s.mz.takeWhile (fun v => Fq.lt v (Fq.fin q))).length)).length
      = (s.mz.takeWhile (fun v => Fq.lt v (Fq.fin q))).length := by
    rw [List.length_take]
    omega
  have hisplit : s.intensity.take ((s.mz.takeWhile (fun v => Fq.lt v (Fq.fin q))).length)
      ++ s.intensity.drop ((s.mz.takeWhile (fun v => Fq.lt v (Fq.fin q))).length)
      = s.intensity := List.take_append_drop _ _
  have hzip : s.mz.zip s.intensity
      = (s.mz.takeWhile (fun v => Fq.lt v (Fq.fin q))).zip
          (s.intensity.take ((s.mz.takeWhile (fun v => Fq.lt v (Fq.fin q))).length))
        ++ (s.mz.dropWhile (fun v => Fq.lt v (Fq.fin q))).zip
          (s.intensity.drop ((s.mz.takeWhile (fun v => Fq.lt v (Fq.fin q))).length)) := by
    conv_lhs => rw [← hsplit, ← hisplit]
    exact List.zip_append hitklen.symm
  have hfc : (s.mz.zip s.intensity).filter
        (fun p => Fq.le (Fq.fin q) p.1 && Fq.le p.1 (Fq.fin t))
      = (s.mz.zip s.intensity).filter
        (fun p => (!Fq.lt p.1 (Fq.fin q)) && (!Fq.lt (Fq.fin t) p.1)) := by
    apply List.filter_congr
    intro p hp
    obtain ⟨p1, p2⟩ := p
    obtain ⟨hp1, _hp2⟩ := List.of_mem_zip hp
    obtain ⟨α, hα⟩ := Fq.isFinite_exists (hfin p1 hp1)
    show (Fq.le (Fq.fin q) p1 && Fq.le p1 (Fq.fin t))
      = ((!Fq.lt p1 (Fq.fin q)) && (!Fq.lt (Fq.fin t) p1))
    rw [hα, le_eq_not_lt_rat q α, le_eq_not_lt_rat α t]
  have hpre : ((s.mz.takeWhile (fun v => Fq.lt v (Fq.fin q))).zip
        (s.intensity.take ((s.mz.takeWhile (fun v => Fq.lt v (Fq.fin q))).length))).filter
        (fun p => (!Fq.lt p.1 (Fq.fin q)) && (!Fq.lt (Fq.fin t) p.1)) = [] := by
    refine List.filter_eq_nil_iff.mpr (fun p hp => ?_)
    obtain ⟨p1, p2⟩ := p
    obtain ⟨hp1, _hp2⟩ := List.of_mem_zip hp
    have h1 : Fq.lt p1 (Fq.fin q) = true := by
      have h2 := List.mem_takeWhile_imp hp1
      exact h2
    simp [h1]
  have hBsort : (s.mz.dropWhile (fun v => Fq.lt v (Fq.fin q))).Pairwise
      (fun a b => Fq.le a b = true) := hpw.sublist (List.dropWhile_sublist _)
  have hlenBD : (s.mz.dropWhile (fun v => Fq.lt v (Fq.fin q))).length
      = (s.intensity.drop ((s.mz.takeWhile (fun v => Fq.lt v (Fq.fin q))).length)).length := by
    rw [List.length_drop]
    omega
  have hzpw : ((s.mz.dropWhile (fun v => Fq.lt v (Fq.fin q))).zip
        (s.intensity.drop ((s.mz.takeWhile (fun v => Fq.lt v (Fq.fin q))).length))).Pairwise
      (fun p r => Fq.le p.1 r.1 = true) := by
    have h2 : (((s.mz.dropWhile (fun v => Fq.lt v (Fq.fin q))).zip
          (s.intensity.drop ((s.mz.takeWhile (fun v => Fq.lt v (Fq.fin q))).length))).map
          (fun p => p.1)).Pairwise (fun a b => Fq.le a b = true) := by
      rw [map_fst_zip_eq hlenBD]
      exact hBsort
    exact List.pairwise_map.mp h2
  have hsufpw : ((s.mz.dropWhile (fun v => Fq.lt v (Fq.fin q))).zip
        (s.intensity.drop ((s.mz.takeWhile (fun v => Fq.lt v (Fq.fin q))).length))).Pairwise
      (fun p r => (!Fq.lt (Fq.fin t) p.1) = false → (!Fq.lt (Fq.fin t) r.1) = false) := by
    refine hzpw.imp ?_
    intro a b hle hf
    have ha : Fq.lt (Fq.fin t) a.1 = true := by
      cases hc : Fq.lt (Fq.fin t) a.1 with
      | true => rfl
      | false =>
        rw [hc] at hf
        exact absurd hf (by simp)
    have hb : Fq.lt (Fq.fin t) b.1 = true := Fq.lt_trans_le ha hle
    simp [hb]
  have hsuf : ((s.mz.dropWhile (fun v => Fq.lt v (Fq.fin q))).zip
        (s.intensity.drop ((s.mz.takeWhile (fun v => Fq.lt v (Fq.fin q))).length))).filter
        (fun p => (!Fq.lt p.1 (Fq.fin q)) && (!Fq.lt (Fq.fin t) p.1))
      = ((s.mz.dropWhile (fun v => Fq.lt v (Fq.fin q))).zip
        (s.intensity.drop ((s.mz.takeWhile (fun v => Fq.lt v (Fq.fin q))).length))).takeWhile
        (fun p => !Fq.lt (Fq.fin t) p.1) := by
    have hstep1 : ((s.mz.dropWhile (fun v => Fq.lt v (Fq.fin q))).zip
          (s.intensity.drop ((s.mz.takeWhile (fun v => Fq.lt v (Fq.fin q))).length))).filter
          (fun p => (!Fq.lt p.1 (Fq.fin q)) && (!Fq.lt (Fq.fin t) p.1))
        = ((s.mz.dropWhile (fun v => Fq.lt v (Fq.fin q))).zip
          (s.intensity.drop ((s.mz.takeWhile (fun v => Fq.lt v (Fq.fin q))).length))).filter
          (fun p => !Fq.lt (Fq.fin t) p.1) := by
      apply List.filter_congr
      intro p hp
      obtain ⟨p1, p2⟩ := p
      obtain ⟨hp1, _hp2⟩ := List.of_mem_zip hp
      have h1 : Fq.lt p1 (Fq.fin q) = false := dropWhile_all_false _ s.mz hpwlo p1 hp1
      show ((!Fq.lt p1 (Fq.fin q)) && (!Fq.lt (Fq.fin t) p1)) = (!Fq.lt (Fq.fin t) p1)
      rw [h1]
      simp
    rw [hstep1]
    exact filter_eq_takeWhile _ _ hsufpw
  have hfoldeq : (s.mz.zip s.intensity).filter
        (fun p => Fq.le (Fq.fin q) p.1 && Fq.le p.1 (Fq.fin t))
      = ((s.mz.drop ((s.mz.takeWhile (fun v => Fq.lt v (Fq.fin q))).length)).zip
          (s.intensity.drop ((s.mz.takeWhile (fun v => Fq.lt v (Fq.fin q))).length))).takeWhile
          (fun p => !Fq.lt (Fq.fin t) p.1) := by
    have hBdrop : s.mz.drop ((s.mz.takeWhile (fun v => Fq.lt v (Fq.fin q))).length)
        = s.mz.dropWhile (fun v => Fq.lt v (Fq.fin q)) := by
      nth_rewrite 2 [← hsplit]
      exact List.drop_left _ _
    rw [hBdrop, hfc, hzip, List.filter_append, hpre, List.nil_append, hsuf]
  calc eicScanAcc (Fq.fin q) (Fq.fin t) s
      = eicWalk s.intensity (Fq.fin t)
          (s.mz.drop (lower_bound s.mz (Fq.fin q))) (lower_bound s.mz (Fq.fin q))
          (Fq.fin 0) 0 := rfl
    _ = some ((((s.mz.drop ((s.mz.takeWhile (fun v => Fq.lt v (Fq.fin q))).length)).zip
          (s.intensity.drop ((s.mz.takeWhile (fun v => Fq.lt v (Fq.fin q))).length))).takeWhile
          (fun p => !Fq.lt (Fq.fin t) p.1)).foldl (fun a p => Fq.add a p.2) (Fq.fin 0)) := by
        rw [hj]
        exact eicWalk_spec s.intensity (Fq.fin t) _ _ _ _
          (by rw [List.length_drop]; omega) (by rw [List.length_drop]; omega)
    _ = some (((s.mz.zip s.intensity).filter
          (fun p => Fq.le (Fq.fin q) p.1 && Fq.le p.1 (Fq.fin t))).foldl
          (fun a p => Fq.add a p.2) (Fq.fin 0)) := by rw [hfoldeq]
    _ = some (inRangeSum (Fq.fin q) (Fq.fin t) s) := rfl

/-- The scan loop: every sorted finite scan accumulates its range sum. -/
theorem eicAccs_sorted (q t : ℚ) :
    ∀ scans : List CentroidScan,
      (∀ s ∈ scans, s.mz.Pairwise (fun a b => Fq.le a b = true) ∧
        (∀ v ∈ s.mz, v.isFinite = true) ∧
        s.intensity.length = s.mz.length ∧ s.mz.length ≤ 5000000) →
      eicAccs (Fq.fin q) (Fq.fin t) scans
        = some (scans.map (inRangeSum (Fq.fin q) (Fq.fin t))) := by
  intro scans
  induction scans with
  | nil =>
    intro _h
    rfl
  | cons s rest ih =>
    intro h
    have hhead := eicScanAcc_sorted s q t (h s (List.mem_cons_self s rest)).1
      (h s (List.mem_cons_self s rest)).2.1 (h s (List.mem_cons_self s rest)).2.2.1
      (h s (List.mem_cons_self s rest)).2.2.2
    have htail := ih (fun a ha => h a (List.mem_cons_of_mem s ha))
    calc eicAccs (Fq.fin q) (Fq.fin t) (s :: rest)
        = Option.bind (eicScanAcc (Fq.fin q) (Fq.fin t) s) (fun a =>
            Option.bind (eicAccs (Fq.fin q) (Fq.fin t) rest) (fun as2 =>
              some (a :: as2))) := rfl
      _ = Option.bind (eicAccs (Fq.fin q) (Fq.fin t) rest) (fun as2 =>
            some (inRangeSum (Fq.fin q) (Fq.fin t) s :: as2)) := by
          rw [hhead]
          rfl
      _ = some ((s :: rest).map (inRangeSum (Fq.fin q) (Fq.fin t))) := by
          rw [htail]
          rfl

/-- Reading a list back by index over its own range is the identity. -/
theorem rangeMap_getD_self {α : Type} (l : List α) (d : α) :
    (List.range l.length).map (fun i => l.getD i d) = l := by
  apply List.ext_getElem
  · simp
  · intro i h1 h2
    simp only [List.getElem_map, List.getElem_range]
    rw [List.getD_eq_getElem l d (by simpa using h2)]

/-- Claim C3, counterexample: the claimed per-scan range sum fails on a
collected scan whose m/z array is not sorted.  With target m/z 10 and
absolute tolerance 1 (also the claim's own max(ppm·1e-6·m, mz_tol)),
the interval is [9, 11]; on the scan with mz [20, 10] and intensities
[7, 9] the binary search lands on index 0 and the walk stops at 20 > 11
immediately, so the code returns 0 although 10 lies in range and the
spec's sum is 9. -/
theorem C3_counterexample :
    eicTol (EicOptions.mk (Fq.fin 0) (Fq.fin 1)) (Fq.fin 10) = Fq.fin 1 ∧
    specTolerance (EicOptions.mk (Fq.fin 0) (Fq.fin 1)) (Fq.fin 10) = Fq.fin 1 ∧
    Fq.sub (Fq.fin 10) (Fq.fin 1) = Fq.fin 9 ∧
    Fq.add (Fq.fin 10) (Fq.fin 1) = Fq.fin 11 ∧
    compute_eic_for_mz [CentroidScan.mk (Fq.fin 0) [Fq.fin 20, Fq.fin 10] [Fq.fin 7, Fq.fin 9]]
        1 (Fq.fin 10) (EicOptions.mk (Fq.fin 0) (Fq.fin 1))
      = some [Fq.fin 0] ∧
    inRangeSum (Fq.fin 9) (Fq.fin 11)
        (CentroidScan.mk (Fq.fin 0) [Fq.fin 20, Fq.fin 10] [Fq.fin 7, Fq.fin 9])
      = Fq.fin 9 ∧
    (Fq.fin 0 : Fq) ≠ Fq.fin 9 := by
  have h1 : eicTol (EicOptions.mk (Fq.fin 0) (Fq.fin 1)) (Fq.fin 10) = Fq.fin 1 := rfl
  have h3 : Fq.sub (Fq.fin 10) (Fq.fin 1) = Fq.fin 9 := congrArg Fq.fin (by norm_num)
  have h4 : Fq.add (Fq.fin 10) (Fq.fin 1) = Fq.fin 11 := congrArg Fq.fin (by norm_num)
  refine ⟨h1, ?_, h3, h4, ?_, ?_, by decide⟩
  · show Fq.fmax (Fq.fin (0 * (1 / 1000000) * 10)) (Fq.fin 1) = Fq.fin 1
    rw [fmax_fin_fin, if_pos (by norm_num)]
  · unfold compute_eic_for_mz
    rw [if_neg (by decide), h1, h3, h4]
    rfl
  · show Fq.fin ((0 : ℚ) + 9) = Fq.fin 9
    exact congrArg Fq.fin (by norm_num)

/-- Claim C3 (amended): for a collected scan list whose m/z arrays are
sorted non-decreasingly — the invariant the binary search requires —
with finite m/z entries, intensity arrays of matching length and at
most 5,000,000 points per scan, and a finite target with a valid
tolerance, the EIC output at scan i is exactly the left-to-right
accumulated intensity of the points whose m/z lies in the closed
interval [m - tol, m + tol]. -/
theorem C3_eic_sum (scans : List CentroidScan) (center : Fq) (opts : EicOptions)
    (hfin : center.isFinite = true)
    (htol : eicTolBad opts center = false)
    (hs : ∀ s ∈ scans, s.mz.Pairwise (fun a b => Fq.le a b = true) ∧
      (∀ v ∈ s.mz, v.isFinite = true) ∧
      s.intensity.length = s.mz.length ∧ s.mz.length ≤ 5000000) :
    compute_eic_for_mz scans scans.length center opts
      = some (scans.map (inRangeSum (Fq.sub center (eicTol opts center))
          (Fq.add center (eicTol opts center)))) := by
  obtain ⟨m, rfl⟩ := Fq.isFinite_exists hfin
  have htolf : (eicTol opts (Fq.fin m)).isFinite = true := by
    unfold eicTolBad at htol
    cases hcase : (eicTol opts (Fq.fin m)).isFinite with
    | true => rfl
    | false =>
      rw [hcase] at htol
      exact absurd htol (by simp)
  obtain ⟨tq, htq⟩ := Fq.isFinite_exists htolf
  have hsub : Fq.sub (Fq.fin m) (Fq.fin tq) = Fq.fin (m + -tq) := rfl
  have hadd : Fq.add (Fq.fin m) (Fq.fin tq) = Fq.fin (m + tq) := rfl
  have haccs := eicAccs_sorted (m + -tq) (m + tq) scans hs
  unfold compute_eic_for_mz
  rw [if_neg (by simp [htol]), htq, hsub, hadd]
  calc eicMain scans scans.length (Fq.fin (m + -tq)) (Fq.fin (m + tq))
      = Option.bind (eicAccs (Fq.fin (m + -tq)) (Fq.fin (m + tq)) scans) (fun accs =>
          if scans.length < scans.length then none
          else some ((List.range scans.length).map (fun i => accs.getD i (Fq.fin 0)))) := rfl
    _ = some ((List.range scans.length).map (fun i =>
          (scans.map (inRangeSum (Fq.fin (m + -tq)) (Fq.fin (m + tq)))).getD i (Fq.fin 0))) := by
        rw [haccs]
        show (if scans.length < scans.length then none
          else some ((List.range scans.length).map (fun i =>
            (scans.map (inRangeSum (Fq.fin (m + -tq)) (Fq.fin (m + tq)))).getD i (Fq.fin 0))))
          = some ((List.range scans.length).map (fun i =>
            (scans.map (inRangeSum (Fq.fin (m + -tq)) (Fq.fin (m + tq)))).getD i (Fq.fin 0)))
        rw [if_neg (lt_irrefl scans.length)]
    _ = some (scans.map (inRangeSum (Fq.fin (m + -tq)) (Fq.fin (m + tq)))) := by
        rw [show scans.length
          = (scans.map (inRangeSum (Fq.fin (m + -tq)) (Fq.fin (m + tq)))).length by simp,
          rangeMap_getD_self]

/-- Witness for C3: the amended statement at one sorted scan, target 10,
tolerance 1. -/
theorem C3_eic_sum_witness :
    (Fq.fin 10).isFinite = true ∧
    eicTolBad (EicOptions.mk (Fq.fin 0) (Fq.fin 1)) (Fq.fin 10) = false ∧
    (∀ s ∈ [CentroidScan.mk (Fq.fin 0) [Fq.fin 9, Fq.fin 10] [Fq.fin 7, Fq.fin 9]],
      s.mz.Pairwise (fun a b => Fq.le a b = true) ∧
      (∀ v ∈ s.mz, v.isFinite = true) ∧
      s.intensity.length = s.mz.length ∧ s.mz.length ≤ 5000000) ∧
    compute_eic_for_mz [CentroidScan.mk (Fq.fin 0) [Fq.fin 9, Fq.fin 10] [Fq.fin 7, Fq.fin 9]]
        [CentroidScan.mk (Fq.fin 0) [Fq.fin 9, Fq.fin 10] [Fq.fin 7, Fq.fin 9]].length
        (Fq.fin 10) (EicOptions.mk (Fq.fin 0) (Fq.fin 1))
      = some ([CentroidScan.mk (Fq.fin 0) [Fq.fin 9, Fq.fin 10] [Fq.fin 7, Fq.fin 9]].map
          (inRangeSum
            (Fq.sub (Fq.fin 10) (eicTol (EicOptions.mk (Fq.fin 0) (Fq.fin 1)) (Fq.fin 10)))
            (Fq.add (Fq.fin 10) (eicTol (EicOptions.mk (Fq.fin 0) (Fq.fin 1)) (Fq.fin 10))))) :=
  ⟨rfl, by decide, by decide,
    C3_eic_sum [CentroidScan.mk (Fq.fin 0) [Fq.fin 9, Fq.fin 10] [Fq.fin 7, Fq.fin 9]]
      (Fq.fin 10) (EicOptions.mk (Fq.fin 0) (Fq.fin 1)) rfl (by decide) (by decide)⟩

end Msut
